import Mathlib

/-!
Verification of the pretty-printing engine of this repository.

The engine (src/src/algorithm.rs) is an Oppen-style streaming line breaker.
We embed it shallowly: the output is a list of characters, machine integers
become Int (isize) and Nat (usize), and every operation that can panic in
Rust returns `Except EngErr`.  The two loops whose termination is not
structural (check_stream, and the mutually recursive drains) take an explicit
fuel argument; the public wrappers pass enough fuel for every state the
engine can actually reach, and fuel exhaustion is reported as the distinct
error `EngErr.fuel` (in Rust such a state would loop forever, which the
safety theorems below show cannot happen for well-formed drivers).

src/src/path.rs is embedded further down, on top of a small model of the
syn data types it consumes.
-/

namespace PP

/-- Character sequences: the model of Rust String / str slices. -/
abbrev Chars := List Char

/-- How to break (algorithm.rs `Breaks`). -/
inductive Breaks where
  | consistent
  | inconsistent
deriving DecidableEq, Repr

/-- algorithm.rs `BreakToken`. -/
structure BreakToken where
  offset : Int
  blank_space : Nat
  trailing_comma : Bool
  if_nonempty : Bool
deriving DecidableEq, Repr

/-- algorithm.rs `BeginToken`. -/
structure BeginToken where
  offset : Int
  breaks : Breaks
deriving DecidableEq, Repr

/-- algorithm.rs `Token`. -/
inductive Token where
  | string (s : Chars)
  | brk (t : BreakToken)
  | beginTok (t : BeginToken)
  | endTok
deriving DecidableEq, Repr

/-- algorithm.rs `PrintFrame`: `Fits(Breaks)` or `Broken(usize, Breaks)`. -/
inductive PrintFrame where
  | fits (b : Breaks)
  | broken (indent : Nat) (b : Breaks)
deriving DecidableEq, Repr

/-- algorithm.rs `SIZE_INFINITY = 0xffff`. -/
def SIZE_INFINITY : Int := 0xffff

/-- algorithm.rs `MARGIN = 79` (target line width). -/
def MARGIN : Int := 79

/-- algorithm.rs `MIN_SPACE = 60`. -/
def MIN_SPACE : Int := 60

/-- algorithm.rs `BufEntry`: a token with its calculated size. -/
structure BufEntry where
  token : Token
  size : Int
deriving DecidableEq, Repr

/-- Modelled from the spec: the repository file ring.rs (the `RingBuffer`
used by algorithm.rs) is not under src/.  Per spec section 4.1 it is a FIFO
of entries addressed by stable absolute indices: the live range is
`[offset, offset + data.length)`, `push` appends at the back and returns the
new absolute index, `pop_first` advances `offset`, `pop_last` removes the
newest entry, and `clear` empties the buffer while keeping absolute indices
monotone. -/
structure RingBuffer where
  offset : Nat
  data : List BufEntry
deriving DecidableEq, Repr

namespace RingBuffer

def empty : RingBuffer := ⟨0, []⟩

/-- Absolute index of the oldest live entry (ring.rs `index_of_first`). -/
def index_of_first (rb : RingBuffer) : Nat := rb.offset

/-- Push at the back, returning the new entry's absolute index. -/
def push (rb : RingBuffer) (e : BufEntry) : Nat × RingBuffer :=
  (rb.offset + rb.data.length, ⟨rb.offset, rb.data ++ [e]⟩)

/-- Remove the oldest entry (callers guarantee nonemptiness). -/
def pop_first (rb : RingBuffer) : RingBuffer :=
  ⟨rb.offset + 1, rb.data.tail⟩

/-- Remove the newest entry. -/
def pop_last (rb : RingBuffer) : RingBuffer :=
  ⟨rb.offset, rb.data.dropLast⟩

/-- Empty the buffer, keeping absolute indices monotone. -/
def clear (rb : RingBuffer) : RingBuffer :=
  ⟨rb.offset + rb.data.length, []⟩

/-- Access by absolute index; `none` when the index is not live. -/
def get? (rb : RingBuffer) (i : Nat) : Option BufEntry :=
  if i < rb.offset then none else rb.data.get? (i - rb.offset)

/-- Overwrite the entry at a live absolute index. -/
def setIdx (rb : RingBuffer) (i : Nat) (e : BufEntry) : RingBuffer :=
  ⟨rb.offset, rb.data.set (i - rb.offset) e⟩

/-- Replace the newest entry. -/
def setLast (rb : RingBuffer) (e : BufEntry) : RingBuffer :=
  ⟨rb.offset, rb.data.dropLast ++ [e]⟩

end RingBuffer

/-- Ghost record of one print_break decision: which print frame (and which
push of that frame, identified by `fid`) decided it, and whether a newline
was emitted.  Pure instrumentation, never read by the algorithm. -/
structure BreakEv where
  fid : Option Nat
  frame : Option PrintFrame
  newline : Bool
deriving DecidableEq, Repr

/-- Rust panic sites of the engine, each as a distinct error. -/
inductive EngErr where
  | frontUnwrap        -- scan_stack.front().unwrap() on an empty deque
  | fuel               -- a loop failed to make progress (divergence in Rust)
  | bufFirstEmpty      -- RingBuffer first/first_mut on an empty buffer
  | ringIndex          -- indexing the ring at a dead or absent index
  | lastUnwrap         -- RingBuffer::last_mut on an empty buffer
  | offsetUnreachable  -- the unreachable arm of Printer::offset
  | checkStackString   -- the unreachable String arm of check_stack
  | printEndUnwrap     -- print_stack.pop().unwrap() on an empty stack
  | negIndentBegin     -- usize::try_from failure in print_begin
  | negIndentBreak     -- usize::try_from failure in print_break
deriving DecidableEq, Repr

/-- algorithm.rs `Printer`.  The fields through `pending_indentation` are the
Rust struct; `gids`, `nextId` and `events` are ghost instrumentation (a stack
of unique identities for the print frames, parallel to `print_stack`, and the
log of print_break decisions) that no operation ever reads. -/
structure Printer where
  out : Chars
  space : Int
  buf : RingBuffer
  left_total : Int
  right_total : Int
  /-- scan_stack's VecDeque, with the back (newest) at the head. -/
  scan_stack : List Nat
  /-- print_stack's Vec, with the top at the head. -/
  print_stack : List PrintFrame
  indent : Nat
  pending_indentation : Nat
  gids : List Nat
  nextId : Nat
  events : List BreakEv
deriving DecidableEq, Repr

namespace Printer

/-- Printer::new. -/
def new : Printer :=
  { out := []
    space := MARGIN
    buf := RingBuffer.empty
    left_total := 0
    right_total := 0
    scan_stack := []
    print_stack := []
    indent := 0
    pending_indentation := 0
    gids := []
    nextId := 0
    events := [] }

/-- print_string: flush pending indentation, append the text, shrink space. -/
def print_string (p : Printer) (s : Chars) : Printer :=
  { p with
    out := p.out ++ List.replicate p.pending_indentation ' ' ++ s
    pending_indentation := 0
    space := p.space - s.length }

/-- get_top: the innermost print frame, an empty stack counting as
`Broken(0, Inconsistent)`. -/
def get_top (p : Printer) : PrintFrame :=
  p.print_stack.headD (.broken 0 .inconsistent)

/-- print_begin (the `prettyplease_debug` marker output is compiled out in
normal builds and omitted). -/
def print_begin (p : Printer) (t : BeginToken) (size : Int) : Except EngErr Printer :=
  if size > p.space then
    if (p.indent : Int) + t.offset < 0 then .error .negIndentBegin
    else .ok { p with
      print_stack := .broken p.indent t.breaks :: p.print_stack
      indent := ((p.indent : Int) + t.offset).toNat
      gids := p.nextId :: p.gids
      nextId := p.nextId + 1 }
  else .ok { p with
    print_stack := .fits t.breaks :: p.print_stack
    gids := p.nextId :: p.gids
    nextId := p.nextId + 1 }

/-- print_end. -/
def print_end (p : Printer) : Except EngErr Printer :=
  match p.print_stack with
  | [] => .error .printEndUnwrap
  | .broken ind _ :: rest =>
      .ok { p with print_stack := rest, indent := ind, gids := p.gids.tail }
  | .fits _ :: rest =>
      .ok { p with print_stack := rest, gids := p.gids.tail }

/-- The fit decision of print_break, from the innermost print frame. -/
def breakFits (p : Printer) (size : Int) : Bool :=
  match get_top p with
  | .fits _ => true
  | .broken _ .consistent => false
  | .broken _ .inconsistent => decide (size ≤ p.space)

/-- print_break. -/
def print_break (p : Printer) (t : BreakToken) (size : Int) : Except EngErr Printer :=
  if breakFits p size then
    .ok { p with
      pending_indentation := p.pending_indentation + t.blank_space
      space := p.space - t.blank_space
      events := ⟨p.gids.head?, p.print_stack.head?, false⟩ :: p.events }
  else if (p.indent : Int) + t.offset < 0 then .error .negIndentBreak
  else .ok { p with
    out := (if t.trailing_comma then p.out ++ [','] else p.out) ++ ['\n']
    pending_indentation := ((p.indent : Int) + t.offset).toNat
    space := max (MARGIN - ((p.indent : Int) + t.offset)) MIN_SPACE
    events := ⟨p.gids.head?, p.print_stack.head?, true⟩ :: p.events }

/-- The dispatch on the popped entry inside advance_left. -/
def dispatch (p : Printer) (e : BufEntry) : Except EngErr Printer :=
  match e.token with
  | .string s => .ok (print_string { p with left_total := p.left_total + s.length } s)
  | .brk t => print_break { p with left_total := p.left_total + t.blank_space } t e.size
  | .beginTok t => print_begin p t e.size
  | .endTok => print_end p

/-- advance_left, with explicit fuel (one unit per popped entry). -/
def advance_left_f : Nat → Printer → Except EngErr Printer
  | 0, _ => .error .fuel
  | fuel + 1, p =>
    match p.buf.data with
    | [] => .error .bufFirstEmpty
    | e :: rest =>
      if 0 ≤ e.size then
        match dispatch { p with buf := ⟨p.buf.offset + 1, rest⟩ } e with
        | .error er => .error er
        | .ok p2 => if p2.buf.data.isEmpty then .ok p2 else advance_left_f fuel p2
      else .ok p

/-- advance_left: the fuel covers one pop per buffered entry, which is
always sufficient because the dispatched print operations never touch the
buffer. -/
def advance_left (p : Printer) : Except EngErr Printer :=
  advance_left_f (p.buf.data.length + 1) p

/-- One iteration plus the tail of the check_stream loop, with explicit
fuel (one unit per iteration). -/
def check_stream_f : Nat → Printer → Except EngErr Printer
  | 0, _ => .error .fuel
  | fuel + 1, p =>
    if p.space < p.right_total - p.left_total then
      match p.scan_stack.getLast? with
      | none => .error .frontUnwrap
      | some front =>
        let step1 : Except EngErr Printer :=
          if front = p.buf.index_of_first then
            match p.buf.data with
            | [] => .error .bufFirstEmpty
            | e :: rest =>
              .ok { p with
                scan_stack := p.scan_stack.dropLast
                buf := ⟨p.buf.offset, { e with size := SIZE_INFINITY } :: rest⟩ }
          else .ok p
        match step1 with
        | .error er => .error er
        | .ok p1 =>
          match advance_left p1 with
          | .error er => .error er
          | .ok p2 => if p2.buf.data.isEmpty then .ok p2 else check_stream_f fuel p2
    else .ok p

/-- check_stream: every iteration of the Rust loop pops at least one entry
in every state the engine can reach, so one unit of fuel per buffered entry
(plus one) suffices; the safety theorems below prove the fuel is never
exhausted for well-formed drivers. -/
def check_stream (p : Printer) : Except EngErr Printer :=
  check_stream_f (p.buf.data.length + 1) p

/-- check_stack, with fuel (one unit per popped scan_stack entry, so the
length of the scan stack plus one always suffices). -/
def check_stack_f : Nat → Printer → Nat → Except EngErr Printer
  | 0, _, _ => .error .fuel
  | fuel + 1, p, depth =>
    match p.scan_stack with
    | [] => .ok p
    | index :: rest =>
      match p.buf.get? index with
      | none => .error .ringIndex
      | some entry =>
        match entry.token with
        | .beginTok _ =>
          if depth = 0 then .ok p
          else check_stack_f fuel
            { p with scan_stack := rest
                     buf := p.buf.setIdx index { entry with size := entry.size + p.right_total } }
            (depth - 1)
        | .endTok =>
          check_stack_f fuel
            { p with scan_stack := rest
                     buf := p.buf.setIdx index { entry with size := 1 } }
            (depth + 1)
        | .brk _ =>
          let p1 := { p with scan_stack := rest
                             buf := p.buf.setIdx index { entry with size := entry.size + p.right_total } }
          if depth = 0 then .ok p1 else check_stack_f fuel p1 depth
        | .string _ => .error .checkStackString

def check_stack (p : Printer) (depth : Nat) : Except EngErr Printer :=
  check_stack_f (p.scan_stack.length + 1) p depth

/-- scan_begin. -/
def scan_begin (p : Printer) (t : BeginToken) : Printer :=
  let p :=
    if p.scan_stack.isEmpty then
      { p with left_total := 1, right_total := 1, buf := p.buf.clear }
    else p
  let (idx, buf1) := p.buf.push ⟨.beginTok t, -p.right_total⟩
  { p with buf := buf1, scan_stack := idx :: p.scan_stack }

/-- The shared tail of scan_end: push an End entry with size -1. -/
def push_end (p : Printer) : Printer :=
  let (idx, buf1) := p.buf.push ⟨.endTok, -1⟩
  { p with buf := buf1, scan_stack := idx :: p.scan_stack }

/-- scan_end, including the two peephole rules. -/
def scan_end (p : Printer) : Except EngErr Printer :=
  if p.scan_stack.isEmpty then print_end p
  else .ok <|
    match p.buf.data.getLast? with
    | some lastE =>
      match lastE.token with
      | .brk bt =>
        match (p.buf.data.dropLast).getLast? with
        | some sl =>
          match sl.token with
          | .beginTok _ =>
            { p with
              buf := (p.buf.pop_last).pop_last
              scan_stack := p.scan_stack.tail.tail
              right_total := p.right_total - bt.blank_space }
          | _ =>
            if bt.if_nonempty then
              push_end { p with
                buf := p.buf.pop_last
                scan_stack := p.scan_stack.tail
                right_total := p.right_total - bt.blank_space }
            else push_end p
        | none =>
          if bt.if_nonempty then
            push_end { p with
              buf := p.buf.pop_last
              scan_stack := p.scan_stack.tail
              right_total := p.right_total - bt.blank_space }
          else push_end p
      | _ => push_end p
    | none => push_end p

/-- scan_break. -/
def scan_break (p : Printer) (t : BreakToken) : Except EngErr Printer := do
  let p1 ←
    if p.scan_stack.isEmpty then
      pure { p with left_total := 1, right_total := 1, buf := p.buf.clear }
    else check_stack p 0
  let (idx, buf1) := p1.buf.push ⟨.brk t, -p1.right_total⟩
  pure { p1 with
    buf := buf1
    scan_stack := idx :: p1.scan_stack
    right_total := p1.right_total + t.blank_space }

/-- scan_string. -/
def scan_string (p : Printer) (s : Chars) : Except EngErr Printer :=
  if p.scan_stack.isEmpty then .ok (print_string p s)
  else
    let (_, buf1) := p.buf.push ⟨.string s, (s.length : Int)⟩
    check_stream { p with buf := buf1, right_total := p.right_total + s.length }

/-- Printer::offset. -/
def offsetOp (p : Printer) (delta : Int) : Except EngErr Printer :=
  match p.buf.data.getLast? with
  | none => .error .lastUnwrap
  | some e =>
    match e.token with
    | .brk t =>
        .ok { p with buf := p.buf.setLast { e with token := .brk { t with offset := t.offset + delta } } }
    | .beginTok _ => .ok p
    | .string _ => .error .offsetUnreachable
    | .endTok => .error .offsetUnreachable

/-- The flush performed by eof before the output is returned. -/
def eofFlush (p : Printer) : Except EngErr Printer :=
  if p.scan_stack.isEmpty then .ok p
  else do
    let p1 ← check_stack p 0
    advance_left p1

/-- eof: flush, then return the accumulated output. -/
def eofRun (p : Printer) : Except EngErr Chars :=
  (eofFlush p).map (·.out)

end Printer

/-- One public engine operation, as issued by a driver. -/
inductive Op where
  | string (s : Chars)
  | brk (t : BreakToken)
  | beginB (t : BeginToken)
  | endE
  | offs (n : Int)
deriving DecidableEq, Repr

/-- Apply one driver operation. -/
def step (p : Printer) : Op → Except EngErr Printer
  | .string s => p.scan_string s
  | .brk t => p.scan_break t
  | .beginB t => .ok (p.scan_begin t)
  | .endE => p.scan_end
  | .offs n => p.offsetOp n

/-- Run a driver sequence. -/
def runOps (p : Printer) (ops : List Op) : Except EngErr Printer :=
  ops.foldlM step p

namespace Printer

/-- Modelled from the spec: word(s) is scan_string(s) (section 4.4; the
facade file convenience.rs is not under src/). -/
def word (p : Printer) (s : Chars) : Except EngErr Printer := p.scan_string s

/-- Modelled from the spec: space() is a Break with blank_space 1 and no
flags (section 4.4). -/
def spaceBrk (p : Printer) : Except EngErr Printer :=
  p.scan_break ⟨0, 1, false, false⟩

/-- Modelled from the spec: zerobreak() is a Break with blank_space 0
(section 4.4). -/
def zerobreak (p : Printer) : Except EngErr Printer :=
  p.scan_break ⟨0, 0, false, false⟩

/-- Modelled from the spec: ibox(n) begins an Inconsistent block
(section 4.4). -/
def ibox (p : Printer) (n : Int) : Printer := p.scan_begin ⟨n, .inconsistent⟩

/-- Modelled from the spec: cbox(n) begins a Consistent block
(section 4.4). -/
def cbox (p : Printer) (n : Int) : Printer := p.scan_begin ⟨n, .consistent⟩

/-- Modelled from the spec: trailing_comma(is_last) emits a comma Break
when last, else a literal comma and a space (section 4.4). -/
def trailing_comma (p : Printer) (is_last : Bool) : Except EngErr Printer :=
  if is_last then p.scan_break ⟨0, 0, true, false⟩
  else do
    let p1 ← p.word [',']
    p1.spaceBrk

/-- Modelled from the spec: identifier printing (token.rs is not under
src/) is word of the identifier text. -/
def identP (p : Printer) (i : Chars) : Except EngErr Printer := p.word i

end Printer

/-- Modelled from the spec: INDENT is the driver indent constant, 4
(section 8; lib.rs is not under src/). -/
def INDENT : Int := 4

/-!
The syn data model consumed by src/src/path.rs.  syn is an external crate:
the payloads that path.rs never inspects (types, lifetimes, expressions,
bounds, return types) are opaque type parameters `L T E TB R`, and the
printers the engine delegates to for them (ty, lifetime, expr, ...) live in
other repository files not under src/, so they are passed in as a record of
arbitrary engine-level functions.
-/

/-- syn Binding, as read by path.rs (an ident and a type). -/
structure Binding (T : Type) where
  ident : Chars
  ty : T

/-- syn Constraint, as read by path.rs (an ident and bounds). -/
structure Constraint (TB : Type) where
  ident : Chars
  bounds : List TB

/-- syn Expr, to the extent generic_argument distinguishes it: a literal, a
block, or anything else. -/
inductive Expr (E : Type) where
  | lit (e : E)
  | block (e : E)
  | other (e : E)

/-- syn GenericArgument, as read by path.rs. -/
inductive GenericArgument (L T E TB : Type) where
  | lifetime (l : L)
  | typeArg (t : T)
  | binding (b : Binding T)
  | constraint (c : Constraint TB)
  | constArg (e : Expr E)

/-- syn AngleBracketedGenericArguments. -/
structure AngleBracketedGenericArguments (L T E TB : Type) where
  colon2_token : Bool
  args : List (GenericArgument L T E TB)

/-- syn ParenthesizedGenericArguments. -/
structure ParenthesizedGenericArguments (T R : Type) where
  inputs : List T
  output : R

/-- syn PathArguments (`noArgs` stands for PathArguments::None). -/
inductive PathArguments (L T E TB R : Type) where
  | noArgs
  | angleBracketed (a : AngleBracketedGenericArguments L T E TB)
  | parenthesized (a : ParenthesizedGenericArguments T R)

/-- syn PathSegment. -/
structure PathSegment (L T E TB R : Type) where
  ident : Chars
  arguments : PathArguments L T E TB R

/-- syn Path (leading_colon as a Bool). -/
structure Path (L T E TB R : Type) where
  leading_colon : Bool
  segments : List (PathSegment L T E TB R)

/-- The printers for the syn payloads path.rs does not inspect, implemented
in repository files outside src/ (ty.rs, expr.rs, lifetime.rs, ...): an
arbitrary record of engine-level printing functions. -/
structure SynPrinters (L T E TB R : Type) where
  lifetime : Printer → L → Except EngErr Printer
  ty : Printer → T → Except EngErr Printer
  expr_lit : Printer → E → Except EngErr Printer
  expr_block : Printer → E → Except EngErr Printer
  expr : Printer → E → Except EngErr Printer
  type_param_bound : Printer → TB → Except EngErr Printer
  return_type : Printer → R → Except EngErr Printer

section PathModel

variable {L T E TB R : Type} (X : SynPrinters L T E TB R)

/-- The opening brace character (written by code point to keep it out of
the source text). -/
def lbraceChar : Char := Char.ofNat 123

/-- The closing brace character. -/
def rbraceChar : Char := Char.ofNat 125

/-- path.rs `binding`. -/
def binding_print (p : Printer) (b : Binding T) : Except EngErr Printer := do
  let p ← p.identP b.ident
  let p ← p.word [' ', '=', ' ']
  X.ty p b.ty

/-- The delimited loop inside path.rs `constraint` (is_first flag). -/
def constraint_bounds_loop : Printer → List TB → Bool → Except EngErr Printer
  | p, [], _ => .ok p
  | p, b :: rest, isFirst => do
    let p ←
      if isFirst then p.word [':', ' ']
      else do
        let p ← p.spaceBrk
        p.word ['+', ' ']
    let p ← X.type_param_bound p b
    constraint_bounds_loop p rest false

/-- path.rs `constraint`. -/
def constraint_print (p : Printer) (c : Constraint TB) : Except EngErr Printer := do
  let p ← p.identP c.ident
  let p := p.ibox INDENT
  let p ← constraint_bounds_loop X p c.bounds true
  p.scan_end

/-- path.rs `generic_argument` (the braces around a non-literal non-block
const argument are its error correction). -/
def generic_argument (p : Printer) : GenericArgument L T E TB → Except EngErr Printer
  | .lifetime l => X.lifetime p l
  | .typeArg t => X.ty p t
  | .binding b => binding_print X p b
  | .constraint c => constraint_print X p c
  | .constArg (.lit e) => X.expr_lit p e
  | .constArg (.block e) => X.expr_block p e
  | .constArg (.other e) => do
    let p ← p.word [lbraceChar]
    let p ← X.expr p e
    p.word [rbraceChar]

/-- path.rs `group`: lifetimes first, types and consts second, bindings and
constraints third. -/
def groupOf : GenericArgument L T E TB → Nat
  | .lifetime _ => 0
  | .typeArg _ => 1
  | .constArg _ => 1
  | .binding _ => 2
  | .constraint _ => 2

/-- The `last` computation of angle_bracketed_generic_arguments:
`max_by_key` returns the last maximal element, and `map_or(0, ..)` the
index 0 for an empty list. -/
def lastMaxIdx (args : List (GenericArgument L T E TB)) : Nat :=
  ((args.enum.foldl
      (fun acc ia =>
        match acc with
        | none => some (ia.1, groupOf ia.2)
        | some jg => if jg.2 ≤ groupOf ia.2 then some (ia.1, groupOf ia.2) else some jg)
      none).map Prod.fst).getD 0

/-- One pass of the grouped argument loop of
angle_bracketed_generic_arguments, over the enumerated argument list. -/
def abga_pass (last cg : Nat) : Printer → List (Nat × GenericArgument L T E TB) →
    Except EngErr Printer
  | p, [] => .ok p
  | p, (i, a) :: rest => do
    let p ←
      if groupOf a = cg then do
        let p ← generic_argument X p a
        p.trailing_comma (i = last)
      else pure p
    abga_pass last cg p rest

/-- path.rs `angle_bracketed_generic_arguments`. -/
def angle_bracketed_generic_arguments (p : Printer)
    (g : AngleBracketedGenericArguments L T E TB) : Except EngErr Printer :=
  if g.args.isEmpty then .ok p
  else do
    let p ← if g.colon2_token then p.word [':', ':'] else pure p
    let p ← p.word ['<']
    let p := p.cbox INDENT
    let p ← p.zerobreak
    let last := lastMaxIdx g.args
    let p ← abga_pass X last 0 p g.args.enum
    let p ← abga_pass X last 1 p g.args.enum
    let p ← abga_pass X last 2 p g.args.enum
    let p ← p.offsetOp (-INDENT)
    let p ← p.scan_end
    p.word ['>']

/-- The delimited loop inside path.rs
`parenthesized_generic_arguments` (is_last flag through trailing_comma). -/
def paren_inputs_loop : Printer → List T → Except EngErr Printer
  | p, [] => .ok p
  | p, t :: rest => do
    let p ← X.ty p t
    let p ← p.trailing_comma rest.isEmpty
    paren_inputs_loop p rest

/-- path.rs `parenthesized_generic_arguments`. -/
def parenthesized_generic_arguments (p : Printer)
    (a : ParenthesizedGenericArguments T R) : Except EngErr Printer := do
  let p := p.cbox INDENT
  let p ← p.word ['(']
  let p ← p.zerobreak
  let p ← paren_inputs_loop X p a.inputs
  let p ← p.offsetOp (-INDENT)
  let p ← p.word [')']
  let p ← X.return_type p a.output
  p.scan_end

/-- path.rs `path_arguments`. -/
def path_arguments (p : Printer) : PathArguments L T E TB R → Except EngErr Printer
  | .noArgs => .ok p
  | .angleBracketed a => angle_bracketed_generic_arguments X p a
  | .parenthesized a => parenthesized_generic_arguments X p a

/-- path.rs `path_segment`. -/
def path_segment (p : Printer) (seg : PathSegment L T E TB R) : Except EngErr Printer := do
  let p ← p.identP seg.ident
  path_arguments X p seg.arguments

/-- Errors at the path-printing level: an engine error, or one of the two
assertions in path.rs. -/
inductive Err where
  | eng (e : EngErr)
  | pathAssert
  | qpathAssert
deriving DecidableEq, Repr

/-- Lift an engine result to the path level. -/
def liftE {α : Type} : Except EngErr α → Except Err α
  | .ok a => .ok a
  | .error e => .error (.eng e)

/-- The delimited loop of path.rs `path` (is_first flag, leading colon). -/
def path_segments_loop : Printer → List (PathSegment L T E TB R) → Bool → Bool →
    Except EngErr Printer
  | p, [], _, _ => .ok p
  | p, seg :: rest, isFirst, leadingColon => do
    let p ← if !isFirst || leadingColon then p.word [':', ':'] else pure p
    let p ← path_segment X p seg
    path_segments_loop p rest false leadingColon

/-- path.rs `path`, with its entry assertion
`assert!(!path.segments.is_empty())`. -/
def path_print (st : Printer) (pa : Path L T E TB R) : Except Err Printer :=
  if pa.segments.isEmpty then .error .pathAssert
  else liftE (path_segments_loop X st pa.segments true pa.leading_colon)

end PathModel

/-!
Property definitions used by the theorems below.
-/

/-- The logical width a token contributes to the running totals. -/
def tokW : Token → Nat
  | .string s => s.length
  | .brk t => t.blank_space
  | .beginTok _ => 0
  | .endTok => 0

/-- The width of a buffered entry. -/
def entW (e : BufEntry) : Nat := tokW e.token

/-- The total width of the buffered String and Break entries. -/
def totW (l : List BufEntry) : Nat := (l.map entW).sum

/-- The width bookkeeping invariant: the difference of the running totals
is the total width of the buffered entries. -/
def WInv (p : Printer) : Prop :=
  p.right_total - p.left_total = totW p.buf.data

/-- Whether a space character immediately precedes a newline character
anywhere in the list. -/
def spaceNL : Chars → Bool
  | c1 :: c2 :: rest => (c1 = ' ' && c2 = '\n') || spaceNL (c2 :: rest)
  | _ => false

/-- No line of the output ends with a space: no space immediately before a
newline, and the last character is not a space. -/
def noTrailWS (s : Chars) : Prop :=
  spaceNL s = false ∧ s.getLast? ≠ some ' '

/-- A scanned string that cannot create trailing whitespace: nonempty, not
starting with a newline, not ending with a space, and without an internal
space-newline pair. -/
def goodString (s : Chars) : Prop :=
  s ≠ [] ∧ s.head? ≠ some '\n' ∧ s.getLast? ≠ some ' ' ∧ spaceNL s = false

/-- Every buffered string entry is a good string. -/
def BufGood (l : List BufEntry) : Prop :=
  ∀ e ∈ l, ∀ s, e.token = .string s → goodString s

/-- The output-shape invariant for the no-trailing-whitespace theorem: the
output so far is clean and every buffered string is good. -/
def GOut (p : Printer) : Prop :=
  noTrailWS p.out ∧ BufGood p.buf.data

/-- The ghost-instrumentation invariant behind the consistent-block law:
the frame-identity stack mirrors the print stack, identities are unique and
fresh, every logged break decision is consistent with the frame that made
it, and decisions on Fits or Broken-Consistent frames are forced. -/
def GhostInv (p : Printer) : Prop :=
  p.gids.length = p.print_stack.length ∧
  p.gids.Chain' (· > ·) ∧
  (∀ g ∈ p.gids, g < p.nextId) ∧
  (∀ e ∈ p.events, ∀ k, e.fid = some k → k < p.nextId) ∧
  (∀ e ∈ p.events, ∀ i k, e.fid = some k → p.gids.get? i = some k →
    p.print_stack.get? i = e.frame) ∧
  (∀ e ∈ p.events, e.fid = none → e.frame = none) ∧
  (∀ e e', e ∈ p.events → e' ∈ p.events → e.fid = e'.fid → e.frame = e'.frame) ∧
  (∀ e ∈ p.events, ∀ f, e.frame = some f →
    (∀ i, f = .broken i .consistent → e.newline = true) ∧
    (∀ b, f = .fits b → e.newline = false))

/-- The block balance a token contributes: Begin opens, End closes. -/
def balTok : Token → Int
  | .beginTok _ => 1
  | .endTok => -1
  | _ => 0

/-- The net block balance of a token sequence. -/
def balSum (l : List Token) : Int := (l.map balTok).sum

/-- The minimum balance over all prefixes of a token sequence (at most
zero, since the empty prefix counts). -/
def mpb : List Token → Int
  | [] => 0
  | t :: r => min 0 (balTok t + mpb r)

/-- Tokens that may legally be the newest buffered token when offset runs. -/
def brkOrBeg : Token → Prop
  | .brk _ => True
  | .beginTok _ => True
  | _ => False

/-- The newest buffered token exists and is a Break or a Begin. -/
def lastBB (p : Printer) : Prop :=
  ∃ e, p.buf.data.getLast? = some e ∧ brkOrBeg e.token

/-- A token whose indentation offset is non-negative. -/
def tokOffOk : Token → Prop
  | .brk t => 0 ≤ t.offset
  | .beginTok t => 0 ≤ t.offset
  | _ => True

/-- A driver operation whose offsets are non-negative. -/
def opOffOk : Op → Prop
  | .brk t => 0 ≤ t.offset
  | .beginB t => 0 ≤ t.offset
  | .offs n => 0 ≤ n
  | _ => True

/-- The block balance a driver operation contributes. -/
def opBal : Op → Int
  | .beginB _ => 1
  | .endE => -1
  | _ => 0

/-- Every End of the operation sequence is matched by a preceding
unmatched Begin: the running balance, started at d, never goes negative. -/
def netOk : Int → List Op → Prop
  | _, [] => True
  | d, op :: rest => 0 ≤ d + opBal op ∧ netOk (d + opBal op) rest

/-- Every offset operation is immediately preceded by a scan_break, a
scan_begin, or another offset (the flag records whether the newest
buffered token is currently a Break or a Begin). -/
def offsOk : Bool → List Op → Prop
  | _, [] => True
  | flag, op :: rest =>
    (∀ n, op = Op.offs n → flag = true) ∧
    offsOk (match op with
      | Op.brk _ => true
      | Op.beginB _ => true
      | Op.offs _ => flag
      | _ => false) rest

/-- The safety invariant of the engine, at driver-operation boundaries.
`buf.data.get? j` is the entry at buffer position j, whose absolute ring
index is `buf.offset + j`. -/
structure Inv (p : Printer) : Prop where
  winv : WInv p
  posLeft : p.scan_stack ≠ [] → 1 ≤ p.left_total
  sorted : p.scan_stack.Chain' (· > ·)
  live : ∀ i ∈ p.scan_stack, p.buf.offset ≤ i ∧ i - p.buf.offset < p.buf.data.length
  uos : ∀ j e, p.buf.data.get? j = some e → e.size < 0 → (p.buf.offset + j) ∈ p.scan_stack
  onstack : ∀ i ∈ p.scan_stack, ∀ e, p.buf.data.get? (i - p.buf.offset) = some e →
    e.size < 0
  nostring : ∀ i ∈ p.scan_stack, ∀ e, p.buf.data.get? (i - p.buf.offset) = some e →
    ∀ s, e.token ≠ .string s
  trailw : ∀ i ∈ p.scan_stack, ∀ e, p.buf.data.get? (i - p.buf.offset) = some e →
    brkOrBeg e.token →
    p.right_total + e.size = totW (p.buf.data.drop (i - p.buf.offset))
  emptyInv : p.scan_stack = [] → p.buf.data = []
  botBegin : ∀ b, p.scan_stack.getLast? = some b →
    ∀ e, p.buf.data.get? (b - p.buf.offset) = some e →
    ∀ t, e.token = .beginTok t → b = p.buf.offset
  offsInv : ∀ j e, p.buf.data.get? j = some e → tokOffOk e.token
  dok : 0 ≤ (p.print_stack.length : Int) + mpb (p.buf.data.map BufEntry.token)
  resBeg : ∀ j e, p.buf.data.get? j = some e → (∃ t, e.token = .beginTok t) →
    0 ≤ e.size →
    ∃ k e2, j < k ∧ p.buf.data.get? k = some e2 ∧ e2.token = .endTok
  resBrk : ∀ j e, p.buf.data.get? j = some e → (∃ t, e.token = .brk t) → 0 ≤ e.size →
    (∃ k e2, j < k ∧ p.buf.data.get? k = some e2 ∧
      ((∃ s, e2.token = .string s) ∨ e2.token = .endTok)) ∨
    (∃ k e2, j < k ∧ p.buf.data.get? k = some e2 ∧ (∃ t2, e2.token = .brk t2) ∧
      e2.size < 0 ∧
      ∀ m e3, j < m → m < k → p.buf.data.get? m = some e3 →
        ∀ tb, e3.token ≠ .beginTok tb)

/-- The print-depth bookkeeping: the open-block count d equals the printed
depth plus the balance still buffered. -/
def PSB (p : Printer) (d : Int) : Prop :=
  (p.print_stack.length : Int) + balSum (p.buf.data.map BufEntry.token) = d

/-- A driver sequence that forces a consistent block to break, for
witnesses: cbox(4), a 90-character word, space(), word, end(). -/
def c4ops : List Op :=
  [Op.beginB ⟨4, .consistent⟩, Op.string (List.replicate 90 'a'),
   Op.brk ⟨0, 1, false, false⟩, Op.string ['b'], Op.endE]

/-- A concrete well-formed driver sequence for the infallibility theorem:
a consistent block holding a word, a break whose offset is then adjusted,
and a second word. -/
def c7ops : List Op :=
  [Op.beginB ⟨2, .consistent⟩, Op.string ['a'], Op.brk ⟨0, 1, false, false⟩,
   Op.offs 1, Op.string ['b'], Op.endE]

/-- The state c4ops reaches. -/
def c4P : Printer := (runOps Printer.new c4ops).toOption.getD Printer.new

/-- The one break decision c4ops logs. -/
def c4ev : BreakEv := ⟨some 0, some (.broken 0 .consistent), true⟩

/-- A printer whose newest buffered token is a Break, for witnesses. -/
def onebrkP : Printer :=
  { Printer.new with buf := ⟨0, [⟨.brk ⟨0, 1, false, false⟩, -1⟩]⟩ }

/-- A fresh printer holding one open consistent box, for witnesses. -/
def wit2P : Printer := Printer.new.scan_begin ⟨4, .consistent⟩

/-- The state of wit2P after scanning one one-character word. -/
def wit2Q : Printer :=
  { wit2P with
    buf := ⟨0, [⟨.beginTok ⟨4, .consistent⟩, -1⟩, ⟨.string ['a'], 1⟩]⟩
    right_total := 2 }

/-- A record of trivial payload printers, for witnesses. -/
def trivialSyn : SynPrinters Unit Unit Unit Unit Unit :=
  ⟨fun p _ => .ok p, fun p _ => .ok p, fun p _ => .ok p, fun p _ => .ok p,
   fun p _ => .ok p, fun p _ => .ok p, fun p _ => .ok p⟩

/-- A printer state reachable by running driver operations from a fresh
printer. -/
def Reach (p : Printer) : Prop :=
  ∃ ops, runOps Printer.new ops = .ok p

/-- A printer state reachable by running driver operations from a fresh
printer, possibly followed by the eof flush. -/
def ReachE (p : Printer) : Prop :=
  ∃ ops q, runOps Printer.new ops = .ok q ∧ (p = q ∨ q.eofFlush = .ok p)

/-- The fields check_stack leaves untouched (it only resolves sizes inside
the buffer and pops scan-stack entries). -/
def SameShape (p q : Printer) : Prop :=
  q.out = p.out ∧ q.space = p.space ∧ q.left_total = p.left_total ∧
  q.right_total = p.right_total ∧ q.print_stack = p.print_stack ∧
  q.indent = p.indent ∧ q.pending_indentation = p.pending_indentation ∧
  q.gids = p.gids ∧ q.nextId = p.nextId ∧ q.events = p.events ∧
  q.buf.offset = p.buf.offset ∧ totW q.buf.data = totW p.buf.data ∧
  q.buf.data.length = p.buf.data.length ∧
  q.buf.data.map BufEntry.token = p.buf.data.map BufEntry.token

/-!
Theorems.
-/

/-- C1: print_break decides each break solely by the innermost PrintFrame
(an empty print stack counts as Broken(0, Inconsistent)); under Fits it
adds blank_space to pending_indentation and subtracts it from space; under
Broken/Consistent it always emits a newline; under Broken/Inconsistent it
emits a newline iff size > space; and every newline first appends a comma
when trailing_comma is set, then a newline, sets pending_indentation to
indent + offset, and resets space to max(MARGIN - (indent + offset),
MIN_SPACE). -/
theorem print_break_cases (p : Printer) (t : BreakToken) (size : Int)
    (h : 0 ≤ (p.indent : Int) + t.offset) :
    (p.print_stack = [] → Printer.get_top p = .broken 0 .inconsistent) ∧
    (∀ b, Printer.get_top p = .fits b →
      p.print_break t size = .ok { p with
        pending_indentation := p.pending_indentation + t.blank_space
        space := p.space - t.blank_space
        events := ⟨p.gids.head?, p.print_stack.head?, false⟩ :: p.events }) ∧
    (∀ i, Printer.get_top p = .broken i .consistent →
      p.print_break t size = .ok { p with
        out := (if t.trailing_comma then p.out ++ [','] else p.out) ++ ['\n']
        pending_indentation := ((p.indent : Int) + t.offset).toNat
        space := max (MARGIN - ((p.indent : Int) + t.offset)) MIN_SPACE
        events := ⟨p.gids.head?, p.print_stack.head?, true⟩ :: p.events }) ∧
    (∀ i, Printer.get_top p = .broken i .inconsistent →
      (p.space < size →
        p.print_break t size = .ok { p with
          out := (if t.trailing_comma then p.out ++ [','] else p.out) ++ ['\n']
          pending_indentation := ((p.indent : Int) + t.offset).toNat
          space := max (MARGIN - ((p.indent : Int) + t.offset)) MIN_SPACE
          events := ⟨p.gids.head?, p.print_stack.head?, true⟩ :: p.events }) ∧
      (size ≤ p.space →
        p.print_break t size = .ok { p with
          pending_indentation := p.pending_indentation + t.blank_space
          space := p.space - t.blank_space
          events := ⟨p.gids.head?, p.print_stack.head?, false⟩ :: p.events })) := by
  refine ⟨fun hs => ?_, fun b hb => ?_, fun i hb => ?_, fun i hb => ⟨fun hsz => ?_, fun hsz => ?_⟩⟩
  · simp [Printer.get_top, hs]
  · simp [Printer.print_break, Printer.breakFits, hb]
  · simp [Printer.print_break, Printer.breakFits, hb, not_lt.mpr h]
  · simp [Printer.print_break, Printer.breakFits, hb, not_le.mpr hsz, not_lt.mpr h]
  · simp [Printer.print_break, Printer.breakFits, hb, hsz]

/-- Witness for print_break_cases: a concrete break under the outer frame
on a fresh printer. -/
theorem print_break_cases_witness :
    (0 ≤ (Printer.new.indent : Int) + (1 : Int)) ∧
    (Printer.new.print_stack = [] →
      Printer.get_top Printer.new = .broken 0 .inconsistent) := by
  refine ⟨by decide, ?_⟩
  exact (print_break_cases Printer.new ⟨1, 1, false, false⟩ 0 (by decide)).1

/-- C3: the driver sequence scan_begin(Consistent, 4), scan_break(blank 0),
scan_end, eof returns the empty output from a fresh printer: the peephole
in scan_end pops the Begin/Break pair and both scan-stack indices and
subtracts the blank_space from right_total, so the final state is the fresh
printer with both totals rebased to 1 and nothing ever emitted. -/
theorem s6_empty_block_elision :
    runOps Printer.new [Op.beginB ⟨4, .consistent⟩, Op.brk ⟨0, 0, false, false⟩, Op.endE] =
      .ok { Printer.new with left_total := 1, right_total := 1 } ∧
    (runOps Printer.new
        [Op.beginB ⟨4, .consistent⟩, Op.brk ⟨0, 0, false, false⟩, Op.endE]).bind
      Printer.eofRun = .ok [] :=
  ⟨rfl, rfl⟩

/-- C8: offset(delta) adds delta to the offset of the newest buffered Break
token; is a no-op when the newest buffered token is a Begin; and panics
(the unreachable arm) when it is a String or an End. -/
theorem offset_cases (p : Printer) (d : Int) :
    (∀ e t, p.buf.data.getLast? = some e → e.token = .brk t →
      p.offsetOp d = .ok { p with
        buf := p.buf.setLast { e with token := .brk { t with offset := t.offset + d } } }) ∧
    (∀ e t, p.buf.data.getLast? = some e → e.token = .beginTok t →
      p.offsetOp d = .ok p) ∧
    (∀ e s, p.buf.data.getLast? = some e → e.token = .string s →
      p.offsetOp d = .error .offsetUnreachable) ∧
    (∀ e, p.buf.data.getLast? = some e → e.token = .endTok →
      p.offsetOp d = .error .offsetUnreachable) := by
  refine ⟨fun e t he ht => ?_, fun e t he ht => ?_, fun e s he ht => ?_, fun e he ht => ?_⟩ <;>
    simp [Printer.offsetOp, he, ht]

/-- Witness for offset_cases: a printer whose newest token is a Break. -/
theorem offset_cases_witness :
    onebrkP.buf.data.getLast? = some ⟨.brk ⟨0, 1, false, false⟩, -1⟩ ∧
    onebrkP.offsetOp 2 = .ok { onebrkP with
      buf := onebrkP.buf.setLast ⟨.brk ⟨2, 1, false, false⟩, -1⟩ } :=
  ⟨rfl, (offset_cases onebrkP 2).1 ⟨.brk ⟨0, 1, false, false⟩, -1⟩ ⟨0, 1, false, false⟩ rfl rfl⟩

/-- Whatever check_stream returns, the unflushed width is at most space or
the buffer has fully drained (the loop exit condition). -/
theorem check_stream_f_post : ∀ fuel (p q : Printer),
    Printer.check_stream_f fuel p = .ok q →
    q.right_total - q.left_total ≤ q.space ∨ q.buf.data = [] := by
  intro fuel
  induction fuel with
  | zero => intro p q h; exact absurd h (by simp [Printer.check_stream_f])
  | succ n ih =>
    intro p q h
    unfold Printer.check_stream_f at h
    by_cases hc : p.space < p.right_total - p.left_total
    · rw [if_pos hc] at h
      cases hgl : p.scan_stack.getLast? with
      | none => rw [hgl] at h; exact absurd h (by simp)
      | some front =>
        rw [hgl] at h
        simp only [] at h
        set step1 :=
          (if front = p.buf.index_of_first then
            match p.buf.data with
            | [] => Except.error EngErr.bufFirstEmpty
            | e :: rest =>
              Except.ok { p with
                scan_stack := p.scan_stack.dropLast
                buf := ⟨p.buf.offset, { e with size := SIZE_INFINITY } :: rest⟩ }
          else Except.ok p) with hstep1
        clear_value step1
        cases step1 with
        | error er => exact absurd h (by simp)
        | ok p1 =>
          dsimp only at h
          cases hal : p1.advance_left with
          | error er => rw [hal] at h; exact absurd h (by simp)
          | ok p2 =>
            rw [hal] at h
            dsimp only at h
            by_cases hemp : p2.buf.data.isEmpty
            · rw [if_pos hemp] at h
              cases h
              exact Or.inr (List.isEmpty_iff.mp hemp)
            · rw [if_neg hemp] at h
              exact ih p2 q h
    · rw [if_neg hc] at h
      left
      cases h
      exact le_of_not_lt hc

/-- C2 counterexample: after the single valid driver operation
scan_break(blank_space 200), the buffered width right_total - left_total is
200 while space + MARGIN is 158, so the claimed bound fails (scan_break
never runs check_stream). -/
theorem bounded_buffering_cex :
    (runOps Printer.new [Op.brk ⟨0, 200, false, false⟩]).map
      (fun p => decide (p.right_total - p.left_total ≤ p.space + MARGIN)) = .ok false :=
  rfl

/-- C2 (amended): after every scan_string with a nonempty scan stack,
either the buffered width right_total - left_total is at most space, or the
buffer has fully drained; check_stream enforces this by forcing the oldest
unresolved entry to SIZE_INFINITY and draining resolved entries. -/
theorem scan_string_bounds_buffer (p : Printer) (s : Chars) (q : Printer)
    (hne : p.scan_stack ≠ []) (h : p.scan_string s = .ok q) :
    q.right_total - q.left_total ≤ q.space ∨ q.buf.data = [] := by
  unfold Printer.scan_string at h
  rw [if_neg (by simpa using hne)] at h
  exact check_stream_f_post _ _ _ h

/-- Witness for scan_string_bounds_buffer: one word scanned inside a fresh
consistent box. -/
theorem scan_string_bounds_buffer_witness :
    (wit2P.scan_stack ≠ [] ∧ wit2P.scan_string ['a'] = .ok wit2Q) ∧
    (wit2Q.right_total - wit2Q.left_total ≤ wit2Q.space ∨ wit2Q.buf.data = []) :=
  ⟨⟨by decide, rfl⟩, scan_string_bounds_buffer wit2P ['a'] wit2Q (by decide) rfl⟩

theorem totW_cons (e : BufEntry) (l : List BufEntry) : totW (e :: l) = entW e + totW l := by
  simp [totW]

theorem totW_append (l1 l2 : List BufEntry) : totW (l1 ++ l2) = totW l1 + totW l2 := by
  simp [totW]

theorem totW_set_tok : ∀ (l : List BufEntry) (n : Nat) (e e' : BufEntry),
    l.get? n = some e → e'.token = e.token → totW (l.set n e') = totW l := by
  intro l
  induction l with
  | nil => intro n e e' h; simp at h
  | cons a t ih =>
    intro n e e' h htok
    cases n with
    | zero =>
      have ha : a = e := by
        have h0 : some a = some e := h
        exact Option.some.inj h0
      subst ha
      simp [List.set_cons_zero, totW_cons, entW, htok]
    | succ m =>
      have hm : t.get? m = some e := h
      simp [List.set_cons_succ, totW_cons, ih m e e' hm htok]

theorem totW_getLast? : ∀ (l : List BufEntry) (e : BufEntry),
    l.getLast? = some e → totW l = totW l.dropLast + entW e := by
  intro l
  induction l with
  | nil => intro e h; simp at h
  | cons a t ih =>
    intro e h
    cases t with
    | nil =>
      simp at h
      subst h
      simp [totW_cons, totW]
    | cons b u =>
      rw [List.getLast?_cons_cons] at h
      rw [List.dropLast_cons₂, totW_cons a (b :: u), ih e h, totW_cons a ((b :: u).dropLast)]
      ring

theorem print_string_fields (p : Printer) (s : Chars) :
    (p.print_string s).buf = p.buf ∧ (p.print_string s).left_total = p.left_total ∧
    (p.print_string s).right_total = p.right_total ∧
    (p.print_string s).scan_stack = p.scan_stack ∧
    (p.print_string s).print_stack = p.print_stack ∧
    (p.print_string s).indent = p.indent ∧
    (p.print_string s).gids = p.gids ∧ (p.print_string s).nextId = p.nextId :=
  ⟨rfl, rfl, rfl, rfl, rfl, rfl, rfl, rfl⟩

theorem print_begin_fields {p : Printer} {t : BeginToken} {size : Int} {q : Printer}
    (h : p.print_begin t size = .ok q) :
    q.out = p.out ∧ q.space = p.space ∧ q.buf = p.buf ∧ q.left_total = p.left_total ∧
    q.right_total = p.right_total ∧ q.scan_stack = p.scan_stack ∧
    q.pending_indentation = p.pending_indentation ∧ q.events = p.events := by
  unfold Printer.print_begin at h
  split at h
  · split at h
    · exact absurd h (by simp)
    · cases h; exact ⟨rfl, rfl, rfl, rfl, rfl, rfl, rfl, rfl⟩
  · cases h; exact ⟨rfl, rfl, rfl, rfl, rfl, rfl, rfl, rfl⟩

theorem print_end_fields {p : Printer} {q : Printer} (h : p.print_end = .ok q) :
    q.out = p.out ∧ q.space = p.space ∧ q.buf = p.buf ∧ q.left_total = p.left_total ∧
    q.right_total = p.right_total ∧ q.scan_stack = p.scan_stack ∧
    q.pending_indentation = p.pending_indentation ∧ q.events = p.events := by
  unfold Printer.print_end at h
  split at h
  · exact absurd h (by simp)
  · cases h; exact ⟨rfl, rfl, rfl, rfl, rfl, rfl, rfl, rfl⟩
  · cases h; exact ⟨rfl, rfl, rfl, rfl, rfl, rfl, rfl, rfl⟩

theorem print_break_fields {p : Printer} {t : BreakToken} {size : Int} {q : Printer}
    (h : p.print_break t size = .ok q) :
    q.buf = p.buf ∧ q.left_total = p.left_total ∧ q.right_total = p.right_total ∧
    q.scan_stack = p.scan_stack ∧ q.print_stack = p.print_stack ∧
    q.gids = p.gids ∧ q.nextId = p.nextId ∧ q.indent = p.indent := by
  unfold Printer.print_break at h
  split at h
  · cases h; exact ⟨rfl, rfl, rfl, rfl, rfl, rfl, rfl, rfl⟩
  · split at h
    · exact absurd h (by simp)
    · cases h; exact ⟨rfl, rfl, rfl, rfl, rfl, rfl, rfl, rfl⟩

theorem dispatch_fields {p : Printer} {e : BufEntry} {q : Printer}
    (h : Printer.dispatch p e = .ok q) :
    q.buf = p.buf ∧ q.scan_stack = p.scan_stack ∧ q.right_total = p.right_total ∧
    q.left_total = p.left_total + entW e := by
  obtain ⟨tok, sz⟩ := e
  cases tok with
  | string s =>
    cases h
    exact ⟨rfl, rfl, rfl, rfl⟩
  | brk t =>
    have hf := print_break_fields h
    refine ⟨hf.1, hf.2.2.2.1, hf.2.2.1, ?_⟩
    rw [hf.2.1]
    rfl
  | beginTok t =>
    have hf := print_begin_fields h
    refine ⟨hf.2.2.1, hf.2.2.2.2.2.1, hf.2.2.2.2.1, ?_⟩
    rw [hf.2.2.2.1]
    simp [entW, tokW]
  | endTok =>
    have hf := print_end_fields h
    refine ⟨hf.2.2.1, hf.2.2.2.2.2.1, hf.2.2.2.2.1, ?_⟩
    rw [hf.2.2.2.1]
    simp [entW, tokW]

theorem ringGet?_some {rb : RingBuffer} {i : Nat} {e : BufEntry} (h : rb.get? i = some e) :
    rb.data.get? (i - rb.offset) = some e := by
  unfold RingBuffer.get? at h
  split at h
  · exact absurd h (by simp)
  · exact h

theorem mapTok_set : ∀ (l : List BufEntry) (n : Nat) (e e' : BufEntry),
    l.get? n = some e → e'.token = e.token →
    (l.set n e').map BufEntry.token = l.map BufEntry.token := by
  intro l
  induction l with
  | nil => intro n e e' h; simp at h
  | cons a t ih =>
    intro n e e' h htok
    cases n with
    | zero =>
      have ha : a = e := by
        have h0 : some a = some e := h
        exact Option.some.inj h0
      subst ha
      simp [List.set_cons_zero, htok]
    | succ m =>
      have hm : t.get? m = some e := h
      simp [List.set_cons_succ, ih m e e' hm htok]

theorem sameShape_refl (p : Printer) : SameShape p p :=
  ⟨rfl, rfl, rfl, rfl, rfl, rfl, rfl, rfl, rfl, rfl, rfl, rfl, rfl, rfl⟩

theorem sameShape_trans {p q r : Printer} (h1 : SameShape p q) (h2 : SameShape q r) :
    SameShape p r := by
  obtain ⟨a1, b1, c1, d1, e1, f1, g1, h1', i1, j1, k1, l1, m1, n1⟩ := h1
  obtain ⟨a2, b2, c2, d2, e2, f2, g2, h2', i2, j2, k2, l2, m2, n2⟩ := h2
  exact ⟨a2.trans a1, b2.trans b1, c2.trans c1, d2.trans d1, e2.trans e1, f2.trans f1,
    g2.trans g1, h2'.trans h1', i2.trans i1, j2.trans j1, k2.trans k1, l2.trans l1,
    m2.trans m1, n2.trans n1⟩

/-- A check_stack recursion step only resolves one buffered size and pops
one scan-stack entry. -/
theorem sameShape_setIdx {p : Printer} {index : Nat} {entry : BufEntry} (tok : Token) (z : Int)
    (rest : List Nat) (hget : p.buf.get? index = some entry) (htok : tok = entry.token) :
    SameShape p { p with scan_stack := rest
                         buf := p.buf.setIdx index ⟨tok, z⟩ } := by
  refine ⟨rfl, rfl, rfl, rfl, rfl, rfl, rfl, rfl, rfl, rfl, rfl, ?_, ?_, ?_⟩
  · exact totW_set_tok _ _ _ _ (ringGet?_some hget) htok
  · simp [RingBuffer.setIdx]
  · exact mapTok_set _ _ _ _ (ringGet?_some hget) htok

theorem check_stack_f_facts : ∀ (fuel : Nat) {p : Printer} (d : Nat) {q : Printer},
    Printer.check_stack_f fuel p d = .ok q → SameShape p q := by
  intro fuel
  induction fuel with
  | zero => intro p d q h; exact absurd h (by simp [Printer.check_stack_f])
  | succ n ih =>
    intro p d q h
    unfold Printer.check_stack_f at h
    cases hss : p.scan_stack with
    | nil => rw [hss] at h; cases h; exact sameShape_refl p
    | cons index rest =>
      rw [hss] at h
      dsimp only at h
      cases hget : p.buf.get? index with
      | none => rw [hget] at h; exact absurd h (by simp)
      | some entry =>
        rw [hget] at h
        dsimp only at h
        cases htok : entry.token with
        | beginTok t =>
          rw [htok] at h
          dsimp only at h
          by_cases hd : d = 0
          · rw [if_pos hd] at h; cases h; exact sameShape_refl p
          · rw [if_neg hd] at h
            exact sameShape_trans (sameShape_setIdx _ _ rest hget htok.symm) (ih _ h)
        | endTok =>
          rw [htok] at h
          dsimp only at h
          exact sameShape_trans (sameShape_setIdx _ _ rest hget htok.symm) (ih _ h)
        | brk t =>
          rw [htok] at h
          dsimp only at h
          by_cases hd : d = 0
          · rw [if_pos hd] at h; cases h
            exact sameShape_setIdx _ _ rest hget htok.symm
          · rw [if_neg hd] at h
            exact sameShape_trans (sameShape_setIdx _ _ rest hget htok.symm) (ih _ h)
        | string s =>
          rw [htok] at h
          exact absurd h (by simp)

theorem advance_left_f_facts : ∀ (fuel : Nat) {p q : Printer},
    Printer.advance_left_f fuel p = .ok q →
    q.scan_stack = p.scan_stack ∧ q.right_total = p.right_total ∧
    p.left_total ≤ q.left_total ∧ (WInv p → WInv q) := by
  intro fuel
  induction fuel with
  | zero => intro p q h; exact absurd h (by simp [Printer.advance_left_f])
  | succ n ih =>
    intro p q h
    unfold Printer.advance_left_f at h
    cases hbd : p.buf.data with
    | nil => rw [hbd] at h; exact absurd h (by simp)
    | cons e rest =>
      rw [hbd] at h
      dsimp only at h
      by_cases hsz : 0 ≤ e.size
      · rw [if_pos hsz] at h
        cases hd : Printer.dispatch { p with buf := ⟨p.buf.offset + 1, rest⟩ } e with
        | error er => rw [hd] at h; exact absurd h (by simp)
        | ok p2 =>
          rw [hd] at h
          dsimp only at h
          obtain ⟨hbuf2, hss2, hrt2, hlt2⟩ := dispatch_fields hd
          have hss2' : p2.scan_stack = p.scan_stack := hss2
          have hrt2' : p2.right_total = p.right_total := hrt2
          have hlt2' : p.left_total ≤ p2.left_total := by
            rw [hlt2]
            have : (0 : Int) ≤ (entW e : Int) := by positivity
            dsimp only
            linarith
          have hw2 : WInv p → WInv p2 := by
            intro hw
            unfold WInv at hw ⊢
            rw [hbuf2, hrt2, hlt2]
            dsimp only
            rw [hbd, totW_cons] at hw
            push_cast at hw ⊢
            linarith
          by_cases hemp : p2.buf.data.isEmpty
          · rw [if_pos hemp] at h; cases h
            exact ⟨hss2', hrt2', hlt2', hw2⟩
          · rw [if_neg hemp] at h
            obtain ⟨ha, hb, hc, hd2⟩ := ih h
            exact ⟨ha.trans hss2', hb.trans hrt2', hlt2'.trans hc, fun hw => hd2 (hw2 hw)⟩
      · rw [if_neg hsz] at h; cases h
        exact ⟨rfl, rfl, le_refl _, id⟩

theorem check_stream_f_facts : ∀ (fuel : Nat) {p q : Printer},
    Printer.check_stream_f fuel p = .ok q →
    q.right_total = p.right_total ∧ p.left_total ≤ q.left_total ∧ (WInv p → WInv q) := by
  intro fuel
  induction fuel with
  | zero => intro p q h; exact absurd h (by simp [Printer.check_stream_f])
  | succ n ih =>
    intro p q h
    unfold Printer.check_stream_f at h
    by_cases hc : p.space < p.right_total - p.left_total
    · rw [if_pos hc] at h
      cases hgl : p.scan_stack.getLast? with
      | none => rw [hgl] at h; exact absurd h (by simp)
      | some front =>
        rw [hgl] at h
        simp only [] at h
        by_cases hfr : front = p.buf.index_of_first
        · rw [if_pos hfr] at h
          cases hbd : p.buf.data with
          | nil => rw [hbd] at h; exact absurd h (by simp)
          | cons e rest =>
            rw [hbd] at h
            dsimp only at h
            cases hal : Printer.advance_left { p with
                scan_stack := p.scan_stack.dropLast
                buf := ⟨p.buf.offset, { e with size := SIZE_INFINITY } :: rest⟩ } with
            | error er => rw [hal] at h; exact absurd h (by simp)
            | ok p2 =>
              rw [hal] at h
              dsimp only at h
              obtain ⟨_, hb, hcle, hw⟩ := advance_left_f_facts _ hal
              have hw1 : WInv p → WInv { p with
                  scan_stack := p.scan_stack.dropLast
                  buf := ⟨p.buf.offset, { e with size := SIZE_INFINITY } :: rest⟩ } := by
                intro hwp
                unfold WInv at hwp ⊢
                dsimp only
                rw [hbd, totW_cons] at hwp
                rw [totW_cons]
                exact hwp
              by_cases hemp : p2.buf.data.isEmpty
              · rw [if_pos hemp] at h; cases h
                exact ⟨hb, hcle, fun hwp => hw (hw1 hwp)⟩
              · rw [if_neg hemp] at h
                obtain ⟨ha2, hb2, hc2⟩ := ih h
                exact ⟨ha2.trans hb, hcle.trans hb2, fun hwp => hc2 (hw (hw1 hwp))⟩
        · rw [if_neg hfr] at h
          dsimp only at h
          cases hal : Printer.advance_left p with
          | error er => rw [hal] at h; exact absurd h (by simp)
          | ok p2 =>
            rw [hal] at h
            dsimp only at h
            obtain ⟨_, hb, hcle, hw⟩ := advance_left_f_facts _ hal
            by_cases hemp : p2.buf.data.isEmpty
            · rw [if_pos hemp] at h; cases h
              exact ⟨hb, hcle, hw⟩
            · rw [if_neg hemp] at h
              obtain ⟨ha2, hb2, hc2⟩ := ih h
              exact ⟨ha2.trans hb, hcle.trans hb2, fun hwp => hc2 (hw hwp)⟩
    · rw [if_neg hc] at h
      cases h
      exact ⟨rfl, le_refl _, id⟩

theorem winv_new : WInv Printer.new := by
  simp [WInv, Printer.new, RingBuffer.empty, totW]

theorem totW_push (l : List BufEntry) (tok : Token) (sz : Int) :
    totW (l ++ [⟨tok, sz⟩]) = totW l + tokW tok := by
  rw [totW_append]
  simp [totW, entW]

theorem step_winv : ∀ {p : Printer} {op : Op} {q : Printer},
    step p op = .ok q → WInv p → WInv q := by
  intro p op q h hw
  cases op with
  | string s =>
    simp only [step] at h
    unfold Printer.scan_string at h
    split at h
    · cases h
      simpa [WInv, Printer.print_string] using hw
    · refine (check_stream_f_facts _ h).2.2 ?_
      unfold WInv at hw ⊢
      dsimp only [RingBuffer.push]
      rw [totW_push]
      push_cast [tokW]
      linarith
  | brk t =>
    simp only [step] at h
    unfold Printer.scan_break at h
    simp only [bind, Except.bind, pure] at h
    split at h
    · cases h
      unfold WInv
      dsimp only [RingBuffer.push, RingBuffer.clear]
      rw [totW_push]
      push_cast [tokW]
      simp [totW]
    · cases hcs : Printer.check_stack p 0 with
      | error er => rw [hcs] at h; exact absurd h (by simp)
      | ok p1 =>
        rw [hcs] at h
        dsimp only at h
        cases h
        obtain ⟨_, _, hl, hr, _, _, _, _, _, _, _, htw, _⟩ := check_stack_f_facts _ 0 hcs
        unfold WInv at hw ⊢
        dsimp only [RingBuffer.push]
        rw [totW_push, htw]
        push_cast [tokW]
        rw [hl, hr]
        linarith
  | beginB t =>
    simp only [step] at h
    cases h
    unfold Printer.scan_begin
    split
    · unfold WInv
      dsimp only [RingBuffer.push, RingBuffer.clear]
      rw [totW_push]
      push_cast [tokW]
      simp [totW]
    · unfold WInv at hw ⊢
      dsimp only [RingBuffer.push]
      rw [totW_push]
      push_cast [tokW]
      linarith
  | endE =>
    simp only [step] at h
    unfold Printer.scan_end at h
    split at h
    · obtain ⟨_, _, hbuf, hl, hr, _, _, _⟩ := print_end_fields h
      unfold WInv at hw ⊢
      rw [hbuf, hl, hr]
      exact hw
    · cases hgl : p.buf.data.getLast? with
      | none =>
        rw [hgl] at h
        cases h
        unfold WInv at hw ⊢
        dsimp only [Printer.push_end, RingBuffer.push]
        rw [totW_push]
        push_cast [tokW]
        linarith
      | some lastE =>
        rw [hgl] at h
        dsimp only at h
        cases htok : lastE.token with
        | brk bt =>
          rw [htok] at h
          dsimp only at h
          have hdrop : totW p.buf.data =
              totW p.buf.data.dropLast + bt.blank_space := by
            have h2 := totW_getLast? _ _ hgl
            rwa [show entW lastE = bt.blank_space by simp [entW, tokW, htok]] at h2
          cases hgl2 : p.buf.data.dropLast.getLast? with
          | none =>
            rw [hgl2] at h
            dsimp only at h
            split at h
            · cases h
              unfold WInv at hw ⊢
              dsimp only [Printer.push_end, RingBuffer.push, RingBuffer.pop_last]
              rw [totW_push]
              rw [hdrop] at hw
              push_cast [tokW]
              push_cast at hw
              linarith
            · cases h
              unfold WInv at hw ⊢
              dsimp only [Printer.push_end, RingBuffer.push]
              rw [totW_push]
              push_cast [tokW]
              linarith
          | some sl =>
            rw [hgl2] at h
            dsimp only at h
            cases htok2 : sl.token with
            | beginTok bt2 =>
              rw [htok2] at h
              cases h
              have hdrop2 : totW p.buf.data.dropLast =
                  totW p.buf.data.dropLast.dropLast := by
                have h2 := totW_getLast? _ _ hgl2
                rwa [show entW sl = 0 by simp [entW, tokW, htok2], add_zero] at h2
              unfold WInv at hw ⊢
              dsimp only [RingBuffer.pop_last]
              rw [hdrop, hdrop2] at hw
              push_cast at hw
              linarith
            | string s2 =>
              rw [htok2] at h
              dsimp only at h
              split at h
              · cases h
                unfold WInv at hw ⊢
                dsimp only [Printer.push_end, RingBuffer.push, RingBuffer.pop_last]
                rw [totW_push]
                rw [hdrop] at hw
                push_cast [tokW]
                push_cast at hw
                linarith
              · cases h
                unfold WInv at hw ⊢
                dsimp only [Printer.push_end, RingBuffer.push]
                rw [totW_push]
                push_cast [tokW]
                linarith
            | brk bt2 =>
              rw [htok2] at h
              dsimp only at h
              split at h
              · cases h
                unfold WInv at hw ⊢
                dsimp only [Printer.push_end, RingBuffer.push, RingBuffer.pop_last]
                rw [totW_push]
                rw [hdrop] at hw
                push_cast [tokW]
                push_cast at hw
                linarith
              · cases h
                unfold WInv at hw ⊢
                dsimp only [Printer.push_end, RingBuffer.push]
                rw [totW_push]
                push_cast [tokW]
                linarith
            | endTok =>
              rw [htok2] at h
              dsimp only at h
              split at h
              · cases h
                unfold WInv at hw ⊢
                dsimp only [Printer.push_end, RingBuffer.push, RingBuffer.pop_last]
                rw [totW_push]
                rw [hdrop] at hw
                push_cast [tokW]
                push_cast at hw
                linarith
              · cases h
                unfold WInv at hw ⊢
                dsimp only [Printer.push_end, RingBuffer.push]
                rw [totW_push]
                push_cast [tokW]
                linarith
        | string s =>
          rw [htok] at h
          cases h
          unfold WInv at hw ⊢
          dsimp only [Printer.push_end, RingBuffer.push]
          rw [totW_push]
          push_cast [tokW]
          linarith
        | beginTok t2 =>
          rw [htok] at h
          cases h
          unfold WInv at hw ⊢
          dsimp only [Printer.push_end, RingBuffer.push]
          rw [totW_push]
          push_cast [tokW]
          linarith
        | endTok =>
          rw [htok] at h
          cases h
          unfold WInv at hw ⊢
          dsimp only [Printer.push_end, RingBuffer.push]
          rw [totW_push]
          push_cast [tokW]
          linarith
  | offs n =>
    simp only [step] at h
    unfold Printer.offsetOp at h
    cases hgl : p.buf.data.getLast? with
    | none => rw [hgl] at h; exact absurd h (by simp)
    | some e =>
      rw [hgl] at h
      dsimp only at h
      cases htok : e.token with
      | brk t =>
        rw [htok] at h
        cases h
        have hdrop : totW p.buf.data = totW p.buf.data.dropLast + t.blank_space := by
          have h2 := totW_getLast? _ _ hgl
          rwa [show entW e = t.blank_space by simp [entW, tokW, htok]] at h2
        unfold WInv at hw ⊢
        dsimp only [RingBuffer.setLast]
        rw [totW_push]
        rw [hdrop] at hw
        push_cast [tokW]
        push_cast at hw
        linarith
      | beginTok t => rw [htok] at h; cases h; exact hw
      | string s => rw [htok] at h; exact absurd h (by simp)
      | endTok => rw [htok] at h; exact absurd h (by simp)

theorem runOps_preserve {P : Printer → Prop}
    (hstep : ∀ p op q, step p op = .ok q → P p → P q) :
    ∀ (ops : List Op) (p q : Printer), runOps p ops = .ok q → P p → P q := by
  intro ops
  induction ops with
  | nil =>
    intro p q h hp
    unfold runOps at h
    simp only [List.foldlM_nil] at h
    cases h
    exact hp
  | cons op rest ih =>
    intro p q h hp
    unfold runOps at h
    rw [List.foldlM_cons] at h
    cases hs : step p op with
    | error er => rw [hs] at h; exact absurd h (by simp [bind, Except.bind])
    | ok p1 =>
      rw [hs] at h
      simp only [bind, Except.bind] at h
      exact ih p1 q h (hstep p op p1 hs hp)

theorem reach_winv {p : Printer} (h : Reach p) : WInv p := by
  obtain ⟨ops, hops⟩ := h
  exact runOps_preserve (fun a b c hs hw => step_winv hs hw) ops Printer.new p hops winv_new

/-- Away from the rebases, one driver operation never decreases left_total,
and never decreases right_total unless it is a scan_end. -/
theorem step_totals_mono : ∀ {p : Printer} {op : Op} {q : Printer},
    step p op = .ok q →
    (∀ t, op = Op.beginB t → p.scan_stack ≠ []) →
    (∀ t, op = Op.brk t → p.scan_stack ≠ []) →
    p.left_total ≤ q.left_total ∧ (op ≠ Op.endE → p.right_total ≤ q.right_total) := by
  intro p op q h hbeg hbrk
  cases op with
  | string s =>
    simp only [step] at h
    unfold Printer.scan_string at h
    split at h
    · cases h
      exact ⟨le_of_eq rfl, fun _ => le_of_eq rfl⟩
    · have hf := check_stream_f_facts _ h
      refine ⟨hf.2.1, fun _ => ?_⟩
      rw [hf.1]
      dsimp only
      have : (0 : Int) ≤ (s.length : Int) := by positivity
      linarith
  | brk t =>
    have hne := hbrk t rfl
    simp only [step] at h
    unfold Printer.scan_break at h
    simp only [bind, Except.bind, pure] at h
    rw [if_neg (by simpa using hne)] at h
    cases hcs : Printer.check_stack p 0 with
    | error er => rw [hcs] at h; exact absurd h (by simp)
    | ok p1 =>
      rw [hcs] at h
      dsimp only at h
      cases h
      obtain ⟨_, _, hl, hr, _⟩ := check_stack_f_facts _ 0 hcs
      constructor
      · dsimp only
        rw [hl]
      · intro _
        dsimp only
        rw [hr]
        have : (0 : Int) ≤ (t.blank_space : Int) := by positivity
        linarith
  | beginB t =>
    have hne := hbeg t rfl
    simp only [step] at h
    cases h
    unfold Printer.scan_begin
    rw [if_neg (by simpa using hne)]
    exact ⟨le_of_eq rfl, fun _ => le_of_eq rfl⟩
  | endE =>
    refine ⟨?_, fun hne => absurd rfl hne⟩
    simp only [step] at h
    unfold Printer.scan_end at h
    split at h
    · exact le_of_eq (print_end_fields h).2.2.2.1.symm
    · cases hgl : p.buf.data.getLast? with
      | none => rw [hgl] at h; cases h; exact le_of_eq rfl
      | some lastE =>
        rw [hgl] at h
        dsimp only at h
        cases htok : lastE.token with
        | brk bt =>
          rw [htok] at h
          dsimp only at h
          cases hgl2 : p.buf.data.dropLast.getLast? with
          | none =>
            rw [hgl2] at h
            dsimp only at h
            split at h
            · cases h; exact le_of_eq rfl
            · cases h; exact le_of_eq rfl
          | some sl =>
            rw [hgl2] at h
            dsimp only at h
            cases htok2 : sl.token with
            | beginTok bt2 => rw [htok2] at h; cases h; exact le_of_eq rfl
            | string s2 =>
              rw [htok2] at h
              dsimp only at h
              split at h
              · cases h; exact le_of_eq rfl
              · cases h; exact le_of_eq rfl
            | brk bt2 =>
              rw [htok2] at h
              dsimp only at h
              split at h
              · cases h; exact le_of_eq rfl
              · cases h; exact le_of_eq rfl
            | endTok =>
              rw [htok2] at h
              dsimp only at h
              split at h
              · cases h; exact le_of_eq rfl
              · cases h; exact le_of_eq rfl
        | string s => rw [htok] at h; cases h; exact le_of_eq rfl
        | beginTok t2 => rw [htok] at h; cases h; exact le_of_eq rfl
        | endTok => rw [htok] at h; cases h; exact le_of_eq rfl
  | offs n =>
    simp only [step] at h
    unfold Printer.offsetOp at h
    cases hgl : p.buf.data.getLast? with
    | none => rw [hgl] at h; exact absurd h (by simp)
    | some e =>
      rw [hgl] at h
      dsimp only at h
      cases htok : e.token with
      | brk t => rw [htok] at h; cases h; exact ⟨le_of_eq rfl, fun _ => le_of_eq rfl⟩
      | beginTok t => rw [htok] at h; cases h; exact ⟨le_of_eq rfl, fun _ => le_of_eq rfl⟩
      | string s => rw [htok] at h; exact absurd h (by simp)
      | endTok => rw [htok] at h; exact absurd h (by simp)

/-- C5 counterexample: the driver sequence cbox(4), space-break, scan_end
has right_total 2 after its first two operations and right_total 1 after
the third, although the third operation is not a rebase (the scan stack is
nonempty before it), so right_total is not non-decreasing between engine
resets. -/
theorem monotone_totals_cex :
    (runOps Printer.new
        [Op.beginB ⟨4, .consistent⟩, Op.brk ⟨0, 1, false, false⟩]).map (·.right_total) =
      .ok 2 ∧
    (runOps Printer.new
        [Op.beginB ⟨4, .consistent⟩, Op.brk ⟨0, 1, false, false⟩, Op.endE]).map
      (·.right_total) = .ok 1 ∧
    (runOps Printer.new
        [Op.beginB ⟨4, .consistent⟩, Op.brk ⟨0, 1, false, false⟩]).map
      (fun p => p.scan_stack.isEmpty) = .ok false :=
  ⟨rfl, rfl, rfl⟩

/-- C5 (amended): in every reachable state right_total ≥ left_total holds,
and over any single non-rebase operation left_total is non-decreasing while
right_total is non-decreasing for every operation except scan_end (whose
peephole elision subtracts the elided Break's blank_space). -/
theorem monotone_totals_amended (ops : List Op) (p : Printer)
    (hrun : runOps Printer.new ops = .ok p) :
    p.left_total ≤ p.right_total ∧
    ∀ op q, step p op = .ok q →
      (∀ t, op = Op.beginB t → p.scan_stack ≠ []) →
      (∀ t, op = Op.brk t → p.scan_stack ≠ []) →
      p.left_total ≤ q.left_total ∧ (op ≠ Op.endE → p.right_total ≤ q.right_total) := by
  constructor
  · have hw := reach_winv ⟨ops, hrun⟩
    unfold WInv at hw
    have : (0 : Int) ≤ (totW p.buf.data : Int) := by positivity
    linarith
  · intro op q h hbeg hbrk
    exact step_totals_mono h hbeg hbrk

/-- Witness for monotone_totals_amended: the empty driver sequence. -/
theorem monotone_totals_amended_witness :
    runOps Printer.new [] = .ok Printer.new ∧
    Printer.new.left_total ≤ Printer.new.right_total :=
  ⟨rfl, (monotone_totals_amended [] Printer.new rfl).1⟩

theorem spaceNL_cons_cons (c1 c2 : Char) (rest : Chars) :
    spaceNL (c1 :: c2 :: rest) = ((c1 = ' ' && c2 = '\n') || spaceNL (c2 :: rest)) :=
  rfl

theorem spaceNL_append : ∀ (xs ys : Chars),
    spaceNL (xs ++ ys) = false ↔
      spaceNL xs = false ∧ spaceNL ys = false ∧
        ¬(xs.getLast? = some ' ' ∧ ys.head? = some '\n') := by
  intro xs
  induction xs with
  | nil => intro ys; simp [spaceNL]
  | cons a t ih =>
    intro ys
    cases t with
    | nil =>
      cases ys with
      | nil => simp [spaceNL]
      | cons b u =>
        show spaceNL (a :: b :: u) = false ↔ _
        rw [spaceNL_cons_cons]
        simp [spaceNL, Bool.or_eq_false_iff]
        tauto
    | cons b u =>
      show spaceNL (a :: b :: (u ++ ys)) = false ↔ _
      rw [spaceNL_cons_cons, spaceNL_cons_cons,
        show b :: (u ++ ys) = (b :: u) ++ ys from rfl, List.getLast?_cons_cons]
      simp only [Bool.or_eq_false_iff]
      rw [ih ys]
      tauto

theorem spaceNL_replicate_space : ∀ n, spaceNL (List.replicate n ' ') = false := by
  intro n
  induction n with
  | zero => rfl
  | succ m ih =>
    cases m with
    | zero => rfl
    | succ k =>
      rw [List.replicate_succ, List.replicate_succ, spaceNL_cons_cons,
        ← List.replicate_succ]
      simp [ih]

theorem noTrailWS_print_string {out : Chars} (n : Nat) {s : Chars}
    (hout : noTrailWS out) (hs : goodString s) :
    noTrailWS (out ++ List.replicate n ' ' ++ s) := by
  obtain ⟨hsne, hshead, hslast, hsnl⟩ := hs
  obtain ⟨honl, holast⟩ := hout
  have hrs_ne : List.replicate n ' ' ++ s ≠ [] := by
    simp [hsne]
  have hrs_nl : spaceNL (List.replicate n ' ' ++ s) = false := by
    rw [spaceNL_append]
    refine ⟨spaceNL_replicate_space n, hsnl, ?_⟩
    rintro ⟨-, hh⟩
    exact hshead hh
  constructor
  · rw [List.append_assoc, spaceNL_append]
    refine ⟨honl, hrs_nl, ?_⟩
    rintro ⟨hl, -⟩
    exact holast hl
  · rw [List.append_assoc, List.getLast?_append_of_ne_nil _ hrs_ne,
      List.getLast?_append_of_ne_nil _ hsne]
    exact hslast

theorem noTrailWS_newline {out : Chars} (hout : noTrailWS out) (tc : Bool) :
    noTrailWS ((if tc then out ++ [','] else out) ++ ['\n']) := by
  obtain ⟨honl, holast⟩ := hout
  have hcomma : spaceNL (out ++ [',']) = false := by
    rw [spaceNL_append]
    exact ⟨honl, rfl, by rintro ⟨-, hh⟩; cases hh⟩
  constructor
  · rw [spaceNL_append]
    refine ⟨?_, rfl, ?_⟩
    · cases tc <;> simp [hcomma, honl]
    · rintro ⟨hl, -⟩
      cases tc with
      | false => exact holast (by simpa using hl)
      | true =>
        rw [if_pos rfl, List.getLast?_append_of_ne_nil _ (by simp)] at hl
        simp at hl
  · rw [List.getLast?_append_of_ne_nil _ (by simp)]
    simp

theorem bufGood_of_mapTok {l1 l2 : List BufEntry}
    (hmap : l2.map BufEntry.token = l1.map BufEntry.token) (h : BufGood l1) : BufGood l2 := by
  intro e he s hs
  have hm : e.token ∈ l2.map BufEntry.token := List.mem_map_of_mem _ he
  rw [hmap] at hm
  obtain ⟨a, ha, hatok⟩ := List.mem_map.mp hm
  exact h a ha s (hatok.trans hs)

theorem bufGood_tail {e : BufEntry} {l : List BufEntry} (h : BufGood (e :: l)) : BufGood l :=
  fun x hx => h x (List.mem_cons_of_mem _ hx)

theorem bufGood_dropLast {l : List BufEntry} (h : BufGood l) : BufGood l.dropLast :=
  fun x hx => h x (List.dropLast_subset l hx)

theorem bufGood_push {l : List BufEntry} (tok : Token) (z : Int) (h : BufGood l)
    (htok : ∀ s, tok = .string s → goodString s) : BufGood (l ++ [⟨tok, z⟩]) := by
  intro x hx s hs
  rcases List.mem_append.mp hx with hx1 | hx2
  · exact h x hx1 s hs
  · rw [List.mem_singleton] at hx2
    subst hx2
    exact htok s hs

theorem dispatch_gout {p : Printer} {e : BufEntry} {q : Printer}
    (h : Printer.dispatch p e = .ok q)
    (he : ∀ s, e.token = .string s → goodString s)
    (hout : noTrailWS p.out) (hbuf : BufGood p.buf.data) :
    noTrailWS q.out ∧ BufGood q.buf.data := by
  obtain ⟨tok, sz⟩ := e
  cases tok with
  | string s =>
    cases h
    refine ⟨?_, hbuf⟩
    exact noTrailWS_print_string _ hout (he s rfl)
  | brk t =>
    have h2 : Printer.print_break
        { p with left_total := p.left_total + t.blank_space } t sz = .ok q := h
    unfold Printer.print_break at h2
    split at h2
    · cases h2
      exact ⟨hout, hbuf⟩
    · split at h2
      · exact absurd h2 (by simp)
      · cases h2
        exact ⟨noTrailWS_newline hout t.trailing_comma, hbuf⟩
  | beginTok t =>
    have hf := print_begin_fields h
    rw [show q.out = p.out from hf.1, show q.buf = p.buf from hf.2.2.1]
    exact ⟨hout, hbuf⟩
  | endTok =>
    have hf := print_end_fields h
    rw [show q.out = p.out from hf.1, show q.buf = p.buf from hf.2.2.1]
    exact ⟨hout, hbuf⟩

theorem advance_left_f_gout : ∀ (fuel : Nat) {p q : Printer},
    Printer.advance_left_f fuel p = .ok q →
    noTrailWS p.out → BufGood p.buf.data → noTrailWS q.out ∧ BufGood q.buf.data := by
  intro fuel
  induction fuel with
  | zero => intro p q h; exact fun _ _ => absurd h (by simp [Printer.advance_left_f])
  | succ n ih =>
    intro p q h hout hbuf
    unfold Printer.advance_left_f at h
    cases hbd : p.buf.data with
    | nil => rw [hbd] at h; exact absurd h (by simp)
    | cons e rest =>
      rw [hbd] at h
      dsimp only at h
      rw [hbd] at hbuf
      by_cases hsz : 0 ≤ e.size
      · rw [if_pos hsz] at h
        cases hd : Printer.dispatch { p with buf := ⟨p.buf.offset + 1, rest⟩ } e with
        | error er => rw [hd] at h; exact absurd h (by simp)
        | ok p2 =>
          rw [hd] at h
          dsimp only at h
          have hg2 := dispatch_gout hd (fun s hs => hbuf e (List.mem_cons_self _ _) s hs)
            hout (bufGood_tail hbuf)
          by_cases hemp : p2.buf.data.isEmpty
          · rw [if_pos hemp] at h; cases h
            exact hg2
          · rw [if_neg hemp] at h
            exact ih h hg2.1 hg2.2
      · rw [if_neg hsz] at h; cases h
        rw [hbd]
        exact ⟨hout, hbuf⟩

theorem check_stream_f_gout : ∀ (fuel : Nat) {p q : Printer},
    Printer.check_stream_f fuel p = .ok q →
    noTrailWS p.out → BufGood p.buf.data → noTrailWS q.out ∧ BufGood q.buf.data := by
  intro fuel
  induction fuel with
  | zero => intro p q h; exact fun _ _ => absurd h (by simp [Printer.check_stream_f])
  | succ n ih =>
    intro p q h hout hbuf
    unfold Printer.check_stream_f at h
    by_cases hc : p.space < p.right_total - p.left_total
    · rw [if_pos hc] at h
      cases hgl : p.scan_stack.getLast? with
      | none => rw [hgl] at h; exact absurd h (by simp)
      | some front =>
        rw [hgl] at h
        simp only [] at h
        by_cases hfr : front = p.buf.index_of_first
        · rw [if_pos hfr] at h
          cases hbd : p.buf.data with
          | nil => rw [hbd] at h; exact absurd h (by simp)
          | cons e rest =>
            rw [hbd] at h
            dsimp only at h
            rw [hbd] at hbuf
            have hbuf1 : BufGood ({ e with size := SIZE_INFINITY } :: rest) := by
              intro x hx s hs
              rcases List.mem_cons.mp hx with hx1 | hx2
              · subst hx1
                exact hbuf e (List.mem_cons_self _ _) s hs
              · exact hbuf x (List.mem_cons_of_mem _ hx2) s hs
            cases hal : Printer.advance_left { p with
                scan_stack := p.scan_stack.dropLast
                buf := ⟨p.buf.offset, { e with size := SIZE_INFINITY } :: rest⟩ } with
            | error er => rw [hal] at h; exact absurd h (by simp)
            | ok p2 =>
              rw [hal] at h
              dsimp only at h
              have hg2 := advance_left_f_gout _ hal hout hbuf1
              by_cases hemp : p2.buf.data.isEmpty
              · rw [if_pos hemp] at h; cases h
                exact hg2
              · rw [if_neg hemp] at h
                exact ih h hg2.1 hg2.2
        · rw [if_neg hfr] at h
          dsimp only at h
          cases hal : Printer.advance_left p with
          | error er => rw [hal] at h; exact absurd h (by simp)
          | ok p2 =>
            rw [hal] at h
            dsimp only at h
            have hg2 := advance_left_f_gout _ hal hout hbuf
            by_cases hemp : p2.buf.data.isEmpty
            · rw [if_pos hemp] at h; cases h
              exact hg2
            · rw [if_neg hemp] at h
              exact ih h hg2.1 hg2.2
    · rw [if_neg hc] at h
      cases h
      exact ⟨hout, hbuf⟩

theorem step_gout : ∀ {p : Printer} {op : Op} {q : Printer},
    step p op = .ok q → (∀ s, op = Op.string s → goodString s) → GOut p → GOut q := by
  intro p op q h hgood hg
  obtain ⟨hout, hbuf⟩ := hg
  cases op with
  | string s =>
    have hs := hgood s rfl
    simp only [step] at h
    unfold Printer.scan_string at h
    split at h
    · cases h
      exact ⟨noTrailWS_print_string _ hout hs, hbuf⟩
    · refine check_stream_f_gout _ h hout ?_
      dsimp only [RingBuffer.push]
      refine bufGood_push _ _ hbuf ?_
      intro s2 hs2
      cases hs2
      exact hs
  | brk t =>
    simp only [step] at h
    unfold Printer.scan_break at h
    simp only [bind, Except.bind, pure] at h
    split at h
    · cases h
      refine ⟨hout, ?_⟩
      dsimp only [RingBuffer.push, RingBuffer.clear]
      exact bufGood_push _ _ (by intro x hx; simp at hx) (by intro s2 hs2; cases hs2)
    · cases hcs : Printer.check_stack p 0 with
      | error er => rw [hcs] at h; exact absurd h (by simp)
      | ok p1 =>
        rw [hcs] at h
        dsimp only at h
        cases h
        have hsh := check_stack_f_facts _ 0 hcs
        refine ⟨hsh.1 ▸ hout, ?_⟩
        dsimp only [RingBuffer.push]
        refine bufGood_push _ _ ?_ (by intro s2 hs2; cases hs2)
        exact bufGood_of_mapTok hsh.2.2.2.2.2.2.2.2.2.2.2.2.2 hbuf
  | beginB t =>
    simp only [step] at h
    cases h
    unfold Printer.scan_begin
    split
    · refine ⟨hout, ?_⟩
      dsimp only [RingBuffer.push, RingBuffer.clear]
      exact bufGood_push _ _ (by intro x hx; simp at hx) (by intro s2 hs2; cases hs2)
    · refine ⟨hout, ?_⟩
      dsimp only [RingBuffer.push]
      exact bufGood_push _ _ hbuf (by intro s2 hs2; cases hs2)
  | endE =>
    simp only [step] at h
    unfold Printer.scan_end at h
    split at h
    · have hf := print_end_fields h
      exact ⟨hf.1 ▸ hout, hf.2.2.1 ▸ hbuf⟩
    · have hpe : ∀ p0 : Printer, noTrailWS p0.out → BufGood p0.buf.data →
          GOut (Printer.push_end p0) := by
        intro p0 h1 h2
        refine ⟨h1, ?_⟩
        dsimp only [Printer.push_end, RingBuffer.push]
        exact bufGood_push _ _ h2 (by intro s2 hs2; cases hs2)
      cases hgl : p.buf.data.getLast? with
      | none => rw [hgl] at h; cases h; exact hpe p hout hbuf
      | some lastE =>
        rw [hgl] at h
        dsimp only at h
        cases htok : lastE.token with
        | brk bt =>
          rw [htok] at h
          dsimp only at h
          cases hgl2 : p.buf.data.dropLast.getLast? with
          | none =>
            rw [hgl2] at h
            dsimp only at h
            split at h
            · cases h
              exact hpe _ hout (bufGood_dropLast hbuf)
            · cases h; exact hpe p hout hbuf
          | some sl =>
            rw [hgl2] at h
            dsimp only at h
            cases htok2 : sl.token with
            | beginTok bt2 =>
              rw [htok2] at h
              cases h
              exact ⟨hout, bufGood_dropLast (bufGood_dropLast hbuf)⟩
            | string s2 =>
              rw [htok2] at h
              dsimp only at h
              split at h
              · cases h; exact hpe _ hout (bufGood_dropLast hbuf)
              · cases h; exact hpe p hout hbuf
            | brk bt2 =>
              rw [htok2] at h
              dsimp only at h
              split at h
              · cases h; exact hpe _ hout (bufGood_dropLast hbuf)
              · cases h; exact hpe p hout hbuf
            | endTok =>
              rw [htok2] at h
              dsimp only at h
              split at h
              · cases h; exact hpe _ hout (bufGood_dropLast hbuf)
              · cases h; exact hpe p hout hbuf
        | string s => rw [htok] at h; cases h; exact hpe p hout hbuf
        | beginTok t2 => rw [htok] at h; cases h; exact hpe p hout hbuf
        | endTok => rw [htok] at h; cases h; exact hpe p hout hbuf
  | offs n =>
    simp only [step] at h
    unfold Printer.offsetOp at h
    cases hgl : p.buf.data.getLast? with
    | none => rw [hgl] at h; exact absurd h (by simp)
    | some e =>
      rw [hgl] at h
      dsimp only at h
      cases htok : e.token with
      | brk t =>
        rw [htok] at h
        cases h
        refine ⟨hout, ?_⟩
        dsimp only [RingBuffer.setLast]
        exact bufGood_push _ _ (bufGood_dropLast hbuf) (by intro s2 hs2; cases hs2)
      | beginTok t => rw [htok] at h; cases h; exact ⟨hout, hbuf⟩
      | string s => rw [htok] at h; exact absurd h (by simp)
      | endTok => rw [htok] at h; exact absurd h (by simp)

theorem eofFlush_gout {p q : Printer} (h : p.eofFlush = .ok q) (hg : GOut p) : GOut q := by
  unfold Printer.eofFlush at h
  split at h
  · cases h; exact hg
  · simp only [bind, Except.bind] at h
    cases hcs : Printer.check_stack p 0 with
    | error er => rw [hcs] at h; exact absurd h (by simp)
    | ok p1 =>
      rw [hcs] at h
      have hsh := check_stack_f_facts _ 0 hcs
      have hg1 : GOut p1 :=
        ⟨hsh.1 ▸ hg.1, bufGood_of_mapTok hsh.2.2.2.2.2.2.2.2.2.2.2.2.2 hg.2⟩
      have := advance_left_f_gout _ h hg1.1 hg1.2
      exact ⟨this.1, this.2⟩

theorem runOps_preserve_good {P : Printer → Prop}
    (hstep : ∀ p op q, step p op = .ok q → (∀ s, op = Op.string s → goodString s) →
      P p → P q) :
    ∀ (ops : List Op), (∀ s, Op.string s ∈ ops → goodString s) →
      ∀ (p q : Printer), runOps p ops = .ok q → P p → P q := by
  intro ops
  induction ops with
  | nil =>
    intro _ p q h hp
    unfold runOps at h
    simp only [List.foldlM_nil] at h
    cases h
    exact hp
  | cons op rest ih =>
    intro hgood p q h hp
    unfold runOps at h
    rw [List.foldlM_cons] at h
    cases hs : step p op with
    | error er => rw [hs] at h; exact absurd h (by simp [bind, Except.bind])
    | ok p1 =>
      rw [hs] at h
      simp only [bind, Except.bind] at h
      refine ih (fun s hsm => hgood s (List.mem_cons_of_mem _ hsm)) p1 q h ?_
      exact hstep p op p1 hs
        (fun s hop => hgood s (by rw [hop]; exact List.mem_cons_self _ _)) hp

/-- C6 counterexample: scanning the single string consisting of one space
is a valid driver sequence whose eof output is that space, so the last
character of the returned string is a space. -/
theorem no_trailing_ws_cex :
    (runOps Printer.new [Op.string [' ']]).bind Printer.eofRun = .ok [' '] ∧
    ([' '] : Chars).getLast? = some ' ' :=
  ⟨rfl, rfl⟩

/-- C6 (amended): for every driver sequence all of whose scanned strings
are nonempty, do not start with a newline, do not end with a space, and
contain no space immediately before a newline, the string returned by eof
has no space immediately before any newline and does not end with a
space. -/
theorem no_trailing_ws (ops : List Op)
    (hgood : ∀ s, Op.string s ∈ ops → goodString s)
    (p : Printer) (hrun : runOps Printer.new ops = .ok p)
    (s : Chars) (heof : p.eofRun = .ok s) :
    spaceNL s = false ∧ s.getLast? ≠ some ' ' := by
  have hg0 : GOut Printer.new := by
    constructor
    · exact ⟨rfl, by simp [Printer.new]⟩
    · intro e he
      simp [Printer.new, RingBuffer.empty] at he
  have hgp : GOut p :=
    runOps_preserve_good (fun a op b hs hgs hp => step_gout hs hgs hp) ops hgood
      Printer.new p hrun hg0
  unfold Printer.eofRun at heof
  cases hf : p.eofFlush with
  | error er => rw [hf] at heof; exact absurd heof (by simp [Except.map])
  | ok q =>
    rw [hf] at heof
    simp only [Except.map] at heof
    cases heof
    exact (eofFlush_gout hf hgp).1

/-- Witness for no_trailing_ws: one ordinary word. -/
theorem no_trailing_ws_witness :
    (runOps Printer.new [Op.string ['a']] = .ok (Printer.new.print_string ['a'])) ∧
    ((Printer.new.print_string ['a']).eofRun = .ok ['a']) ∧
    (spaceNL ['a'] = false ∧ (['a'] : Chars).getLast? ≠ some ' ') :=
  ⟨rfl, rfl,
    no_trailing_ws [Op.string ['a']]
      (by
        intro s hs
        simp at hs
        subst hs
        exact ⟨by simp, by decide, by decide, rfl⟩)
      (Printer.new.print_string ['a']) rfl ['a'] rfl⟩

theorem get?_tail_succ {α : Type} (l : List α) (n : Nat) : l.tail.get? n = l.get? (n + 1) := by
  cases l with
  | nil => simp
  | cons a t => rfl

theorem head?_mem {α : Type} {l : List α} {a : α} (h : l.head? = some a) : a ∈ l := by
  cases l with
  | nil => cases h
  | cons b t =>
    cases h
    exact List.mem_cons_self _ _

theorem get_top_of_head {p : Printer} {f : PrintFrame} (h : p.print_stack.head? = some f) :
    Printer.get_top p = f := by
  unfold Printer.get_top
  cases hs : p.print_stack with
  | nil => rw [hs] at h; cases h
  | cons g rest =>
    rw [hs] at h
    cases h
    rfl

theorem gids_get?_unique {l : List Nat} (hp : l.Chain' (· > ·)) {i j k : Nat}
    (hi : l.get? i = some k) (hj : l.get? j = some k) : i = j := by
  have hpw := List.chain'_iff_pairwise.mp hp
  obtain ⟨hi1, hi2⟩ := List.get?_eq_some.mp hi
  obtain ⟨hj1, hj2⟩ := List.get?_eq_some.mp hj
  by_contra hne
  rcases Nat.lt_or_ge i j with hlt | hge
  · have hgt := List.pairwise_iff_get.mp hpw ⟨i, hi1⟩ ⟨j, hj1⟩ (by simpa using hlt)
    rw [hi2, hj2] at hgt
    exact lt_irrefl k hgt
  · have hlt2 : j < i := lt_of_le_of_ne hge (fun hji => hne hji.symm)
    have hgt := List.pairwise_iff_get.mp hpw ⟨j, hj1⟩ ⟨i, hi1⟩ (by simpa using hlt2)
    rw [hi2, hj2] at hgt
    exact lt_irrefl k hgt

theorem ghostInv_congr {p q : Printer} (h1 : q.gids = p.gids) (h2 : q.nextId = p.nextId)
    (h3 : q.events = p.events) (h4 : q.print_stack = p.print_stack) (hg : GhostInv p) :
    GhostInv q := by
  unfold GhostInv at hg ⊢
  rw [h1, h2, h3, h4]
  exact hg

theorem ghost_print_begin {p : Printer} {t : BeginToken} {size : Int} {q : Printer}
    (h : p.print_begin t size = .ok q) (hg : GhostInv p) : GhostInv q := by
  obtain ⟨hlen, hch, hglt, hevk, hm3, hfn, hcons, hnl⟩ := hg
  have main : ∀ (fr : PrintFrame) (q2 : Printer), q2.gids = p.nextId :: p.gids →
      q2.nextId = p.nextId + 1 → q2.events = p.events →
      q2.print_stack = fr :: p.print_stack → GhostInv q2 := by
    intro fr q2 hq1 hq2 hq3 hq4
    refine ⟨by rw [hq1, hq4]; simpa using hlen, ?_, ?_, ?_, ?_, ?_, ?_, ?_⟩
    · rw [hq1]
      cases hgs : p.gids with
      | nil => simp
      | cons g gt =>
        rw [List.chain'_cons]
        constructor
        · exact hglt g (by rw [hgs]; exact List.mem_cons_self _ _)
        · rw [← hgs]
          exact hch
    · intro g hgm
      rw [hq2]
      rw [hq1] at hgm
      rcases List.mem_cons.mp hgm with hgm1 | hgm2
      · omega
      · have := hglt g hgm2
        omega
    · intro e he k hk
      rw [hq2]
      rw [hq3] at he
      have := hevk e he k hk
      omega
    · intro e he i k hk hgk
      rw [hq1] at hgk
      rw [hq4]
      rw [hq3] at he
      cases i with
      | zero =>
        simp only [List.get?_cons_zero] at hgk
        have hk2 := hevk e he k hk
        have : k = p.nextId := (Option.some.inj hgk).symm
        omega
      | succ m =>
        simp only [List.get?_cons_succ] at hgk ⊢
        exact hm3 e he m k hk hgk
    · intro e he
      exact hfn e (hq3 ▸ he)
    · intro e e2 he he2
      exact hcons e e2 (hq3 ▸ he) (hq3 ▸ he2)
    · intro e he
      exact hnl e (hq3 ▸ he)
  unfold Printer.print_begin at h
  split at h
  · split at h
    · exact absurd h (by simp)
    · cases h
      exact main _ _ rfl rfl rfl rfl
  · cases h
    exact main _ _ rfl rfl rfl rfl

theorem ghost_print_end {p : Printer} {q : Printer}
    (h : p.print_end = .ok q) (hg : GhostInv p) : GhostInv q := by
  obtain ⟨hlen, hch, hglt, hevk, hm3, hfn, hcons, hnl⟩ := hg
  have main : ∀ (fr : PrintFrame) (rest : List PrintFrame),
      p.print_stack = fr :: rest →
      ∀ q2 : Printer, q2.gids = p.gids.tail → q2.nextId = p.nextId →
        q2.events = p.events → q2.print_stack = rest → GhostInv q2 := by
    intro fr rest hps q2 hq1 hq2 hq3 hq4
    refine ⟨?_, ?_, ?_, ?_, ?_, ?_, ?_, ?_⟩
    · rw [hq1, hq4]
      rw [hps] at hlen
      cases hgs : p.gids with
      | nil => rw [hgs] at hlen; simp at hlen
      | cons g gt =>
        rw [hgs] at hlen
        simp at hlen
        simpa using hlen
    · rw [hq1]
      exact List.Chain'.tail hch
    · intro g hgm
      rw [hq2]
      exact hglt g (List.mem_of_mem_tail (hq1 ▸ hgm))
    · intro e he k hk
      rw [hq2]
      exact hevk e (hq3 ▸ he) k hk
    · intro e he i k hk hgk
      rw [hq1, get?_tail_succ] at hgk
      rw [hq4]
      have := hm3 e (hq3 ▸ he) (i + 1) k hk hgk
      rw [hps, List.get?_cons_succ] at this
      exact this
    · intro e he
      exact hfn e (hq3 ▸ he)
    · intro e e2 he he2
      exact hcons e e2 (hq3 ▸ he) (hq3 ▸ he2)
    · intro e he
      exact hnl e (hq3 ▸ he)
  unfold Printer.print_end at h
  split at h
  · exact absurd h (by simp)
  · rename_i ind b rest heq
    cases h
    exact main _ rest heq _ rfl rfl rfl rfl
  · rename_i b rest heq
    cases h
    exact main _ rest heq _ rfl rfl rfl rfl

theorem ghost_print_break {p : Printer} {t : BreakToken} {size : Int} {q : Printer}
    (h : p.print_break t size = .ok q) (hg : GhostInv p) : GhostInv q := by
  obtain ⟨hlen, hch, hglt, hevk, hm3, hfn, hcons, hnl⟩ := hg
  have main : ∀ nl : Bool,
      (∀ f : PrintFrame, p.print_stack.head? = some f →
        (∀ i, f = .broken i .consistent → nl = true) ∧
        (∀ b, f = .fits b → nl = false)) →
      ∀ q2 : Printer, q2.gids = p.gids → q2.nextId = p.nextId →
        q2.events = ⟨p.gids.head?, p.print_stack.head?, nl⟩ :: p.events →
        q2.print_stack = p.print_stack → GhostInv q2 := by
    intro nl hdec q2 hq1 hq2 hq3 hq4
    have hevfrm : ∀ i k, p.gids.head? = some k → p.gids.get? i = some k →
        p.print_stack.get? i = p.print_stack.head? := by
      intro i k hk hik
      have h0 : p.gids.get? 0 = some k := by
        cases hgs : p.gids with
        | nil => rw [hgs] at hk; cases hk
        | cons g gt =>
          rw [hgs] at hk
          cases hk
          rfl
      have : i = 0 := gids_get?_unique hch hik h0
      subst this
      cases hps : p.print_stack with
      | nil => rfl
      | cons f rest => rfl
    refine ⟨by rw [hq1, hq4]; exact hlen, by rw [hq1]; exact hch,
      fun g hgm => by rw [hq2]; exact hglt g (hq1 ▸ hgm), ?_, ?_, ?_, ?_, ?_⟩
    · intro e he k hk
      rw [hq2]
      rw [hq3] at he
      rcases List.mem_cons.mp he with he1 | he2
      · subst he1
        simp only at hk
        exact hglt k (head?_mem hk)
      · exact hevk e he2 k hk
    · intro e he i k hk hgk
      rw [hq1] at hgk
      rw [hq4]
      rw [hq3] at he
      rcases List.mem_cons.mp he with he1 | he2
      · subst he1
        simp only at hk ⊢
        exact hevfrm i k hk hgk
      · exact hm3 e he2 i k hk hgk
    · intro e he hk
      rw [hq3] at he
      rcases List.mem_cons.mp he with he1 | he2
      · subst he1
        simp only at hk ⊢
        cases hgs : p.gids with
        | cons g gt => rw [hgs] at hk; cases hk
        | nil =>
          rw [hgs] at hlen
          cases hps : p.print_stack with
          | cons f rest => rw [hps] at hlen; simp at hlen
          | nil => rfl
      · exact hfn e he2 hk
    · intro e e2 he he2 hfid
      rw [hq3] at he he2
      have frmOf : ∀ e3, e3 ∈ p.events ∨
          e3 = (⟨p.gids.head?, p.print_stack.head?, nl⟩ : BreakEv) →
          e3.fid = p.gids.head? → e3.frame = p.print_stack.head? := by
        intro e3 he3 hf3
        rcases he3 with he3a | he3b
        · cases hgid : p.gids.head? with
          | none =>
            rw [hgid] at hf3
            have h1 := hfn e3 he3a hf3
            rw [h1]
            cases hgs : p.gids with
            | cons g gt => rw [hgs] at hgid; cases hgid
            | nil =>
              rw [hgs] at hlen
              cases hps : p.print_stack with
              | cons f rest => rw [hps] at hlen; simp at hlen
              | nil => rfl
          | some k =>
            rw [hgid] at hf3
            have h0 : p.gids.get? 0 = some k := by
              cases hgs : p.gids with
              | nil => rw [hgs] at hgid; cases hgid
              | cons g gt =>
                rw [hgs] at hgid
                cases hgid
                rfl
            have h1 := hm3 e3 he3a 0 k hf3 h0
            rw [← h1]
            cases hps : p.print_stack with
            | nil => rfl
            | cons f rest => rfl
        · subst he3b
          rfl
      rcases List.mem_cons.mp he with he1 | he1 <;>
        rcases List.mem_cons.mp he2 with he21 | he21
      · subst he1; subst he21; rfl
      · subst he1
        have h2 := frmOf e2 (Or.inl he21) (by rw [← hfid])
        rw [h2]
      · subst he21
        have h2 := frmOf e (Or.inl he1) (by rw [hfid])
        rw [h2]
      · exact hcons e e2 he1 he21 hfid
    · intro e he f hf
      rw [hq3] at he
      rcases List.mem_cons.mp he with he1 | he2
      · subst he1
        simp only at hf ⊢
        exact hdec f hf
      · exact hnl e he2 f hf
  unfold Printer.print_break at h
  split at h
  · rename_i hfits
    cases h
    refine main false ?_ _ rfl rfl rfl rfl
    intro f hf
    have hgt := get_top_of_head hf
    constructor
    · intro i hfi
      subst hfi
      unfold Printer.breakFits at hfits
      rw [hgt] at hfits
      simp at hfits
    · intro b hfb
      rfl
  · split at h
    · exact absurd h (by simp)
    · rename_i hfits hind
      cases h
      refine main true ?_ _ rfl rfl rfl rfl
      intro f hf
      have hgt := get_top_of_head hf
      constructor
      · intro i hfi
        rfl
      · intro b hfb
        subst hfb
        unfold Printer.breakFits at hfits
        rw [hgt] at hfits
        simp at hfits

theorem dispatch_ghost {p : Printer} {e : BufEntry} {q : Printer}
    (h : Printer.dispatch p e = .ok q) (hg : GhostInv p) : GhostInv q := by
  obtain ⟨tok, sz⟩ := e
  cases tok with
  | string s =>
    cases h
    exact ghostInv_congr rfl rfl rfl rfl hg
  | brk t =>
    have h2 : Printer.print_break
        { p with left_total := p.left_total + t.blank_space } t sz = .ok q := h
    exact ghost_print_break h2 (ghostInv_congr rfl rfl rfl rfl hg)
  | beginTok t => exact ghost_print_begin h hg
  | endTok => exact ghost_print_end h hg

theorem advance_left_f_ghost : ∀ (fuel : Nat) {p q : Printer},
    Printer.advance_left_f fuel p = .ok q → GhostInv p → GhostInv q := by
  intro fuel
  induction fuel with
  | zero => intro p q h; exact fun _ => absurd h (by simp [Printer.advance_left_f])
  | succ n ih =>
    intro p q h hg
    unfold Printer.advance_left_f at h
    cases hbd : p.buf.data with
    | nil => rw [hbd] at h; exact absurd h (by simp)
    | cons e rest =>
      rw [hbd] at h
      dsimp only at h
      by_cases hsz : 0 ≤ e.size
      · rw [if_pos hsz] at h
        cases hd : Printer.dispatch { p with buf := ⟨p.buf.offset + 1, rest⟩ } e with
        | error er => rw [hd] at h; exact absurd h (by simp)
        | ok p2 =>
          rw [hd] at h
          dsimp only at h
          have hg2 := dispatch_ghost hd (ghostInv_congr rfl rfl rfl rfl hg)
          by_cases hemp : p2.buf.data.isEmpty
          · rw [if_pos hemp] at h; cases h
            exact hg2
          · rw [if_neg hemp] at h
            exact ih h hg2
      · rw [if_neg hsz] at h; cases h
        exact hg

theorem check_stream_f_ghost : ∀ (fuel : Nat) {p q : Printer},
    Printer.check_stream_f fuel p = .ok q → GhostInv p → GhostInv q := by
  intro fuel
  induction fuel with
  | zero => intro p q h; exact fun _ => absurd h (by simp [Printer.check_stream_f])
  | succ n ih =>
    intro p q h hg
    unfold Printer.check_stream_f at h
    by_cases hc : p.space < p.right_total - p.left_total
    · rw [if_pos hc] at h
      cases hgl : p.scan_stack.getLast? with
      | none => rw [hgl] at h; exact absurd h (by simp)
      | some front =>
        rw [hgl] at h
        simp only [] at h
        by_cases hfr : front = p.buf.index_of_first
        · rw [if_pos hfr] at h
          cases hbd : p.buf.data with
          | nil => rw [hbd] at h; exact absurd h (by simp)
          | cons e rest =>
            rw [hbd] at h
            dsimp only at h
            cases hal : Printer.advance_left { p with
                scan_stack := p.scan_stack.dropLast
                buf := ⟨p.buf.offset, { e with size := SIZE_INFINITY } :: rest⟩ } with
            | error er => rw [hal] at h; exact absurd h (by simp)
            | ok p2 =>
              rw [hal] at h
              dsimp only at h
              have hg2 := advance_left_f_ghost _ hal (ghostInv_congr rfl rfl rfl rfl hg)
              by_cases hemp : p2.buf.data.isEmpty
              · rw [if_pos hemp] at h; cases h
                exact hg2
              · rw [if_neg hemp] at h
                exact ih h hg2
        · rw [if_neg hfr] at h
          dsimp only at h
          cases hal : Printer.advance_left p with
          | error er => rw [hal] at h; exact absurd h (by simp)
          | ok p2 =>
            rw [hal] at h
            dsimp only at h
            have hg2 := advance_left_f_ghost _ hal hg
            by_cases hemp : p2.buf.data.isEmpty
            · rw [if_pos hemp] at h; cases h
              exact hg2
            · rw [if_neg hemp] at h
              exact ih h hg2
    · rw [if_neg hc] at h
      cases h
      exact hg

theorem step_ghost : ∀ {p : Printer} {op : Op} {q : Printer},
    step p op = .ok q → GhostInv p → GhostInv q := by
  intro p op q h hg
  cases op with
  | string s =>
    simp only [step] at h
    unfold Printer.scan_string at h
    split at h
    · cases h
      exact ghostInv_congr rfl rfl rfl rfl hg
    · exact check_stream_f_ghost _ h (ghostInv_congr rfl rfl rfl rfl hg)
  | brk t =>
    simp only [step] at h
    unfold Printer.scan_break at h
    simp only [bind, Except.bind, pure] at h
    split at h
    · cases h
      exact ghostInv_congr rfl rfl rfl rfl hg
    · cases hcs : Printer.check_stack p 0 with
      | error er => rw [hcs] at h; exact absurd h (by simp)
      | ok p1 =>
        rw [hcs] at h
        dsimp only at h
        cases h
        have hsh := check_stack_f_facts _ 0 hcs
        exact ghostInv_congr hsh.2.2.2.2.2.2.2.1 hsh.2.2.2.2.2.2.2.2.1
          hsh.2.2.2.2.2.2.2.2.2.1 hsh.2.2.2.2.1 hg
  | beginB t =>
    simp only [step] at h
    cases h
    unfold Printer.scan_begin
    split
    · exact ghostInv_congr rfl rfl rfl rfl hg
    · exact ghostInv_congr rfl rfl rfl rfl hg
  | endE =>
    simp only [step] at h
    unfold Printer.scan_end at h
    split at h
    · exact ghost_print_end h hg
    · have hpe : ∀ p0 : Printer, GhostInv p0 → GhostInv (Printer.push_end p0) :=
        fun p0 h0 => ghostInv_congr rfl rfl rfl rfl h0
      cases hgl : p.buf.data.getLast? with
      | none => rw [hgl] at h; cases h; exact hpe p hg
      | some lastE =>
        rw [hgl] at h
        dsimp only at h
        cases htok : lastE.token with
        | brk bt =>
          rw [htok] at h
          dsimp only at h
          cases hgl2 : p.buf.data.dropLast.getLast? with
          | none =>
            rw [hgl2] at h
            dsimp only at h
            split at h
            · cases h; exact hpe _ (ghostInv_congr rfl rfl rfl rfl hg)
            · cases h; exact hpe p hg
          | some sl =>
            rw [hgl2] at h
            dsimp only at h
            cases htok2 : sl.token with
            | beginTok bt2 =>
              rw [htok2] at h
              cases h
              exact ghostInv_congr rfl rfl rfl rfl hg
            | string s2 =>
              rw [htok2] at h
              dsimp only at h
              split at h
              · cases h; exact hpe _ (ghostInv_congr rfl rfl rfl rfl hg)
              · cases h; exact hpe p hg
            | brk bt2 =>
              rw [htok2] at h
              dsimp only at h
              split at h
              · cases h; exact hpe _ (ghostInv_congr rfl rfl rfl rfl hg)
              · cases h; exact hpe p hg
            | endTok =>
              rw [htok2] at h
              dsimp only at h
              split at h
              · cases h; exact hpe _ (ghostInv_congr rfl rfl rfl rfl hg)
              · cases h; exact hpe p hg
        | string s => rw [htok] at h; cases h; exact hpe p hg
        | beginTok t2 => rw [htok] at h; cases h; exact hpe p hg
        | endTok => rw [htok] at h; cases h; exact hpe p hg
  | offs n =>
    simp only [step] at h
    unfold Printer.offsetOp at h
    cases hgl : p.buf.data.getLast? with
    | none => rw [hgl] at h; exact absurd h (by simp)
    | some e =>
      rw [hgl] at h
      dsimp only at h
      cases htok : e.token with
      | brk t => rw [htok] at h; cases h; exact ghostInv_congr rfl rfl rfl rfl hg
      | beginTok t => rw [htok] at h; cases h; exact hg
      | string s => rw [htok] at h; exact absurd h (by simp)
      | endTok => rw [htok] at h; exact absurd h (by simp)

theorem eofFlush_ghost {p q : Printer} (h : p.eofFlush = .ok q) (hg : GhostInv p) :
    GhostInv q := by
  unfold Printer.eofFlush at h
  split at h
  · cases h; exact hg
  · simp only [bind, Except.bind] at h
    cases hcs : Printer.check_stack p 0 with
    | error er => rw [hcs] at h; exact absurd h (by simp)
    | ok p1 =>
      rw [hcs] at h
      have hsh := check_stack_f_facts _ 0 hcs
      exact advance_left_f_ghost _ h (ghostInv_congr hsh.2.2.2.2.2.2.2.1
        hsh.2.2.2.2.2.2.2.2.1 hsh.2.2.2.2.2.2.2.2.2.1 hsh.2.2.2.2.1 hg)

theorem ghostInv_new : GhostInv Printer.new := by
  refine ⟨rfl, ?_, ?_, ?_, ?_, ?_, ?_, ?_⟩ <;>
    simp [Printer.new]

/-- C4: in any reachable state, also after the eof flush, any two logged
print_break decisions that were made under the same print frame push (same
frame identity) of a Consistent block agree: if the frame was
Broken(.., Consistent) both emitted newlines, and if it was Fits both
emitted whitespace. -/
theorem consistent_block_law :
    ∀ (ops : List Op) (p : Printer), runOps Printer.new ops = .ok p →
    ∀ q, (q = p ∨ p.eofFlush = .ok q) →
    ∀ e e', e ∈ q.events → e' ∈ q.events → e.fid = e'.fid →
    ∀ k f, e.fid = some k → e.frame = some f →
      (∀ i, f = .broken i .consistent → e.newline = true ∧ e'.newline = true) ∧
      (∀ b, f = .fits b → e.newline = false ∧ e'.newline = false) := by
  intro ops p hrun q hq e e' he he' hfid k f hk hf
  have hgp : GhostInv p :=
    runOps_preserve (fun a op b hs h2 => step_ghost hs h2) ops Printer.new p hrun ghostInv_new
  have hgq : GhostInv q := by
    rcases hq with hq1 | hq2
    · rw [hq1]; exact hgp
    · exact eofFlush_ghost hq2 hgp
  obtain ⟨hlen, hch, hglt, hevk, hm3, hfn, hcons, hnl⟩ := hgq
  have hf' : e'.frame = some f := by
    rw [← hcons e e' he he' hfid]
    exact hf
  have h1 := hnl e he f hf
  have h2 := hnl e' he' f hf'
  exact ⟨fun i hfi => ⟨h1.1 i hfi, h2.1 i hfi⟩, fun b hfb => ⟨h1.2 b hfb, h2.2 b hfb⟩⟩

/-- Witness for consistent_block_law: the forced consistent break of
c4ops. -/
theorem consistent_block_law_witness :
    (runOps Printer.new c4ops = .ok c4P ∧ c4ev ∈ c4P.events ∧
      c4ev.fid = some 0 ∧ c4ev.frame = some (.broken 0 .consistent)) ∧
    ((∀ i, PrintFrame.broken 0 Breaks.consistent = .broken i .consistent →
        c4ev.newline = true ∧ c4ev.newline = true) ∧
      (∀ b, PrintFrame.broken 0 Breaks.consistent = .fits b →
        c4ev.newline = false ∧ c4ev.newline = false)) := by
  have hev : c4P.events = [c4ev] := rfl
  have hmem : c4ev ∈ c4P.events := by
    rw [hev]
    exact List.mem_cons_self _ _
  exact ⟨⟨rfl, hmem, rfl, rfl⟩,
    consistent_block_law c4ops c4P rfl c4P (Or.inl rfl) c4ev c4ev hmem hmem rfl 0
      (.broken 0 .consistent) rfl rfl⟩

theorem mpb_nonpos : ∀ l : List Token, mpb l ≤ 0 := by
  intro l
  cases l with
  | nil => exact le_refl 0
  | cons t r => exact min_le_left _ _

theorem balSum_cons (t : Token) (l : List Token) : balSum (t :: l) = balTok t + balSum l := by
  simp [balSum]

theorem balSum_append (a b : List Token) : balSum (a ++ b) = balSum a + balSum b := by
  simp [balSum]

theorem mpb_cons (t : Token) (l : List Token) : mpb (t :: l) = min 0 (balTok t + mpb l) :=
  rfl

theorem mpb_append : ∀ a b : List Token, mpb (a ++ b) = min (mpb a) (balSum a + mpb b) := by
  intro a
  induction a with
  | nil =>
    intro b
    simp only [List.nil_append]
    show mpb b = min (mpb []) (balSum [] + mpb b)
    have hz : balSum [] + mpb b = mpb b := by simp [balSum]
    rw [hz]
    show mpb b = min 0 (mpb b)
    exact (min_eq_right (mpb_nonpos b)).symm
  | cons t r ih =>
    intro b
    show mpb (t :: (r ++ b)) = _
    rw [mpb_cons, ih, mpb_cons, balSum_cons]
    rw [min_assoc]
    congr 1
    rw [← min_add_add_left]
    congr 1
    ring

theorem entW_eq_tokW (e : BufEntry) : entW e = tokW e.token := rfl

theorem totW_congr_mapTok {l1 l2 : List BufEntry}
    (h : l1.map BufEntry.token = l2.map BufEntry.token) : totW l1 = totW l2 := by
  unfold totW
  have h1 : l1.map entW = (l1.map BufEntry.token).map tokW := by
    rw [List.map_map]
    rfl
  have h2 : l2.map entW = (l2.map BufEntry.token).map tokW := by
    rw [List.map_map]
    rfl
  rw [h1, h2, h]

theorem totW_drop_congr {l1 l2 : List BufEntry} (n : Nat)
    (h : l1.map BufEntry.token = l2.map BufEntry.token) :
    totW (l1.drop n) = totW (l2.drop n) := by
  refine totW_congr_mapTok ?_
  rw [List.map_drop, List.map_drop, h]

theorem desc_head_gt {a : Nat} {rest : List Nat}
    (h : (a :: rest).Chain' (· > ·)) : ∀ i ∈ rest, i < a := by
  have hpw := List.chain'_iff_pairwise.mp h
  exact fun i hi => (List.pairwise_cons.mp hpw).1 i hi

theorem desc_getLast_le : ∀ {l : List Nat}, l.Chain' (· > ·) →
    ∀ {b}, l.getLast? = some b → ∀ i ∈ l, b ≤ i := by
  intro l
  induction l with
  | nil => intro _ b hb; cases hb
  | cons a rest ih =>
    intro h b hb i hi
    cases hrest : rest with
    | nil =>
      subst hrest
      simp at hb
      subst hb
      simp at hi
      subst hi
      exact le_refl _
    | cons c rest2 =>
      rw [hrest, List.getLast?_cons_cons] at hb
      rcases List.mem_cons.mp hi with hi1 | hi2
      · subst hi1
        have hb2 : b ∈ rest := by
          rw [hrest]
          exact List.mem_of_mem_getLast? hb
        exact le_of_lt (desc_head_gt h b hb2)
      · exact ih (hrest ▸ h.tail) (hrest ▸ hb) i (hrest ▸ hi2)

theorem get?_dropLast_lt {α : Type} (l : List α) (j : Nat) (h : j < l.length - 1) :
    l.dropLast.get? j = l.get? j := by
  rw [List.dropLast_eq_take, List.get?_take h]

theorem getLast?_get? {α : Type} {l : List α} {e : α} (h : l.getLast? = some e) :
    l.get? (l.length - 1) = some e ∧ 1 ≤ l.length := by
  constructor
  · rw [← List.getLast?_eq_get?]
    exact h
  · cases l with
    | nil => cases h
    | cons a t => simp

theorem dispatch_print_len {p : Printer} {e : BufEntry} {q : Printer}
    (h : Printer.dispatch p e = .ok q) :
    (q.print_stack.length : Int) = (p.print_stack.length : Int) + balTok e.token := by
  obtain ⟨tok, sz⟩ := e
  cases tok with
  | string s =>
    cases h
    simp [Printer.print_string, balTok]
  | brk t =>
    have hf := print_break_fields h
    rw [hf.2.2.2.2.1]
    simp [balTok]
  | beginTok t =>
    unfold Printer.dispatch at h
    dsimp only at h
    unfold Printer.print_begin at h
    split at h
    · split at h
      · exact absurd h (by simp)
      · cases h
        simp [balTok]
    · cases h
      simp [balTok]
  | endTok =>
    unfold Printer.dispatch at h
    dsimp only at h
    unfold Printer.print_end at h
    split at h
    · exact absurd h (by simp)
    · rename_i ind b rest heq
      cases h
      rw [heq]
      simp [balTok]
    · rename_i b rest heq
      cases h
      rw [heq]
      simp [balTok]

/-- What advance_left guarantees: it pops a resolved prefix of the buffer,
strictly shrinking it whenever the first entry is resolved, leaves the
scan stack and right_total alone, keeps the print-depth bookkeeping, and
stops at an empty buffer or an unresolved first entry. -/
structure ALPost (p q : Printer) : Prop where
  kdrop : ∃ k, q.buf.offset = p.buf.offset + k ∧ q.buf.data = p.buf.data.drop k ∧
    (∀ j e, j < k → p.buf.data.get? j = some e → 0 ≤ e.size) ∧
    ((∀ e, p.buf.data.get? 0 = some e → 0 ≤ e.size) → p.buf.data ≠ [] → 0 < k)
  ss : q.scan_stack = p.scan_stack
  rt : q.right_total = p.right_total
  lt : p.left_total ≤ q.left_total
  psb : (q.print_stack.length : Int) + balSum (q.buf.data.map BufEntry.token) =
    (p.print_stack.length : Int) + balSum (p.buf.data.map BufEntry.token)
  dokq : 0 ≤ (q.print_stack.length : Int) + mpb (q.buf.data.map BufEntry.token)
  stop : q.buf.data = [] ∨ ∃ e, q.buf.data.get? 0 = some e ∧ e.size < 0
  wq : WInv p → WInv q

theorem advance_left_safe : ∀ (fuel : Nat) (p : Printer),
    p.buf.data.length < fuel →
    p.buf.data ≠ [] →
    0 ≤ (p.print_stack.length : Int) + mpb (p.buf.data.map BufEntry.token) →
    (∀ j e, p.buf.data.get? j = some e → tokOffOk e.token) →
    ∃ q, Printer.advance_left_f fuel p = .ok q ∧ ALPost p q := by
  intro fuel
  induction fuel with
  | zero => intro p hf; omega
  | succ n ih =>
    intro p hf hne hdok hoffs
    cases hbd : p.buf.data with
    | nil => exact absurd hbd hne
    | cons e rest =>
      by_cases hsz : 0 ≤ e.size
      · -- the first entry is resolved: dispatch it
        have hoff0 : tokOffOk e.token := hoffs 0 e (by rw [hbd]; rfl)
        have htoks : p.buf.data.map BufEntry.token = e.token :: rest.map BufEntry.token := by
          rw [hbd]; rfl
        -- dispatch succeeds
        obtain ⟨p2, hd⟩ : ∃ p2,
            Printer.dispatch { p with buf := ⟨p.buf.offset + 1, rest⟩ } e = .ok p2 := by
          obtain ⟨tok, szv⟩ := e
          cases htok : tok with
          | string s => exact ⟨_, rfl⟩
          | brk t =>
            unfold Printer.dispatch
            dsimp only
            unfold Printer.print_break
            split
            · exact ⟨_, rfl⟩
            · rw [if_neg]
              · exact ⟨_, rfl⟩
              · subst htok
                simp only [tokOffOk] at hoff0
                push_neg
                positivity
          | beginTok t =>
            unfold Printer.dispatch
            dsimp only
            unfold Printer.print_begin
            split
            · rw [if_neg]
              · exact ⟨_, rfl⟩
              · subst htok
                simp only [tokOffOk] at hoff0
                push_neg
                positivity
            · exact ⟨_, rfl⟩
          | endTok =>
            unfold Printer.dispatch
            dsimp only
            unfold Printer.print_end
            cases hps : p.print_stack with
            | nil =>
              exfalso
              rw [htoks] at hdok
              subst htok
              rw [mpb_cons, hps] at hdok
              simp only [List.length_nil, Nat.cast_zero, zero_add] at hdok
              have h1 : mpb (rest.map BufEntry.token) ≤ 0 := mpb_nonpos _
              have h2 : min 0 (balTok Token.endTok + mpb (rest.map BufEntry.token)) ≤
                  balTok Token.endTok + mpb (rest.map BufEntry.token) := min_le_right _ _
              have h3 : balTok Token.endTok = -1 := rfl
              linarith
            | cons f rest2 =>
              cases f with
              | broken ind b => exact ⟨_, rfl⟩
              | fits b => exact ⟨_, rfl⟩
        have hlen2 := dispatch_print_len hd
        obtain ⟨hbuf2, hss2, hrt2, hlt2⟩ := dispatch_fields hd
        dsimp only at hlen2 hbuf2 hss2 hrt2 hlt2
        have hbd2 : p2.buf.data = rest := by rw [hbuf2]
        have hoffs2 : ∀ j e2, p2.buf.data.get? j = some e2 → tokOffOk e2.token := by
          intro j e2 hj
          rw [hbd2] at hj
          refine hoffs (j + 1) e2 ?_
          rw [hbd]
          exact hj
        have hdok2 : 0 ≤ (p2.print_stack.length : Int) + mpb (p2.buf.data.map BufEntry.token) := by
          rw [hbd2, hlen2]
          rw [htoks, mpb_cons] at hdok
          have h2 : min 0 (balTok e.token + mpb (rest.map BufEntry.token)) ≤
              balTok e.token + mpb (rest.map BufEntry.token) := min_le_right _ _
          linarith
        have hpsb2 : (p2.print_stack.length : Int) + balSum (p2.buf.data.map BufEntry.token) =
            (p.print_stack.length : Int) + balSum (p.buf.data.map BufEntry.token) := by
          rw [hbd2, hlen2, htoks, balSum_cons]
          ring
        have hw2 : WInv p → WInv p2 := by
          intro hw
          unfold WInv at hw ⊢
          rw [hbuf2, hrt2, hlt2]
          dsimp only
          rw [hbd, totW_cons] at hw
          push_cast at hw ⊢
          linarith
        have hstep : Printer.advance_left_f (n + 1) p =
            (if p2.buf.data.isEmpty then .ok p2 else Printer.advance_left_f n p2) := by
          conv_lhs => unfold Printer.advance_left_f
          rw [hbd]
          dsimp only
          rw [if_pos hsz, hd]
        by_cases hemp : p2.buf.data.isEmpty
        · refine ⟨p2, by rw [hstep, if_pos hemp], ?_⟩
          refine ⟨⟨1, by rw [hbuf2], by rw [hbd2, hbd]; rfl, ?_, fun _ _ => one_pos⟩,
            hss2, hrt2, ?_, hpsb2, hdok2, Or.inl (List.isEmpty_iff.mp hemp), hw2⟩
          · intro j e0 hj hget
            have hj0 : j = 0 := by omega
            subst hj0
            rw [hbd] at hget
            cases hget
            exact hsz
          · rw [hlt2]
            have : (0 : Int) ≤ (entW e : Int) := by positivity
            linarith
        · have hne2 : p2.buf.data ≠ [] := fun hc => hemp (by simp [hc])
          have hf2 : p2.buf.data.length < n := by
            rw [hbd2]
            rw [hbd] at hf
            simp at hf
            omega
          obtain ⟨q, hq, hpost⟩ := ih p2 hf2 hne2 hdok2 hoffs2
          refine ⟨q, by rw [hstep, if_neg hemp]; exact hq, ?_⟩
          obtain ⟨⟨k, hk1, hk2, hpop2, _⟩, ss2, rt2, lt2, psb2, dokq2, stop2, wq2⟩ := hpost
          refine ⟨⟨k + 1, ?_, ?_, ?_, fun _ _ => by omega⟩,
            ss2.trans hss2, rt2.trans hrt2, ?_, psb2.trans hpsb2, dokq2, stop2,
            fun hw => wq2 (hw2 hw)⟩
          · rw [hk1, hbuf2]
            dsimp only
            omega
          · rw [hk2, hbd2, hbd]
            rfl
          · intro j e0 hj hget
            cases j with
            | zero =>
              rw [hbd] at hget
              cases hget
              exact hsz
            | succ j' =>
              refine hpop2 j' e0 (by omega) ?_
              rw [hbd2]
              rw [hbd] at hget
              exact hget
          · refine le_trans ?_ lt2
            rw [hlt2]
            have : (0 : Int) ≤ (entW e : Int) := by positivity
            linarith
      · -- unresolved first entry: stop
        refine ⟨p, ?_, ?_⟩
        · unfold Printer.advance_left_f
          rw [hbd]
          dsimp only
          rw [if_neg hsz]
        · refine ⟨⟨0, by omega, by simp, fun j _ hj _ => absurd hj (Nat.not_lt_zero j), ?_⟩,
            rfl, rfl, le_refl _, rfl, hdok, ?_, id⟩
          · intro hres _
            exact absurd (hres e (by rw [hbd]; rfl)) hsz
          · refine Or.inr ⟨e, by rw [hbd]; rfl, by omega⟩

theorem get?_set_self {α : Type} : ∀ (l : List α) (n : Nat) (a : α), n < l.length →
    (l.set n a).get? n = some a := by
  intro l
  induction l with
  | nil => intro n a h; simp at h
  | cons b t ih =>
    intro n a h
    cases n with
    | zero => rfl
    | succ m => exact ih m a (by simpa using h)

theorem get?_lt_len {α : Type} {l : List α} {n : Nat} {a : α} (h : l.get? n = some a) :
    n < l.length := by
  by_contra hc
  rw [List.get?_eq_none.mpr (by omega)] at h
  cases h

theorem get?_some_of_lt {α : Type} {l : List α} {n : Nat} (h : n < l.length) :
    ∃ a, l.get? n = some a := by
  cases hx : l.get? n with
  | none => exact absurd (List.get?_eq_none.mp hx) (by omega)
  | some a => exact ⟨a, rfl⟩

theorem eq_dropLast_append {α : Type} {l : List α} {b : α} (h : l.getLast? = some b) :
    l = l.dropLast ++ [b] := by
  conv_lhs => rw [← List.dropLast_append_getLast? b h]

theorem pairwise_of_desc {l : List Nat} (h : l.Chain' (· > ·)) : l.Pairwise (· > ·) :=
  List.chain'_iff_pairwise.mp h

theorem desc_of_pairwise {l : List Nat} (h : l.Pairwise (· > ·)) : l.Chain' (· > ·) :=
  List.chain'_iff_pairwise.mpr h

/-- In a strictly descending list split as take/drop, every kept (dropped)
element is smaller than every popped (taken) element. -/
theorem desc_take_gt_drop {l : List Nat} (h : l.Chain' (· > ·)) (k : Nat)
    {a b : Nat} (ha : a ∈ l.take k) (hb : b ∈ l.drop k) : a > b := by
  have hp := pairwise_of_desc h
  rw [← List.take_append_drop k l] at hp
  exact (List.pairwise_append.mp hp).2.2 a ha b hb

theorem mem_take_or_drop {α : Type} {l : List α} {a : α} (k : Nat) (h : a ∈ l) :
    a ∈ l.take k ∨ a ∈ l.drop k := by
  rw [← List.take_append_drop k l] at h
  exact List.mem_append.mp h

theorem len_of_mapTok {l1 l2 : List BufEntry}
    (h : l1.map BufEntry.token = l2.map BufEntry.token) : l1.length = l2.length := by
  have h2 := congrArg List.length h
  simpa using h2

theorem get?_token_of_mapTok {l1 l2 : List BufEntry}
    (h : l1.map BufEntry.token = l2.map BufEntry.token) {j : Nat} {e : BufEntry}
    (he : l1.get? j = some e) : ∃ e2, l2.get? j = some e2 ∧ e2.token = e.token := by
  have h1 : (l2.map BufEntry.token).get? j = some e.token := by
    rw [← h, List.get?_map, he]
    rfl
  rw [List.get?_map] at h1
  cases hx : l2.get? j with
  | none => rw [hx] at h1; cases h1
  | some e2 =>
    rw [hx] at h1
    exact ⟨e2, rfl, Option.some.inj h1⟩

/-- What check_stack guarantees: everything except the scan stack and the
sizes at popped scan-stack positions is unchanged; the scan stack loses a
top segment; popped positions become resolved; and a popped Begin acquires
an End entry above it in the buffer. -/
structure CSP (p q : Printer) : Prop where
  off : q.buf.offset = p.buf.offset
  toks : q.buf.data.map BufEntry.token = p.buf.data.map BufEntry.token
  outE : q.out = p.out
  sp : q.space = p.space
  lt : q.left_total = p.left_total
  rt : q.right_total = p.right_total
  ps : q.print_stack = p.print_stack
  ind : q.indent = p.indent
  pend : q.pending_indentation = p.pending_indentation
  ss : ∃ k, q.scan_stack = p.scan_stack.drop k
  keep : ∀ j e e2, p.buf.data.get? j = some e → q.buf.data.get? j = some e2 →
    ((p.buf.offset + j) ∈ q.scan_stack ∨ (p.buf.offset + j) ∉ p.scan_stack) → e2 = e
  res : ∀ j e2, q.buf.data.get? j = some e2 → (p.buf.offset + j) ∈ p.scan_stack →
    (p.buf.offset + j) ∉ q.scan_stack → 0 ≤ e2.size
  begwit : ∀ j e2, q.buf.data.get? j = some e2 → (p.buf.offset + j) ∈ p.scan_stack →
    (p.buf.offset + j) ∉ q.scan_stack →
    (∀ tb, e2.token ≠ .beginTok tb) ∨
    ∃ kk e3, j < kk ∧ q.buf.data.get? kk = some e3 ∧ e3.token = .endTok

theorem csp_refl (p : Printer) : CSP p p := by
  refine ⟨rfl, rfl, rfl, rfl, rfl, rfl, rfl, rfl, rfl, ⟨0, rfl⟩, ?_, ?_, ?_⟩
  · intro j e e2 h1 h2 _
    exact (Option.some.inj (h1.symm.trans h2)).symm
  · intro j e2 _ hin hnin
    exact absurd hin hnin
  · intro j e2 _ hin hnin
    exact absurd hin hnin

theorem csp_trans {p q r : Printer} (h1 : CSP p q) (h2 : CSP q r) : CSP p r := by
  obtain ⟨off1, toks1, out1, sp1, lt1, rt1, ps1, ind1, pend1, ss1, keep1, res1, begw1⟩ := h1
  obtain ⟨off2, toks2, out2, sp2, lt2, rt2, ps2, ind2, pend2, ss2, keep2, res2, begw2⟩ := h2
  have hlen1 : q.buf.data.length = p.buf.data.length := len_of_mapTok toks1
  have hlen2 : r.buf.data.length = q.buf.data.length := len_of_mapTok toks2
  refine ⟨off2.trans off1, toks2.trans toks1, out2.trans out1, sp2.trans sp1, lt2.trans lt1,
    rt2.trans rt1, ps2.trans ps1, ind2.trans ind1, pend2.trans pend1, ?_, ?_, ?_, ?_⟩
  · obtain ⟨k1, hk1⟩ := ss1
    obtain ⟨k2, hk2⟩ := ss2
    exact ⟨k1 + k2, by rw [hk2, hk1, List.drop_drop]⟩
  · intro j e e2 hp hr hcond
    obtain ⟨e1, hq⟩ := get?_some_of_lt (l := q.buf.data) (n := j)
      (by rw [hlen1]; exact get?_lt_len hp)
    have he1 : e1 = e := by
      apply keep1 j e e1 hp hq
      rcases hcond with hin | hnin
      · left
        obtain ⟨k2, hk2⟩ := ss2
        rw [hk2] at hin
        exact List.drop_subset _ _ hin
      · right; exact hnin
    have hcond2 : (q.buf.offset + j) ∈ r.scan_stack ∨ (q.buf.offset + j) ∉ q.scan_stack := by
      rw [off1]
      rcases hcond with hin | hnin
      · left; exact hin
      · right
        intro hq1
        obtain ⟨k1, hk1⟩ := ss1
        rw [hk1] at hq1
        exact hnin (List.drop_subset _ _ hq1)
    have he2 : e2 = e1 := keep2 j e1 e2 hq hr hcond2
    rw [he2, he1]
  · intro j e2 hr hin hnin
    obtain ⟨e1, hq⟩ := get?_some_of_lt (l := q.buf.data) (n := j)
      (by rw [← hlen2]; exact get?_lt_len hr)
    by_cases hq1 : (p.buf.offset + j) ∈ q.scan_stack
    · refine res2 j e2 hr ?_ ?_
      · rw [off1]; exact hq1
      · rw [off1]; exact hnin
    · have h0 := res1 j e1 hq hin hq1
      have he : e2 = e1 := keep2 j e1 e2 hq hr (Or.inr (by rw [off1]; exact hq1))
      rw [he]; exact h0
  · intro j e2 hr hin hnin
    obtain ⟨e1, hq⟩ := get?_some_of_lt (l := q.buf.data) (n := j)
      (by rw [← hlen2]; exact get?_lt_len hr)
    by_cases hq1 : (p.buf.offset + j) ∈ q.scan_stack
    · refine begw2 j e2 hr ?_ ?_
      · rw [off1]; exact hq1
      · rw [off1]; exact hnin
    · have he : e2 = e1 := keep2 j e1 e2 hq hr (Or.inr (by rw [off1]; exact hq1))
      rcases begw1 j e1 hq hin hq1 with hnb | ⟨kk, e3, hkk, hq3, hend⟩
      · left
        rw [he]
        exact hnb
      · right
        obtain ⟨e4, hr4, htok4⟩ := get?_token_of_mapTok toks2.symm hq3
        exact ⟨kk, e4, hkk, hr4, htok4.trans hend⟩

theorem get?_set_ne {α : Type} : ∀ (l : List α) (n m : Nat) (a : α), n ≠ m →
    (l.set n a).get? m = l.get? m := by
  intro l
  induction l with
  | nil => intro n m a _; simp
  | cons b t ih =>
    intro n m a hnm
    cases n with
    | zero =>
      cases m with
      | zero => exact absurd rfl hnm
      | succ m2 => rfl
    | succ n2 =>
      cases m with
      | zero => rfl
      | succ m2 => exact ih n2 m2 a (by omega)

/-- One check_stack iteration: popping the top scan-stack index and
rewriting that entry's size to a non-negative value is a CSP step. -/
theorem csp_setIdx {p : Printer} {index : Nat} {entry : BufEntry} {rest : List Nat} {z : Int}
    (hss : p.scan_stack = index :: rest)
    (hsorted : p.scan_stack.Chain' (· > ·))
    (hoffle : p.buf.offset ≤ index)
    (hposlt : index - p.buf.offset < p.buf.data.length)
    (hget : p.buf.data.get? (index - p.buf.offset) = some entry)
    (hz : 0 ≤ z)
    (hbw : (∀ tb, entry.token ≠ .beginTok tb) ∨
      ∃ kk e3, index - p.buf.offset < kk ∧ p.buf.data.get? kk = some e3 ∧
        e3.token = .endTok) :
    CSP p { p with scan_stack := rest,
                   buf := p.buf.setIdx index { entry with size := z } } := by
  have hchain : (index :: rest).Chain' (· > ·) := hss ▸ hsorted
  refine ⟨rfl, ?_, rfl, rfl, rfl, rfl, rfl, rfl, rfl, ⟨1, by rw [hss]; rfl⟩, ?_, ?_, ?_⟩
  · exact mapTok_set _ _ _ _ hget rfl
  · intro j e e2 hp hq hcond
    by_cases hj : j = index - p.buf.offset
    · exfalso
      subst hj
      have heq : p.buf.offset + (index - p.buf.offset) = index := by omega
      rw [heq] at hcond
      rcases hcond with hin | hnin
      · exact absurd rfl (Nat.ne_of_gt (desc_head_gt hchain index hin))
      · exact hnin (by rw [hss]; exact List.mem_cons_self _ _)
    · have : (p.buf.setIdx index { entry with size := z }).data.get? j = p.buf.data.get? j := by
        unfold RingBuffer.setIdx
        exact get?_set_ne _ _ _ _ (fun hc => hj hc.symm)
      rw [this, hp] at hq
      exact (Option.some.inj hq).symm
  · intro j e2 hq hin hnin
    have hj : j = index - p.buf.offset := by
      rw [hss] at hin
      rcases List.mem_cons.mp hin with h1 | h2
      · omega
      · exact absurd h2 hnin
    subst hj
    have hq2 : (p.buf.setIdx index { entry with size := z }).data.get?
        (index - p.buf.offset) = some { entry with size := z } := by
      unfold RingBuffer.setIdx
      exact get?_set_self _ _ _ hposlt
    rw [hq2] at hq
    rw [← Option.some.inj hq]
    exact hz
  · intro j e2 hq hin hnin
    have hj : j = index - p.buf.offset := by
      rw [hss] at hin
      rcases List.mem_cons.mp hin with h1 | h2
      · omega
      · exact absurd h2 hnin
    subst hj
    have hq2 : (p.buf.setIdx index { entry with size := z }).data.get?
        (index - p.buf.offset) = some { entry with size := z } := by
      unfold RingBuffer.setIdx
      exact get?_set_self _ _ _ hposlt
    rw [hq2] at hq
    rw [← Option.some.inj hq]
    rcases hbw with hnb | ⟨kk, e3, hkk, hk3, hend⟩
    · left
      exact hnb
    · right
      refine ⟨kk, e3, hkk, ?_, hend⟩
      unfold RingBuffer.setIdx
      rw [get?_set_ne _ _ _ _ (by omega)]
      exact hk3

/-- check_stack never panics when the scan stack is descending, live,
string-free and width-consistent, and satisfies the CSP contract; the
End-above invariant feeds the Begin witnesses. -/
theorem check_stack_safe : ∀ (fuel : Nat) (p : Printer) (depth : Nat),
    p.scan_stack.length < fuel →
    p.scan_stack.Chain' (· > ·) →
    (∀ i ∈ p.scan_stack, p.buf.offset ≤ i ∧ i - p.buf.offset < p.buf.data.length) →
    (∀ i ∈ p.scan_stack, ∀ e, p.buf.data.get? (i - p.buf.offset) = some e →
      ∀ s, e.token ≠ .string s) →
    (∀ i ∈ p.scan_stack, ∀ e, p.buf.data.get? (i - p.buf.offset) = some e →
      brkOrBeg e.token →
      p.right_total + e.size = totW (p.buf.data.drop (i - p.buf.offset))) →
    (0 < depth → ∃ kk e2, p.buf.data.get? kk = some e2 ∧ e2.token = .endTok ∧
      ∀ i ∈ p.scan_stack, i - p.buf.offset < kk) →
    ∃ q, Printer.check_stack_f fuel p depth = .ok q ∧ CSP p q := by
  intro fuel
  induction fuel with
  | zero => intro p depth hf _ _ _ _ _; omega
  | succ n ih =>
    intro p depth hf hsorted hlive hnostr htrailw hend
    unfold Printer.check_stack_f
    cases hss : p.scan_stack with
    | nil => exact ⟨p, rfl, csp_refl p⟩
    | cons index rest =>
      dsimp only
      have hchain : (index :: rest).Chain' (· > ·) := hss ▸ hsorted
      have hmem : index ∈ p.scan_stack := by rw [hss]; exact List.mem_cons_self _ _
      obtain ⟨hoffle, hposlt⟩ := hlive index hmem
      obtain ⟨entry, hget⟩ := get?_some_of_lt hposlt
      have hgetr : p.buf.get? index = some entry := by
        unfold RingBuffer.get?
        rw [if_neg (by omega)]
        exact hget
      rw [hgetr]
      dsimp only
      have hflen : rest.length < n := by
        rw [hss] at hf
        simpa using hf
      have hsorted2 : rest.Chain' (· > ·) := by
        have h2 := hchain.tail
        simpa using h2
      have hposne : ∀ i ∈ rest, i - p.buf.offset ≠ index - p.buf.offset := by
        intro i hi
        have h1 : i < index := desc_head_gt hchain i hi
        have h2 : p.buf.offset ≤ i := (hlive i (by rw [hss]; exact List.mem_cons_of_mem _ hi)).1
        omega
      cases htok : entry.token with
      | string s =>
        exact absurd htok (hnostr index hmem entry hget s)
      | beginTok t =>
        dsimp only
        rw [← htok]
        by_cases hd : depth = 0
        · rw [if_pos hd]
          exact ⟨p, rfl, csp_refl p⟩
        · rw [if_neg hd]
          obtain ⟨kk, e2, hk2, hke, hbig⟩ := hend (Nat.pos_of_ne_zero hd)
          have hz : 0 ≤ entry.size + p.right_total := by
            have hw := htrailw index hmem entry hget (by rw [htok]; trivial)
            have hnn : (0 : Int) ≤ (totW (p.buf.data.drop (index - p.buf.offset)) : Int) := by
              positivity
            linarith
          have hstep := csp_setIdx hss hsorted hoffle hposlt hget hz
            (Or.inr ⟨kk, e2, hbig index hmem, hk2, hke⟩)
          have hget2 : ∀ i ∈ rest, ∀ e,
              (p.buf.setIdx index { entry with size := entry.size + p.right_total
                }).data.get? (i - p.buf.offset) = some e →
              p.buf.data.get? (i - p.buf.offset) = some e := by
            intro i hi e he
            unfold RingBuffer.setIdx at he
            rw [get?_set_ne _ _ _ _ (fun hc => hposne i hi hc.symm)] at he
            exact he
          have hrec := ih
            { p with scan_stack := rest,
                     buf := p.buf.setIdx index { entry with size := entry.size + p.right_total } }
            (depth - 1) hflen hsorted2 ?hl2 ?hn2 ?ht2 ?he2
          case hl2 =>
            intro i hi
            refine ⟨(hlive i (by rw [hss]; exact List.mem_cons_of_mem _ hi)).1, ?_⟩
            have h2 := (hlive i (by rw [hss]; exact List.mem_cons_of_mem _ hi)).2
            unfold RingBuffer.setIdx
            dsimp only
            rw [List.length_set]
            exact h2
          case hn2 =>
            intro i hi e he s
            exact hnostr i (by rw [hss]; exact List.mem_cons_of_mem _ hi) e (hget2 i hi e he) s
          case ht2 =>
            intro i hi e he hbb
            have h0 := htrailw i (by rw [hss]; exact List.mem_cons_of_mem _ hi) e
              (hget2 i hi e he) hbb
            dsimp only
            rw [h0]
            congr 1
            unfold RingBuffer.setIdx
            dsimp only
            exact (totW_drop_congr _ (mapTok_set p.buf.data (index - p.buf.offset) entry
              { entry with size := entry.size + p.right_total } hget rfl)).symm
          case he2 =>
            intro _
            refine ⟨kk, e2, ?_, hke, ?_⟩
            · unfold RingBuffer.setIdx
              dsimp only
              rw [get?_set_ne _ _ _ _ (by have := hbig index hmem; omega)]
              exact hk2
            · intro i hi
              exact hbig i (by rw [hss]; exact List.mem_cons_of_mem _ hi)
          obtain ⟨q, hq, hcsp2⟩ := hrec
          exact ⟨q, hq, csp_trans hstep hcsp2⟩
      | endTok =>
        dsimp only
        rw [← htok]
        have hstep := csp_setIdx hss hsorted hoffle hposlt hget (z := 1) (by omega)
          (Or.inl (by rw [htok]; intro tb hc; cases hc))
        have hget2 : ∀ i ∈ rest, ∀ e,
            (p.buf.setIdx index { entry with size := 1 }).data.get? (i - p.buf.offset) =
              some e →
            p.buf.data.get? (i - p.buf.offset) = some e := by
          intro i hi e he
          unfold RingBuffer.setIdx at he
          rw [get?_set_ne _ _ _ _ (fun hc => hposne i hi hc.symm)] at he
          exact he
        have hrec := ih
          { p with scan_stack := rest,
                   buf := p.buf.setIdx index { entry with size := 1 } }
          (depth + 1) hflen hsorted2 ?hl3 ?hn3 ?ht3 ?he3
        case hl3 =>
          intro i hi
          refine ⟨(hlive i (by rw [hss]; exact List.mem_cons_of_mem _ hi)).1, ?_⟩
          have h2 := (hlive i (by rw [hss]; exact List.mem_cons_of_mem _ hi)).2
          unfold RingBuffer.setIdx
          dsimp only
          rw [List.length_set]
          exact h2
        case hn3 =>
          intro i hi e he s
          exact hnostr i (by rw [hss]; exact List.mem_cons_of_mem _ hi) e (hget2 i hi e he) s
        case ht3 =>
          intro i hi e he hbb
          have h0 := htrailw i (by rw [hss]; exact List.mem_cons_of_mem _ hi) e
            (hget2 i hi e he) hbb
          dsimp only
          rw [h0]
          congr 1
          unfold RingBuffer.setIdx
          dsimp only
          exact (totW_drop_congr _ (mapTok_set p.buf.data (index - p.buf.offset) entry
            { entry with size := 1 } hget rfl)).symm
        case he3 =>
          intro _
          refine ⟨index - p.buf.offset, { entry with size := 1 }, ?_, by rw [htok], ?_⟩
          · unfold RingBuffer.setIdx
            dsimp only
            exact get?_set_self _ _ _ hposlt
          · intro i hi
            simp only [RingBuffer.setIdx]
            have h1 : i < index := desc_head_gt hchain i hi
            have h2 : p.buf.offset ≤ i :=
              (hlive i (by rw [hss]; exact List.mem_cons_of_mem _ hi)).1
            omega
        obtain ⟨q, hq, hcsp2⟩ := hrec
        exact ⟨q, hq, csp_trans hstep hcsp2⟩
      | brk t =>
        dsimp only
        rw [← htok]
        have hz : 0 ≤ entry.size + p.right_total := by
          have hw := htrailw index hmem entry hget (by rw [htok]; trivial)
          have hnn : (0 : Int) ≤ (totW (p.buf.data.drop (index - p.buf.offset)) : Int) := by
            positivity
          linarith
        have hstep := csp_setIdx hss hsorted hoffle hposlt hget hz
          (Or.inl (by rw [htok]; intro tb hc; cases hc))
        by_cases hd : depth = 0
        · rw [if_pos hd]
          exact ⟨_, rfl, hstep⟩
        · rw [if_neg hd]
          obtain ⟨kk, e2, hk2, hke, hbig⟩ := hend (Nat.pos_of_ne_zero hd)
          have hget2 : ∀ i ∈ rest, ∀ e,
              (p.buf.setIdx index { entry with size := entry.size + p.right_total
                }).data.get? (i - p.buf.offset) = some e →
              p.buf.data.get? (i - p.buf.offset) = some e := by
            intro i hi e he
            unfold RingBuffer.setIdx at he
            rw [get?_set_ne _ _ _ _ (fun hc => hposne i hi hc.symm)] at he
            exact he
          have hrec := ih
            { p with scan_stack := rest,
                     buf := p.buf.setIdx index { entry with size := entry.size + p.right_total } }
            depth hflen hsorted2 ?hl4 ?hn4 ?ht4 ?he4
          case hl4 =>
            intro i hi
            refine ⟨(hlive i (by rw [hss]; exact List.mem_cons_of_mem _ hi)).1, ?_⟩
            have h2 := (hlive i (by rw [hss]; exact List.mem_cons_of_mem _ hi)).2
            unfold RingBuffer.setIdx
            dsimp only
            rw [List.length_set]
            exact h2
          case hn4 =>
            intro i hi e he s
            exact hnostr i (by rw [hss]; exact List.mem_cons_of_mem _ hi) e (hget2 i hi e he) s
          case ht4 =>
            intro i hi e he hbb
            have h0 := htrailw i (by rw [hss]; exact List.mem_cons_of_mem _ hi) e
              (hget2 i hi e he) hbb
            dsimp only
            rw [h0]
            congr 1
            unfold RingBuffer.setIdx
            dsimp only
            exact (totW_drop_congr _ (mapTok_set p.buf.data (index - p.buf.offset) entry
              { entry with size := entry.size + p.right_total } hget rfl)).symm
          case he4 =>
            intro _
            refine ⟨kk, e2, ?_, hke, ?_⟩
            · unfold RingBuffer.setIdx
              dsimp only
              rw [get?_set_ne _ _ _ _ (by have := hbig index hmem; omega)]
              exact hk2
            · intro i hi
              exact hbig i (by rw [hss]; exact List.mem_cons_of_mem _ hi)
          obtain ⟨q, hq, hcsp2⟩ := hrec
          exact ⟨q, hq, csp_trans hstep hcsp2⟩

/-- Transport of the per-entry invariants across an advance_left drain of k
resolved entries.  resBeg/resBrk are only assumed from buffer position m on
(check_stream's forcing step breaks them transiently at position 0), and the
drain repairs the empty-stack/empty-buffer link and realigns the stack
bottom with the buffer offset. -/
theorem al_inv {p q : Printer} {k m : Nat}
    (hoff : q.buf.offset = p.buf.offset + k)
    (hdata : q.buf.data = p.buf.data.drop k)
    (hpop : ∀ j e, j < k → p.buf.data.get? j = some e → 0 ≤ e.size)
    (hss : q.scan_stack = p.scan_stack)
    (hrt : q.right_total = p.right_total)
    (hstop : q.buf.data = [] ∨ ∃ e, q.buf.data.get? 0 = some e ∧ e.size < 0)
    (hmk : m ≤ k)
    (hsorted : p.scan_stack.Chain' (· > ·))
    (hlive : ∀ i ∈ p.scan_stack, p.buf.offset ≤ i ∧ i - p.buf.offset < p.buf.data.length)
    (huos : ∀ j e, p.buf.data.get? j = some e → e.size < 0 →
      (p.buf.offset + j) ∈ p.scan_stack)
    (honstack : ∀ i ∈ p.scan_stack, ∀ e, p.buf.data.get? (i - p.buf.offset) = some e →
      e.size < 0)
    (hnostr : ∀ i ∈ p.scan_stack, ∀ e, p.buf.data.get? (i - p.buf.offset) = some e →
      ∀ s, e.token ≠ .string s)
    (htrailw : ∀ i ∈ p.scan_stack, ∀ e, p.buf.data.get? (i - p.buf.offset) = some e →
      brkOrBeg e.token → p.right_total + e.size = totW (p.buf.data.drop (i - p.buf.offset)))
    (hoffsi : ∀ j e, p.buf.data.get? j = some e → tokOffOk e.token)
    (hresBeg : ∀ j e, p.buf.data.get? j = some e → m ≤ j → (∃ t, e.token = .beginTok t) →
      0 ≤ e.size → ∃ kk e2, j < kk ∧ p.buf.data.get? kk = some e2 ∧ e2.token = .endTok)
    (hresBrk : ∀ j e, p.buf.data.get? j = some e → m ≤ j → (∃ t, e.token = .brk t) →
      0 ≤ e.size →
      (∃ kk e2, j < kk ∧ p.buf.data.get? kk = some e2 ∧
        ((∃ s, e2.token = .string s) ∨ e2.token = .endTok)) ∨
      (∃ kk e2, j < kk ∧ p.buf.data.get? kk = some e2 ∧ (∃ t2, e2.token = .brk t2) ∧
        e2.size < 0 ∧ ∀ mm e3, j < mm → mm < kk → p.buf.data.get? mm = some e3 →
          ∀ tb, e3.token ≠ .beginTok tb)) :
    q.scan_stack.Chain' (· > ·) ∧
    (∀ i ∈ q.scan_stack, q.buf.offset ≤ i ∧ i - q.buf.offset < q.buf.data.length) ∧
    (∀ j e, q.buf.data.get? j = some e → e.size < 0 → (q.buf.offset + j) ∈ q.scan_stack) ∧
    (∀ i ∈ q.scan_stack, ∀ e, q.buf.data.get? (i - q.buf.offset) = some e → e.size < 0) ∧
    (∀ i ∈ q.scan_stack, ∀ e, q.buf.data.get? (i - q.buf.offset) = some e →
      ∀ s, e.token ≠ .string s) ∧
    (∀ i ∈ q.scan_stack, ∀ e, q.buf.data.get? (i - q.buf.offset) = some e →
      brkOrBeg e.token → q.right_total + e.size = totW (q.buf.data.drop (i - q.buf.offset))) ∧
    (∀ j e, q.buf.data.get? j = some e → tokOffOk e.token) ∧
    (∀ j e, q.buf.data.get? j = some e → (∃ t, e.token = .beginTok t) → 0 ≤ e.size →
      ∃ kk e2, j < kk ∧ q.buf.data.get? kk = some e2 ∧ e2.token = .endTok) ∧
    (∀ j e, q.buf.data.get? j = some e → (∃ t, e.token = .brk t) → 0 ≤ e.size →
      (∃ kk e2, j < kk ∧ q.buf.data.get? kk = some e2 ∧
        ((∃ s, e2.token = .string s) ∨ e2.token = .endTok)) ∨
      (∃ kk e2, j < kk ∧ q.buf.data.get? kk = some e2 ∧ (∃ t2, e2.token = .brk t2) ∧
        e2.size < 0 ∧ ∀ mm e3, j < mm → mm < kk → q.buf.data.get? mm = some e3 →
          ∀ tb, e3.token ≠ .beginTok tb)) ∧
    (q.scan_stack = [] → q.buf.data = []) ∧
    (∀ b, q.scan_stack.getLast? = some b → b = q.buf.offset) := by
  have hgetq : ∀ j, q.buf.data.get? j = p.buf.data.get? (k + j) := by
    intro j
    rw [hdata, List.get?_drop]
  have hqlen : q.buf.data.length = p.buf.data.length - k := by
    rw [hdata, List.length_drop]
  have hstackpos : ∀ i ∈ p.scan_stack, k ≤ i - p.buf.offset := by
    intro i hi
    obtain ⟨hle, hlt⟩ := hlive i hi
    obtain ⟨e, he⟩ := get?_some_of_lt hlt
    by_contra hc
    exact absurd (hpop _ e (by omega) he) (not_le.mpr (honstack i hi e he))
  have hposconv : ∀ i ∈ p.scan_stack, k + (i - q.buf.offset) = i - p.buf.offset := by
    intro i hi
    have h1 := (hlive i hi).1
    have h2 := hstackpos i hi
    omega
  have hliveq : ∀ i ∈ q.scan_stack, q.buf.offset ≤ i ∧ i - q.buf.offset < q.buf.data.length := by
    intro i hi
    rw [hss] at hi
    have h1 := (hlive i hi).1
    have h2 := (hlive i hi).2
    have h3 := hstackpos i hi
    constructor
    · omega
    · omega
  have hgetconv : ∀ i ∈ p.scan_stack, q.buf.data.get? (i - q.buf.offset) =
      p.buf.data.get? (i - p.buf.offset) := by
    intro i hi
    rw [hgetq, hposconv i hi]
  have huosq : ∀ j e, q.buf.data.get? j = some e → e.size < 0 →
      (q.buf.offset + j) ∈ q.scan_stack := by
    intro j e he hneg
    rw [hgetq] at he
    have h1 := huos _ e he hneg
    have h2 : q.buf.offset + j = p.buf.offset + (k + j) := by omega
    rw [h2, hss]
    exact h1
  refine ⟨hss ▸ hsorted, hliveq, huosq, ?_, ?_, ?_, ?_, ?_, ?_, ?_, ?_⟩
  · intro i hi e he
    rw [hss] at hi
    rw [hgetconv i hi] at he
    exact honstack i hi e he
  · intro i hi e he s
    rw [hss] at hi
    rw [hgetconv i hi] at he
    exact hnostr i hi e he s
  · intro i hi e he hbb
    rw [hss] at hi
    rw [hgetconv i hi] at he
    rw [hrt]
    have h0 := htrailw i hi e he hbb
    rw [h0]
    congr 1
    rw [hdata, List.drop_drop, hposconv i hi]
  · intro j e he
    rw [hgetq] at he
    exact hoffsi _ e he
  · intro j e he hbeg hsz
    rw [hgetq] at he
    obtain ⟨kk, e2, hlt, hk2, hend⟩ := hresBeg _ e he (by omega) hbeg hsz
    refine ⟨kk - k, e2, by omega, ?_, hend⟩
    rw [hgetq]
    have : k + (kk - k) = kk := by omega
    rw [this]
    exact hk2
  · intro j e he hbrk hsz
    rw [hgetq] at he
    rcases hresBrk _ e he (by omega) hbrk hsz with ⟨kk, e2, hlt, hk2, hw⟩ |
        ⟨kk, e2, hlt, hk2, hbb, hneg, hnb⟩
    · left
      refine ⟨kk - k, e2, by omega, ?_, hw⟩
      rw [hgetq]
      have : k + (kk - k) = kk := by omega
      rw [this]
      exact hk2
    · right
      refine ⟨kk - k, e2, by omega, ?_, hbb, hneg, ?_⟩
      · rw [hgetq]
        have : k + (kk - k) = kk := by omega
        rw [this]
        exact hk2
      · intro mm e3 hmm1 hmm2 hm3 tb
        rw [hgetq] at hm3
        exact hnb (k + mm) e3 (by omega) (by omega) hm3 tb
  · intro hempty
    rcases hstop with hnil | ⟨e, h0, hneg⟩
    · exact hnil
    · exfalso
      have h1 := huosq 0 e h0 hneg
      rw [hempty] at h1
      cases h1
  · intro b hb
    have hbmem : b ∈ q.scan_stack := List.mem_of_mem_getLast? hb
    rw [hss] at hbmem
    have hble : ∀ i ∈ q.scan_stack, b ≤ i := by
      intro i hi
      exact desc_getLast_le (hss ▸ hsorted) hb i hi
    have h1 := (hlive b hbmem).1
    have h2 := hstackpos b hbmem
    rcases hstop with hnil | ⟨e, h0, hneg⟩
    · exfalso
      have h3 := (hliveq b (hss ▸ hbmem)).2
      rw [hnil] at h3
      simp at h3
    · have h4 := huosq 0 e h0 hneg
      have h5 := hble _ h4
      omega

theorem mem_dropLast_of_ne {α : Type} {l : List α} {b x : α}
    (hb : l.getLast? = some b) (hx : x ∈ l) (hne : x ≠ b) : x ∈ l.dropLast := by
  have hdec := eq_dropLast_append hb
  rw [hdec] at hx
  rcases List.mem_append.mp hx with h1 | h2
  · exact h1
  · exact absurd (by simpa using h2) hne

theorem desc_dropLast_gt {l : List Nat} (h : l.Chain' (· > ·)) {b : Nat}
    (hb : l.getLast? = some b) : ∀ i ∈ l.dropLast, b < i := by
  have hp := pairwise_of_desc h
  have hp2 : (l.dropLast ++ [b]).Pairwise (· > ·) := by
    rw [← eq_dropLast_append hb]
    exact hp
  intro i hi
  exact (List.pairwise_append.mp hp2).2.2 i hi b (by simp)

theorem getLast?_some_of_ne_nil {α : Type} {l : List α} (h : l ≠ []) :
    ∃ b, l.getLast? = some b := by
  cases hx : l.getLast? with
  | none => exact absurd (List.getLast?_eq_none_iff.mp hx) h
  | some b => exact ⟨b, rfl⟩

/-- check_stream never panics from an invariant state with a nonempty scan
stack, preserves the invariant, and preserves the print-depth bookkeeping. -/
theorem check_stream_safe : ∀ (fuel : Nat) (p : Printer),
    p.buf.data.length < fuel → Inv p → p.scan_stack ≠ [] →
    ∃ q, Printer.check_stream_f fuel p = .ok q ∧ Inv q ∧
      (q.print_stack.length : Int) + balSum (q.buf.data.map BufEntry.token) =
        (p.print_stack.length : Int) + balSum (p.buf.data.map BufEntry.token) := by
  intro fuel
  induction fuel with
  | zero => intro p hf; omega
  | succ n ih =>
    intro p hf hinv hne
    unfold Printer.check_stream_f
    by_cases hc : p.space < p.right_total - p.left_total
    · rw [if_pos hc]
      obtain ⟨front, hgl⟩ := getLast?_some_of_ne_nil hne
      rw [hgl]
      dsimp only
      have hfmem : front ∈ p.scan_stack := List.mem_of_mem_getLast? hgl
      have hlen0 : 0 < p.buf.data.length := by
        have h2 := (hinv.live front hfmem).2
        omega
      cases hbd : p.buf.data with
      | nil => rw [hbd] at hlen0; simp at hlen0
      | cons e rest =>
      by_cases hfr : front = p.buf.index_of_first
      · rw [if_pos hfr]
        dsimp only
        -- the forced state
        set pf : Printer := { p with
          scan_stack := p.scan_stack.dropLast
          buf := ⟨p.buf.offset, { e with size := SIZE_INFINITY } :: rest⟩ } with hpf
        have hoffeq : pf.buf.offset = p.buf.offset := rfl
        have hmap : pf.buf.data.map BufEntry.token = p.buf.data.map BufEntry.token := by
          simp [hpf, hbd]
        have hpflen : pf.buf.data.length = p.buf.data.length := by
          rw [hpf, hbd]
          simp
        have hfoff : front = p.buf.offset := hfr
        have hpfget : ∀ j, 1 ≤ j → pf.buf.data.get? j = p.buf.data.get? j := by
          intro j hj
          rw [hpf, hbd]
          cases j with
          | zero => omega
          | succ j2 => rfl
        have hwpf : WInv pf := by
          have hw := hinv.winv
          unfold WInv at hw ⊢
          have ht : totW pf.buf.data = totW p.buf.data := totW_congr_mapTok hmap
          rw [ht]
          exact hw
        have hdokpf : 0 ≤ (pf.print_stack.length : Int) +
            mpb (pf.buf.data.map BufEntry.token) := by
          rw [hmap]
          exact hinv.dok
        have hoffspf : ∀ j e2, pf.buf.data.get? j = some e2 → tokOffOk e2.token := by
          intro j e2 he2
          cases j with
          | zero =>
            rw [hpf] at he2
            have he2' : some { e with size := SIZE_INFINITY } = some e2 := he2
            rw [← Option.some.inj he2']
            exact hinv.offsInv 0 e (by rw [hbd]; rfl)
          | succ j2 =>
            rw [hpfget _ (by omega)] at he2
            exact hinv.offsInv _ e2 he2
        have hpfne : pf.buf.data ≠ [] := by
          rw [hpf]
          simp
        obtain ⟨q1, hal, alpost⟩ := advance_left_safe (pf.buf.data.length + 1) pf
          (by omega) hpfne hdokpf hoffspf
        have hal2 : Printer.advance_left pf = .ok q1 := hal
        rw [hal2]
        dsimp only
        obtain ⟨k, hoff, hdata, hpop, hkpos⟩ := alpost.kdrop
        have hk1 : 0 < k := by
          refine hkpos ?_ hpfne
          intro e0 h0
          rw [hpf] at h0
          have h0' : some { e with size := SIZE_INFINITY } = some e0 := h0
          rw [← Option.some.inj h0']
          norm_num [SIZE_INFINITY]
        -- the invariant bundle of the forced state, fed to al_inv
        have hsortpf : pf.scan_stack.Chain' (· > ·) :=
          desc_of_pairwise ((pairwise_of_desc hinv.sorted).sublist (List.dropLast_sublist _))
        have hgtlast := desc_dropLast_gt hinv.sorted hgl
        have hlivepf : ∀ i ∈ pf.scan_stack,
            pf.buf.offset ≤ i ∧ i - pf.buf.offset < pf.buf.data.length := by
          intro i hi
          have hi2 : i ∈ p.scan_stack := List.dropLast_subset _ hi
          have := hinv.live i hi2
          rw [hpflen]
          exact this
        have hnzpos : ∀ i ∈ pf.scan_stack, i - pf.buf.offset ≠ 0 := by
          intro i hi
          have h1 := hgtlast i hi
          rw [hfoff] at h1
          have h2 := (hinv.live i (List.dropLast_subset _ hi)).1
          rw [hoffeq]
          omega
        have hgetpf : ∀ i ∈ pf.scan_stack, pf.buf.data.get? (i - pf.buf.offset) =
            p.buf.data.get? (i - p.buf.offset) := by
          intro i hi
          exact hpfget _ (by have := hnzpos i hi; omega)
        have huospf : ∀ j e2, pf.buf.data.get? j = some e2 → e2.size < 0 →
            (pf.buf.offset + j) ∈ pf.scan_stack := by
          intro j e2 he2 hneg
          cases j with
          | zero =>
            exfalso
            rw [hpf] at he2
            have he2' : some { e with size := SIZE_INFINITY } = some e2 := he2
            rw [← Option.some.inj he2'] at hneg
            norm_num [SIZE_INFINITY] at hneg
          | succ j2 =>
            rw [hpfget _ (by omega)] at he2
            have h1 := hinv.uos _ e2 he2 hneg
            refine mem_dropLast_of_ne hgl h1 ?_
            have hne2 : p.buf.offset + (j2 + 1) ≠ front := by
              rw [hfoff]
              omega
            exact hne2
        have honstackpf : ∀ i ∈ pf.scan_stack, ∀ e2,
            pf.buf.data.get? (i - pf.buf.offset) = some e2 → e2.size < 0 := by
          intro i hi e2 he2
          rw [hgetpf i hi] at he2
          exact hinv.onstack i (List.dropLast_subset _ hi) e2 he2
        have hnostrpf : ∀ i ∈ pf.scan_stack, ∀ e2,
            pf.buf.data.get? (i - pf.buf.offset) = some e2 →
            ∀ s, e2.token ≠ .string s := by
          intro i hi e2 he2 s
          rw [hgetpf i hi] at he2
          exact hinv.nostring i (List.dropLast_subset _ hi) e2 he2 s
        have htrailwpf : ∀ i ∈ pf.scan_stack, ∀ e2,
            pf.buf.data.get? (i - pf.buf.offset) = some e2 → brkOrBeg e2.token →
            pf.right_total + e2.size = totW (pf.buf.data.drop (i - pf.buf.offset)) := by
          intro i hi e2 he2 hbb
          rw [hgetpf i hi] at he2
          have h0 := hinv.trailw i (List.dropLast_subset _ hi) e2 he2 hbb
          have h1 : (pf.buf.data.drop (i - pf.buf.offset)).map BufEntry.token =
              (p.buf.data.drop (i - p.buf.offset)).map BufEntry.token := by
            rw [List.map_drop, List.map_drop, hmap]
          rw [totW_congr_mapTok h1]
          exact h0
        have hresBegpf : ∀ j e2, pf.buf.data.get? j = some e2 → 1 ≤ j →
            (∃ t, e2.token = .beginTok t) → 0 ≤ e2.size →
            ∃ kk e3, j < kk ∧ pf.buf.data.get? kk = some e3 ∧ e3.token = .endTok := by
          intro j e2 he2 hj hbeg hsz
          rw [hpfget _ hj] at he2
          obtain ⟨kk, e3, hlt, hk3, hend⟩ := hinv.resBeg j e2 he2 hbeg hsz
          obtain ⟨e4, he4, htok4⟩ := get?_token_of_mapTok hmap.symm hk3
          exact ⟨kk, e4, hlt, he4, htok4.trans hend⟩
        have hresBrkpf : ∀ j e2, pf.buf.data.get? j = some e2 → 1 ≤ j →
            (∃ t, e2.token = .brk t) → 0 ≤ e2.size →
            (∃ kk e3, j < kk ∧ pf.buf.data.get? kk = some e3 ∧
              ((∃ s, e3.token = .string s) ∨ e3.token = .endTok)) ∨
            (∃ kk e3, j < kk ∧ pf.buf.data.get? kk = some e3 ∧
              (∃ t2, e3.token = .brk t2) ∧ e3.size < 0 ∧
              ∀ mm e4, j < mm → mm < kk → pf.buf.data.get? mm = some e4 →
                ∀ tb, e4.token ≠ .beginTok tb) := by
          intro j e2 he2 hj hbrk hsz
          rw [hpfget _ hj] at he2
          rcases hinv.resBrk j e2 he2 hbrk hsz with ⟨kk, e3, hlt, hk3, hw⟩ |
              ⟨kk, e3, hlt, hk3, hbb, hneg, hnb⟩
          · left
            obtain ⟨e4, he4, htok4⟩ := get?_token_of_mapTok hmap.symm hk3
            refine ⟨kk, e4, hlt, he4, ?_⟩
            rw [htok4]
            exact hw
          · right
            refine ⟨kk, e3, hlt, ?_, hbb, hneg, ?_⟩
            · rw [hpfget _ (by omega)]
              exact hk3
            · intro mm e4 hmm1 hmm2 hm4 tb
              rw [hpfget _ (by omega)] at hm4
              exact hnb mm e4 hmm1 hmm2 hm4 tb
        have halinv := al_inv hoff hdata hpop alpost.ss alpost.rt alpost.stop hk1
          hsortpf hlivepf huospf honstackpf hnostrpf htrailwpf hoffspf hresBegpf hresBrkpf
        obtain ⟨hq1sort, hq1live, hq1uos, hq1onstack, hq1nostr, hq1trailw, hq1offs,
          hq1resBeg, hq1resBrk, hq1empty, hq1bot⟩ := halinv
        have hinvq1 : Inv q1 := by
          refine ⟨alpost.wq hwpf, ?_, hq1sort, hq1live, hq1uos, hq1onstack, hq1nostr,
            hq1trailw, hq1empty, ?_, hq1offs, alpost.dokq, hq1resBeg, hq1resBrk⟩
          · intro _
            have h1 := hinv.posLeft hne
            have h2 := alpost.lt
            rw [hpf] at h2
            dsimp only at h2
            linarith
          · intro b hb e2 _ t _
            exact hq1bot b hb
        have hpsb1 : (q1.print_stack.length : Int) + balSum (q1.buf.data.map BufEntry.token) =
            (p.print_stack.length : Int) + balSum ((e :: rest).map BufEntry.token) := by
          have h1 := alpost.psb
          rw [hmap, hbd] at h1
          exact h1
        by_cases hemp : q1.buf.data.isEmpty
        · rw [if_pos hemp]
          exact ⟨q1, rfl, hinvq1, hpsb1⟩
        · rw [if_neg hemp]
          have hq1ne : q1.buf.data ≠ [] := fun hcon => hemp (by simp [hcon])
          have hq1ssne : q1.scan_stack ≠ [] := fun hcon => hq1ne (hq1empty hcon)
          have hq1len : q1.buf.data.length < n := by
            have h1 : q1.buf.data.length = pf.buf.data.length - k := by
              rw [hdata, List.length_drop]
            rw [hpflen] at h1
            omega
          obtain ⟨q, hq, hinvq, hpsb2⟩ := ih q1 hq1len hinvq1 hq1ssne
          exact ⟨q, hq, hinvq, hpsb2.trans hpsb1⟩
      · rw [if_neg hfr]
        dsimp only
        -- the first entry is already resolved
        have hresolved : 0 ≤ e.size := by
          by_contra hcon
          have h1 := hinv.uos 0 e (by rw [hbd]; rfl) (by omega)
          have h2 := desc_getLast_le hinv.sorted hgl _ h1
          have h3 := (hinv.live front hfmem).1
          simp only [Nat.add_zero] at h2
          exact hfr (by unfold RingBuffer.index_of_first; omega)
        have hpne : p.buf.data ≠ [] := by rw [hbd]; simp
        obtain ⟨q1, hal, alpost⟩ := advance_left_safe (p.buf.data.length + 1) p
          (by omega) hpne hinv.dok hinv.offsInv
        have hal2 : Printer.advance_left p = .ok q1 := hal
        rw [hal2]
        dsimp only
        obtain ⟨k, hoff, hdata, hpop, hkpos⟩ := alpost.kdrop
        have hk1 : 0 < k := by
          refine hkpos ?_ hpne
          intro e0 h0
          rw [hbd] at h0
          have h0' : some e = some e0 := h0
          rw [← Option.some.inj h0']
          exact hresolved
        have halinv := al_inv hoff hdata hpop alpost.ss alpost.rt alpost.stop
          (Nat.zero_le k) hinv.sorted hinv.live hinv.uos hinv.onstack hinv.nostring
          hinv.trailw hinv.offsInv
          (fun j e2 he2 _ => hinv.resBeg j e2 he2)
          (fun j e2 he2 _ => hinv.resBrk j e2 he2)
        obtain ⟨hq1sort, hq1live, hq1uos, hq1onstack, hq1nostr, hq1trailw, hq1offs,
          hq1resBeg, hq1resBrk, hq1empty, hq1bot⟩ := halinv
        have hinvq1 : Inv q1 := by
          refine ⟨alpost.wq hinv.winv, ?_, hq1sort, hq1live, hq1uos, hq1onstack, hq1nostr,
            hq1trailw, hq1empty, ?_, hq1offs, alpost.dokq, hq1resBeg, hq1resBrk⟩
          · intro _
            have h1 := hinv.posLeft hne
            have h2 := alpost.lt
            linarith
          · intro b hb e2 _ t _
            exact hq1bot b hb
        have hpsb0 : (q1.print_stack.length : Int) + balSum (q1.buf.data.map BufEntry.token) =
            (p.print_stack.length : Int) + balSum ((e :: rest).map BufEntry.token) := by
          have h1 := alpost.psb
          rw [hbd] at h1
          exact h1
        by_cases hemp : q1.buf.data.isEmpty
        · rw [if_pos hemp]
          exact ⟨q1, rfl, hinvq1, hpsb0⟩
        · rw [if_neg hemp]
          have hq1ne : q1.buf.data ≠ [] := fun hcon => hemp (by simp [hcon])
          have hq1ssne : q1.scan_stack ≠ [] := fun hcon => hq1ne (hq1empty hcon)
          have hq1len : q1.buf.data.length < n := by
            have h1 : q1.buf.data.length = p.buf.data.length - k := by
              rw [hdata, List.length_drop]
            omega
          obtain ⟨q, hq, hinvq, hpsb2⟩ := ih q1 hq1len hinvq1 hq1ssne
          exact ⟨q, hq, hinvq, hpsb2.trans hpsb0⟩
    · rw [if_neg hc]
      exact ⟨p, rfl, hinv, rfl⟩

/-- Appending an entry that is not a resolved Break preserves the
resolved-Break witness discipline. -/
theorem resBrk_append {l : List BufEntry} (e0 : BufEntry)
    (hres : ∀ j e, l.get? j = some e → (∃ t, e.token = .brk t) → 0 ≤ e.size →
      (∃ kk e2, j < kk ∧ l.get? kk = some e2 ∧
        ((∃ s, e2.token = .string s) ∨ e2.token = .endTok)) ∨
      (∃ kk e2, j < kk ∧ l.get? kk = some e2 ∧ (∃ t2, e2.token = .brk t2) ∧
        e2.size < 0 ∧ ∀ mm e3, j < mm → mm < kk → l.get? mm = some e3 →
          ∀ tb, e3.token ≠ .beginTok tb))
    (h0 : (∃ t, e0.token = .brk t) → e0.size < 0) :
    ∀ j e, (l ++ [e0]).get? j = some e → (∃ t, e.token = .brk t) → 0 ≤ e.size →
      (∃ kk e2, j < kk ∧ (l ++ [e0]).get? kk = some e2 ∧
        ((∃ s, e2.token = .string s) ∨ e2.token = .endTok)) ∨
      (∃ kk e2, j < kk ∧ (l ++ [e0]).get? kk = some e2 ∧ (∃ t2, e2.token = .brk t2) ∧
        e2.size < 0 ∧ ∀ mm e3, j < mm → mm < kk → (l ++ [e0]).get? mm = some e3 →
          ∀ tb, e3.token ≠ .beginTok tb) := by
  intro j e he hbrk hsz
  by_cases hj : j < l.length
  · rw [List.get?_append hj] at he
    rcases hres j e he hbrk hsz with ⟨kk, e2, hlt, hk2, hw⟩ |
        ⟨kk, e2, hlt, hk2, hbb, hneg, hnb⟩
    · left
      have hkk : kk < l.length := get?_lt_len hk2
      exact ⟨kk, e2, hlt, by rw [List.get?_append hkk]; exact hk2, hw⟩
    · right
      have hkk : kk < l.length := get?_lt_len hk2
      refine ⟨kk, e2, hlt, by rw [List.get?_append hkk]; exact hk2, hbb, hneg, ?_⟩
      intro mm e3 hmm1 hmm2 hm3 tb
      rw [List.get?_append (by omega)] at hm3
      exact hnb mm e3 hmm1 hmm2 hm3 tb
  · by_cases hj2 : j = l.length
    · subst hj2
      rw [List.get?_concat_length] at he
      rw [← Option.some.inj he] at hbrk hsz
      exact absurd hsz (not_le.mpr (h0 hbrk))
    · exfalso
      rw [List.get?_eq_none.mpr (by simp; omega)] at he
      cases he

/-- Pushing an unresolved non-String entry onto the back of the buffer and
its index onto the scan stack preserves the invariant, given its resolved-
Break discipline and the block-depth margin for the new token. -/
theorem push_inv {p : Printer} {e0 : BufEntry} (rt2 : Int)
    (hwinv : WInv p)
    (hposL : 1 ≤ p.left_total)
    (hsorted : p.scan_stack.Chain' (· > ·))
    (hlive : ∀ i ∈ p.scan_stack, p.buf.offset ≤ i ∧ i - p.buf.offset < p.buf.data.length)
    (huos : ∀ j e, p.buf.data.get? j = some e → e.size < 0 →
      (p.buf.offset + j) ∈ p.scan_stack)
    (honst : ∀ i ∈ p.scan_stack, ∀ e, p.buf.data.get? (i - p.buf.offset) = some e →
      e.size < 0)
    (hnost : ∀ i ∈ p.scan_stack, ∀ e, p.buf.data.get? (i - p.buf.offset) = some e →
      ∀ s, e.token ≠ .string s)
    (htrlw : ∀ i ∈ p.scan_stack, ∀ e, p.buf.data.get? (i - p.buf.offset) = some e →
      brkOrBeg e.token → p.right_total + e.size = totW (p.buf.data.drop (i - p.buf.offset)))
    (hbotB : ∀ b, p.scan_stack.getLast? = some b →
      ∀ e, p.buf.data.get? (b - p.buf.offset) = some e →
      ∀ t, e.token = .beginTok t → b = p.buf.offset)
    (hoffsi : ∀ j e, p.buf.data.get? j = some e → tokOffOk e.token)
    (hdok : 0 ≤ (p.print_stack.length : Int) + mpb (p.buf.data.map BufEntry.token))
    (hresBeg : ∀ j e, p.buf.data.get? j = some e → (∃ t, e.token = .beginTok t) →
      0 ≤ e.size → ∃ kk e2, j < kk ∧ p.buf.data.get? kk = some e2 ∧ e2.token = .endTok)
    (hbotnew : p.scan_stack = [] → ∀ t2, e0.token = .beginTok t2 → p.buf.data.length = 0)
    (hrt2 : rt2 = p.right_total + tokW e0.token)
    (hneg : e0.size < 0)
    (hnstr : ∀ s, e0.token ≠ .string s)
    (hoff0 : tokOffOk e0.token)
    (hsztw : brkOrBeg e0.token → e0.size = -p.right_total)
    (hdok2 : 0 ≤ (p.print_stack.length : Int) + balSum (p.buf.data.map BufEntry.token) +
      mpb [e0.token])
    (hresBrk2 : ∀ j e, (p.buf.data ++ [e0]).get? j = some e → (∃ t, e.token = .brk t) →
      0 ≤ e.size →
      (∃ kk e2, j < kk ∧ (p.buf.data ++ [e0]).get? kk = some e2 ∧
        ((∃ s, e2.token = .string s) ∨ e2.token = .endTok)) ∨
      (∃ kk e2, j < kk ∧ (p.buf.data ++ [e0]).get? kk = some e2 ∧
        (∃ t2, e2.token = .brk t2) ∧ e2.size < 0 ∧
        ∀ mm e3, j < mm → mm < kk → (p.buf.data ++ [e0]).get? mm = some e3 →
          ∀ tb, e3.token ≠ .beginTok tb)) :
    Inv { p with
      buf := ⟨p.buf.offset, p.buf.data ++ [e0]⟩
      scan_stack := (p.buf.offset + p.buf.data.length) :: p.scan_stack
      right_total := rt2 } := by
  have hlen : (p.buf.data ++ [e0]).length = p.buf.data.length + 1 := by simp
  have hgetold : ∀ j, j < p.buf.data.length →
      (p.buf.data ++ [e0]).get? j = p.buf.data.get? j := by
    intro j hj
    exact List.get?_append hj
  have hgetnew : (p.buf.data ++ [e0]).get? p.buf.data.length = some e0 :=
    List.get?_concat_length _ _
  have hposlt : ∀ i ∈ p.scan_stack, i - p.buf.offset < p.buf.data.length :=
    fun i hi => (hlive i hi).2
  refine ⟨?_, ?_, ?_, ?_, ?_, ?_, ?_, ?_, ?_, ?_, ?_, ?_, ?_, hresBrk2⟩
  · -- winv
    have hw := hwinv
    unfold WInv at hw ⊢
    dsimp only
    have ht : totW (p.buf.data ++ [e0]) = totW p.buf.data + tokW e0.token :=
      totW_push _ _ _
    rw [ht, hrt2]
    push_cast
    push_cast at hw
    linarith
  · -- posLeft
    intro _
    exact hposL
  · -- sorted
    rw [List.chain'_cons']
    refine ⟨?_, hsorted⟩
    intro b hb
    have hbm : b ∈ p.scan_stack := head?_mem hb
    have h1 := (hlive b hbm).1
    have h2 := (hlive b hbm).2
    omega
  · -- live
    intro i hi
    dsimp only
    rcases List.mem_cons.mp hi with h1 | h2
    · subst h1
      rw [hlen]
      omega
    · have := hlive i h2
      rw [hlen]
      omega
  · -- uos
    intro j e he hneg2
    dsimp only at he ⊢
    by_cases hj : j < p.buf.data.length
    · rw [hgetold j hj] at he
      exact List.mem_cons_of_mem _ (huos j e he hneg2)
    · by_cases hj2 : j = p.buf.data.length
      · subst hj2
        exact List.mem_cons_self _ _
      · exfalso
        rw [List.get?_eq_none.mpr (by rw [hlen]; omega)] at he
        cases he
  · -- onstack
    intro i hi e he
    dsimp only at hi he
    rcases List.mem_cons.mp hi with h1 | h2
    · subst h1
      have hp : p.buf.offset + p.buf.data.length - p.buf.offset = p.buf.data.length := by
        omega
      rw [hp, hgetnew] at he
      rw [← Option.some.inj he]
      exact hneg
    · have hj := hposlt i h2
      rw [hgetold _ hj] at he
      exact honst i h2 e he
  · -- nostring
    intro i hi e he s
    dsimp only at hi he
    rcases List.mem_cons.mp hi with h1 | h2
    · subst h1
      have hp : p.buf.offset + p.buf.data.length - p.buf.offset = p.buf.data.length := by
        omega
      rw [hp, hgetnew] at he
      rw [← Option.some.inj he]
      exact hnstr s
    · have hj := hposlt i h2
      rw [hgetold _ hj] at he
      exact hnost i h2 e he s
  · -- trailw
    intro i hi e he hbb
    dsimp only at hi he ⊢
    rcases List.mem_cons.mp hi with h1 | h2
    · subst h1
      have hp : p.buf.offset + p.buf.data.length - p.buf.offset = p.buf.data.length := by
        omega
      rw [hp] at he ⊢
      rw [hgetnew] at he
      rw [← Option.some.inj he] at hbb ⊢
      rw [List.drop_left, hsztw hbb, hrt2]
      show p.right_total + (tokW e0.token : Int) + -p.right_total = (totW [e0] : Int)
      have h3 : totW [e0] = tokW e0.token := by
        simp [totW, entW]
      rw [h3]
      ring
    · have hj := hposlt i h2
      rw [hgetold _ hj] at he
      have h0 := htrlw i h2 e he hbb
      rw [List.drop_append_of_le_length (by omega), totW_append, hrt2]
      have h3 : totW [e0] = tokW e0.token := by
        simp [totW, entW]
      rw [h3]
      push_cast
      push_cast at h0
      linarith
  · -- emptyInv
    intro hcon
    cases hcon
  · -- botBegin
    intro b hb e he t htok
    dsimp only at hb he
    cases hss2 : p.scan_stack with
    | nil =>
      rw [hss2] at hb
      have hbeq : b = p.buf.offset + p.buf.data.length := by simpa using hb.symm
      subst hbeq
      have hp : p.buf.offset + p.buf.data.length - p.buf.offset = p.buf.data.length := by
        omega
      rw [hp, hgetnew] at he
      have htok0 : e0.token = .beginTok t := by
        rw [← Option.some.inj he] at htok
        exact htok
      have hl0 := hbotnew hss2 t htok0
      dsimp only
      omega
    | cons c cs =>
      rw [hss2, List.getLast?_cons_cons] at hb
      have hblast : p.scan_stack.getLast? = some b := by
        rw [hss2]
        exact hb
      have hbm : b ∈ p.scan_stack := List.mem_of_mem_getLast? hblast
      have hj := hposlt b hbm
      rw [hgetold _ hj] at he
      exact hbotB b hblast e he t htok
  · -- offsInv
    intro j e he
    dsimp only at he
    by_cases hj : j < p.buf.data.length
    · rw [hgetold j hj] at he
      exact hoffsi j e he
    · by_cases hj2 : j = p.buf.data.length
      · subst hj2
        rw [hgetnew] at he
        rw [← Option.some.inj he]
        exact hoff0
      · exfalso
        rw [List.get?_eq_none.mpr (by rw [hlen]; omega)] at he
        cases he
  · -- dok
    dsimp only
    rw [List.map_append, mpb_append]
    have h1 := hdok
    rcases min_choice (mpb (p.buf.data.map BufEntry.token))
        (balSum (p.buf.data.map BufEntry.token) + mpb ([e0].map BufEntry.token)) with
      hm | hm
    · rw [hm]
      exact h1
    · rw [hm]
      have h2 : ([e0].map BufEntry.token) = [e0.token] := rfl
      rw [h2]
      linarith
  · -- resBeg
    intro j e he hbeg hsz
    dsimp only at he ⊢
    by_cases hj : j < p.buf.data.length
    · rw [hgetold j hj] at he
      obtain ⟨kk, e2, hlt, hk2, hend⟩ := hresBeg j e he hbeg hsz
      have hkk := get?_lt_len hk2
      exact ⟨kk, e2, hlt, by rw [hgetold _ hkk]; exact hk2, hend⟩
    · by_cases hj2 : j = p.buf.data.length
      · subst hj2
        rw [hgetnew] at he
        rw [← Option.some.inj he] at hsz
        omega
      · exfalso
        rw [List.get?_eq_none.mpr (by rw [hlen]; omega)] at he
        cases he

/-- The invariant of a freshly rebased single-entry state (the empty-stack
branches of scan_begin and scan_break). -/
theorem single_inv (p : Printer) (off2 : Nat) (tok : Token) (rt2 : Int)
    (htok : brkOrBeg tok) (hoffok : tokOffOk tok) (hrt2 : rt2 = 1 + tokW tok) :
    Inv { p with left_total := 1, right_total := rt2,
                 buf := ⟨off2, [⟨tok, -1⟩]⟩, scan_stack := [off2] } := by
  have htot : totW [(⟨tok, -1⟩ : BufEntry)] = tokW tok := by
    simp [totW, entW]
  refine ⟨?_, ?_, ?_, ?_, ?_, ?_, ?_, ?_, ?_, ?_, ?_, ?_, ?_, ?_⟩
  · unfold WInv
    dsimp only
    rw [hrt2, htot]
    ring
  · intro _
    exact le_refl 1
  · simp
  · intro i hi
    dsimp only at hi ⊢
    have h1 : i = off2 := by simpa using hi
    subst h1
    simp
  · intro j e he hneg
    dsimp only at he ⊢
    cases j with
    | zero =>
      simp
    | succ j2 => cases he
  · intro i hi e he
    dsimp only at hi he
    have h1 : i = off2 := by simpa using hi
    subst h1
    simp only [Nat.sub_self] at he
    have he2 : some (⟨tok, -1⟩ : BufEntry) = some e := he
    rw [← Option.some.inj he2]
    show (-1 : Int) < 0
    norm_num
  · intro i hi e he s0 hc
    dsimp only at hi he
    have h1 : i = off2 := by simpa using hi
    subst h1
    simp only [Nat.sub_self] at he
    have he2 : some (⟨tok, -1⟩ : BufEntry) = some e := he
    rw [← Option.some.inj he2] at hc
    dsimp only at hc
    rw [hc] at htok
    exact htok.elim
  · intro i hi e he hbb
    dsimp only at hi he ⊢
    have h1 : i = off2 := by simpa using hi
    subst h1
    simp only [Nat.sub_self] at he ⊢
    have he2 : some (⟨tok, -1⟩ : BufEntry) = some e := he
    rw [← Option.some.inj he2]
    rw [List.drop_zero, htot, hrt2]
    dsimp only
    ring
  · intro hc
    cases hc
  · intro b hb e he t htok2
    dsimp only at hb he ⊢
    have h1 : off2 = b := by simpa using hb
    exact h1.symm
  · intro j e he
    dsimp only at he
    cases j with
    | zero =>
      have he2 : some (⟨tok, -1⟩ : BufEntry) = some e := he
      rw [← Option.some.inj he2]
      exact hoffok
    | succ j2 => cases he
  · dsimp only
    have h1 : mpb ([(⟨tok, -1⟩ : BufEntry)].map BufEntry.token) = 0 := by
      cases tok with
      | string s2 => exact htok.elim
      | endTok => exact htok.elim
      | brk t2 => simp [mpb, balTok]
      | beginTok t2 => simp [mpb, balTok]
    rw [h1]
    simp
  · intro j e he _ hsz
    dsimp only at he
    cases j with
    | zero =>
      have he2 : some (⟨tok, -1⟩ : BufEntry) = some e := he
      rw [← Option.some.inj he2] at hsz
      dsimp only at hsz
      omega
    | succ j2 => cases he
  · intro j e he _ hsz
    dsimp only at he
    cases j with
    | zero =>
      have he2 : some (⟨tok, -1⟩ : BufEntry) = some e := he
      rw [← Option.some.inj he2] at hsz
      dsimp only at hsz
      omega
    | succ j2 => cases he

/-- scan_begin preserves the invariant, raises the tracked block depth by
one, and leaves a Begin as the newest buffered token. -/
theorem scan_begin_safe {p : Printer} {d : Int} (hinv : Inv p) (hpsb : PSB p d)
    (hd : 0 ≤ d) (t : BeginToken) (hoff : 0 ≤ t.offset) :
    Inv (p.scan_begin t) ∧ PSB (p.scan_begin t) (d + 1) ∧ lastBB (p.scan_begin t) := by
  unfold Printer.scan_begin
  by_cases hemp : p.scan_stack.isEmpty
  · rw [if_pos hemp]
    have hssnil : p.scan_stack = [] := List.isEmpty_iff.mp hemp
    have hdata : p.buf.data = [] := hinv.emptyInv hssnil
    unfold RingBuffer.clear RingBuffer.push
    rw [hssnil, hdata]
    dsimp only
    simp only [List.length_nil, Nat.add_zero, List.nil_append]
    refine ⟨?_, ?_, ?_⟩
    · exact single_inv p (p.buf.offset + 0) (.beginTok t) 1 trivial hoff (by simp [tokW])
    · unfold PSB at hpsb ⊢
      dsimp only
      rw [hdata] at hpsb
      simp only [List.map_nil] at hpsb
      have h1 : balSum ([(⟨.beginTok t, -1⟩ : BufEntry)].map BufEntry.token) = 1 := by
        simp [balSum, balTok]
      rw [h1]
      have h2 : balSum ([] : List Token) = 0 := rfl
      rw [h2] at hpsb
      omega
    · exact ⟨⟨.beginTok t, -1⟩, rfl, trivial⟩
  · rw [if_neg hemp]
    unfold RingBuffer.push
    dsimp only
    have hne : p.scan_stack ≠ [] := fun hc => hemp (by simp [hc])
    have hrtpos : 0 < p.right_total := by
      have h1 := hinv.posLeft hne
      have h2 := hinv.winv
      unfold WInv at h2
      have h3 : (0 : Int) ≤ (totW p.buf.data : Int) := by positivity
      linarith
    have hresb := resBrk_append (⟨.beginTok t, -p.right_total⟩ : BufEntry)
      hinv.resBrk (by rintro ⟨t2, hc⟩; cases hc)
    refine ⟨?_, ?_, ?_⟩
    · exact push_inv p.right_total hinv.winv (hinv.posLeft hne) hinv.sorted
        hinv.live hinv.uos hinv.onstack hinv.nostring hinv.trailw hinv.botBegin
        hinv.offsInv hinv.dok hinv.resBeg (fun hc _ _ => absurd hc hne) (by simp [tokW])
        (by dsimp only; omega) (fun s hc => by cases hc) hoff (fun _ => rfl)
        (by
          have h1 : mpb [Token.beginTok t] = 0 := by simp [mpb, balTok]
          rw [h1]
          unfold PSB at hpsb
          omega)
        hresb
    · unfold PSB at hpsb ⊢
      dsimp only
      rw [List.map_append, balSum_append]
      have h1 : balSum ([(⟨.beginTok t, -p.right_total⟩ : BufEntry)].map BufEntry.token) = 1 := by
        simp [balSum, balTok]
      rw [h1]
      omega
    · exact ⟨⟨.beginTok t, -p.right_total⟩, List.getLast?_concat _, trivial⟩

/-- Pushing a String entry (resolved, not on the scan stack) preserves the
invariant and the print-depth bookkeeping. -/
theorem string_push_inv {p : Printer} {d : Int} (hinv : Inv p) (hpsb : PSB p d)
    (hd : 0 ≤ d) (s : Chars) (hne : p.scan_stack ≠ []) :
    Inv { p with buf := ⟨p.buf.offset, p.buf.data ++ [⟨.string s, (s.length : Int)⟩]⟩
                 right_total := p.right_total + s.length } ∧
    PSB { p with buf := ⟨p.buf.offset, p.buf.data ++ [⟨.string s, (s.length : Int)⟩]⟩
                 right_total := p.right_total + s.length } d := by
  have hlen : (p.buf.data ++ [(⟨.string s, (s.length : Int)⟩ : BufEntry)]).length =
      p.buf.data.length + 1 := by simp
  have hgetold : ∀ j, j < p.buf.data.length →
      (p.buf.data ++ [(⟨.string s, (s.length : Int)⟩ : BufEntry)]).get? j =
      p.buf.data.get? j := by
    intro j hj
    exact List.get?_append hj
  have hgetnew : (p.buf.data ++ [(⟨.string s, (s.length : Int)⟩ : BufEntry)]).get?
      p.buf.data.length = some ⟨.string s, (s.length : Int)⟩ :=
    List.get?_concat_length _ _
  have hposlt : ∀ i ∈ p.scan_stack, i - p.buf.offset < p.buf.data.length :=
    fun i hi => (hinv.live i hi).2
  constructor
  · refine ⟨?_, ?_, hinv.sorted, ?_, ?_, ?_, ?_, ?_, ?_, ?_, ?_, ?_, ?_, ?_⟩
    · have hw := hinv.winv
      unfold WInv at hw ⊢
      dsimp only
      have ht : totW (p.buf.data ++ [(⟨.string s, (s.length : Int)⟩ : BufEntry)]) =
          totW p.buf.data + tokW (.string s) := totW_push _ _ _
      rw [ht]
      have h2 : tokW (.string s) = s.length := rfl
      rw [h2]
      push_cast
      push_cast at hw
      linarith
    · intro _
      exact hinv.posLeft hne
    · intro i hi
      dsimp only
      have := hinv.live i hi
      rw [hlen]
      omega
    · intro j e he hneg2
      dsimp only at he ⊢
      by_cases hj : j < p.buf.data.length
      · rw [hgetold j hj] at he
        exact hinv.uos j e he hneg2
      · by_cases hj2 : j = p.buf.data.length
        · exfalso
          subst hj2
          rw [hgetnew] at he
          rw [← Option.some.inj he] at hneg2
          dsimp only at hneg2
          have : (0 : Int) ≤ (s.length : Int) := by positivity
          omega
        · exfalso
          rw [List.get?_eq_none.mpr (by rw [hlen]; omega)] at he
          cases he
    · intro i hi e he
      dsimp only at hi he
      rw [hgetold _ (hposlt i hi)] at he
      exact hinv.onstack i hi e he
    · intro i hi e he s0
      dsimp only at hi he
      rw [hgetold _ (hposlt i hi)] at he
      exact hinv.nostring i hi e he s0
    · intro i hi e he hbb
      dsimp only at hi he ⊢
      rw [hgetold _ (hposlt i hi)] at he
      have h0 := hinv.trailw i hi e he hbb
      rw [List.drop_append_of_le_length (by have := hposlt i hi; omega), totW_append]
      have h3 : totW [(⟨.string s, (s.length : Int)⟩ : BufEntry)] = s.length := by
        simp [totW, entW, tokW]
      rw [h3]
      push_cast
      push_cast at h0
      linarith
    · intro hcon
      exact absurd hcon hne
    · intro b hb e he t htok
      dsimp only at hb he
      rw [hgetold _ (hposlt b (List.mem_of_mem_getLast? hb))] at he
      exact hinv.botBegin b hb e he t htok
    · intro j e he
      dsimp only at he
      by_cases hj : j < p.buf.data.length
      · rw [hgetold j hj] at he
        exact hinv.offsInv j e he
      · by_cases hj2 : j = p.buf.data.length
        · subst hj2
          rw [hgetnew] at he
          rw [← Option.some.inj he]
          trivial
        · exfalso
          rw [List.get?_eq_none.mpr (by rw [hlen]; omega)] at he
          cases he
    · dsimp only
      rw [List.map_append, mpb_append]
      have h1 := hinv.dok
      unfold PSB at hpsb
      rcases min_choice (mpb (p.buf.data.map BufEntry.token))
          (balSum (p.buf.data.map BufEntry.token) +
            mpb ([(⟨.string s, (s.length : Int)⟩ : BufEntry)].map BufEntry.token)) with
        hm | hm
      · rw [hm]
        exact h1
      · rw [hm]
        have h2 : mpb ([(⟨.string s, (s.length : Int)⟩ : BufEntry)].map BufEntry.token) = 0 := by
          simp [mpb, balTok]
        rw [h2]
        omega
    · intro j e he hbeg hsz
      dsimp only at he ⊢
      by_cases hj : j < p.buf.data.length
      · rw [hgetold j hj] at he
        obtain ⟨kk, e2, hlt, hk2, hend⟩ := hinv.resBeg j e he hbeg hsz
        have hkk := get?_lt_len hk2
        exact ⟨kk, e2, hlt, by rw [hgetold _ hkk]; exact hk2, hend⟩
      · by_cases hj2 : j = p.buf.data.length
        · exfalso
          subst hj2
          rw [hgetnew] at he
          obtain ⟨t2, hc⟩ := hbeg
          rw [← Option.some.inj he] at hc
          cases hc
        · exfalso
          rw [List.get?_eq_none.mpr (by rw [hlen]; omega)] at he
          cases he
    · exact resBrk_append _ hinv.resBrk (by rintro ⟨t2, hc⟩; cases hc)
  · unfold PSB at hpsb ⊢
    dsimp only
    rw [List.map_append, balSum_append]
    have h1 : balSum ([(⟨.string s, (s.length : Int)⟩ : BufEntry)].map BufEntry.token) = 0 := by
      simp [balSum, balTok]
    rw [h1]
    omega

/-- scan_string never panics from an invariant state and preserves the
invariant and the print-depth bookkeeping. -/
theorem scan_string_safe {p : Printer} {d : Int} (hinv : Inv p) (hpsb : PSB p d)
    (hd : 0 ≤ d) (s : Chars) :
    ∃ q, p.scan_string s = .ok q ∧ Inv q ∧ PSB q d := by
  unfold Printer.scan_string
  by_cases hemp : p.scan_stack.isEmpty
  · rw [if_pos hemp]
    have hinv2 : Inv (p.print_string s) :=
      ⟨hinv.winv, hinv.posLeft, hinv.sorted, hinv.live, hinv.uos, hinv.onstack,
        hinv.nostring, hinv.trailw, hinv.emptyInv, hinv.botBegin, hinv.offsInv, hinv.dok,
        hinv.resBeg, hinv.resBrk⟩
    exact ⟨p.print_string s, rfl, hinv2, hpsb⟩
  · rw [if_neg hemp]
    unfold RingBuffer.push
    dsimp only
    have hne : p.scan_stack ≠ [] := fun hc => hemp (by simp [hc])
    obtain ⟨hinvA, hpsbA⟩ := string_push_inv hinv hpsb hd s hne
    obtain ⟨q, hq, hinvq, hpsbq⟩ := check_stream_safe
      ((p.buf.data ++ [(⟨.string s, (s.length : Int)⟩ : BufEntry)]).length + 1)
      { p with buf := ⟨p.buf.offset,
                 p.buf.data ++ [(⟨.string s, (s.length : Int)⟩ : BufEntry)]⟩
               right_total := p.right_total + s.length }
      (by dsimp only; omega) hinvA hne
    refine ⟨q, hq, hinvq, ?_⟩
    unfold PSB at hpsbA ⊢
    rw [hpsbq]
    exact hpsbA

theorem getLast?_of_drop {α : Type} {l : List α} {k : Nat} {b : α}
    (h : (l.drop k).getLast? = some b) : l.getLast? = some b := by
  have h2 : l.drop k ≠ [] := by
    intro hc
    rw [hc] at h
    cases h
  rw [← List.take_append_drop k l, List.getLast?_append_of_ne_nil (List.take k l) h2]
  exact h

/-- scan_break never panics from an invariant state and re-establishes the
invariant with the new Break as the newest buffered token. -/
theorem scan_break_safe {p : Printer} {d : Int} (hinv : Inv p) (hpsb : PSB p d)
    (hd : 0 ≤ d) (t : BreakToken) (hoff : 0 ≤ t.offset) :
    ∃ q, p.scan_break t = .ok q ∧ Inv q ∧ PSB q d ∧ lastBB q := by
  unfold Printer.scan_break
  by_cases hemp : p.scan_stack.isEmpty
  · rw [if_pos hemp]
    have hssnil : p.scan_stack = [] := List.isEmpty_iff.mp hemp
    have hdata : p.buf.data = [] := hinv.emptyInv hssnil
    simp only [bind, Except.bind, pure]
    unfold RingBuffer.clear RingBuffer.push
    rw [hssnil, hdata]
    dsimp only
    simp only [List.length_nil, Nat.add_zero, List.nil_append]
    refine ⟨_, rfl, ?_, ?_, ?_⟩
    · exact single_inv p (p.buf.offset + 0) (.brk t) (1 + t.blank_space) trivial hoff
        (by simp [tokW])
    · unfold PSB at hpsb ⊢
      dsimp only
      rw [hdata] at hpsb
      simp only [List.map_nil] at hpsb
      have h1 : balSum ([(⟨.brk t, -1⟩ : BufEntry)].map BufEntry.token) = 0 := by
        simp [balSum, balTok]
      rw [List.nil_append, h1]
      have h2 : balSum ([] : List Token) = 0 := rfl
      rw [h2] at hpsb
      omega
    · exact ⟨⟨.brk t, -1⟩, rfl, trivial⟩
  · rw [if_neg hemp]
    have hne : p.scan_stack ≠ [] := fun hc => hemp (by simp [hc])
    obtain ⟨q1, hq1, hcsp⟩ := check_stack_safe (p.scan_stack.length + 1) p 0
      (by omega) hinv.sorted hinv.live hinv.nostring hinv.trailw
      (fun hcon => absurd hcon (by omega))
    have hq1x : Printer.check_stack p 0 = .ok q1 := hq1
    rw [hq1x]
    simp only [bind, Except.bind]
    unfold RingBuffer.push
    dsimp only
    obtain ⟨hoffq, htoks, houtq, hspq, hltq, hrtq, hpsq, hindq, hpendq, ⟨kk0, hssq⟩,
      hkeep, hres, hbegwit⟩ := hcsp
    have hlen1 : q1.buf.data.length = p.buf.data.length := len_of_mapTok htoks
    have hsubQ : ∀ i ∈ q1.scan_stack, i ∈ p.scan_stack := by
      intro i hi
      rw [hssq] at hi
      exact List.drop_subset _ _ hi
    have hsortQ : q1.scan_stack.Chain' (· > ·) := by
      rw [hssq]
      exact desc_of_pairwise ((pairwise_of_desc hinv.sorted).sublist (List.drop_sublist _ _))
    have hliveQ : ∀ i ∈ q1.scan_stack, q1.buf.offset ≤ i ∧
        i - q1.buf.offset < q1.buf.data.length := by
      intro i hi
      rw [hoffq, hlen1]
      exact hinv.live i (hsubQ i hi)
    have hpentry : ∀ j, j < p.buf.data.length → ∃ ep, p.buf.data.get? j = some ep := by
      intro j hj
      exact get?_some_of_lt hj
    have hkeptQ : ∀ i ∈ q1.scan_stack, ∀ e, q1.buf.data.get? (i - q1.buf.offset) = some e →
        p.buf.data.get? (i - p.buf.offset) = some e := by
      intro i hi e he
      rw [hoffq] at he
      obtain ⟨ep, hep⟩ := hpentry (i - p.buf.offset) ((hinv.live i (hsubQ i hi)).2)
      have hcond : (p.buf.offset + (i - p.buf.offset)) ∈ q1.scan_stack ∨
          (p.buf.offset + (i - p.buf.offset)) ∉ p.scan_stack := by
        left
        have h1 := (hinv.live i (hsubQ i hi)).1
        have h2 : p.buf.offset + (i - p.buf.offset) = i := by omega
        rw [h2]
        exact hi
      have heq := hkeep (i - p.buf.offset) ep e hep he hcond
      rw [heq]
      exact hep
    have honstQ : ∀ i ∈ q1.scan_stack, ∀ e, q1.buf.data.get? (i - q1.buf.offset) = some e →
        e.size < 0 := by
      intro i hi e he
      exact hinv.onstack i (hsubQ i hi) e (hkeptQ i hi e he)
    have hnostQ : ∀ i ∈ q1.scan_stack, ∀ e, q1.buf.data.get? (i - q1.buf.offset) = some e →
        ∀ s, e.token ≠ .string s := by
      intro i hi e he
      exact hinv.nostring i (hsubQ i hi) e (hkeptQ i hi e he)
    have htrlwQ : ∀ i ∈ q1.scan_stack, ∀ e, q1.buf.data.get? (i - q1.buf.offset) = some e →
        brkOrBeg e.token → q1.right_total + e.size =
          totW (q1.buf.data.drop (i - q1.buf.offset)) := by
      intro i hi e he hbb
      rw [hrtq, hoffq, totW_drop_congr _ htoks]
      exact hinv.trailw i (hsubQ i hi) e (hkeptQ i hi e he) hbb
    have huosQ : ∀ j e, q1.buf.data.get? j = some e → e.size < 0 →
        (q1.buf.offset + j) ∈ q1.scan_stack := by
      intro j e he hneg
      rw [hoffq]
      by_cases h1 : (p.buf.offset + j) ∈ q1.scan_stack
      · exact h1
      · exfalso
        by_cases h2 : (p.buf.offset + j) ∈ p.scan_stack
        · exact absurd (hres j e he h2 h1) (not_le.mpr hneg)
        · obtain ⟨ep, hep⟩ := hpentry j (by rw [← hlen1]; exact get?_lt_len he)
          have heq := hkeep j ep e hep he (Or.inr h2)
          exact h2 (hinv.uos j ep hep (by rw [← heq]; exact hneg))
    have hoffsQ : ∀ j e, q1.buf.data.get? j = some e → tokOffOk e.token := by
      intro j e he
      obtain ⟨ep, hpj, htokj⟩ := get?_token_of_mapTok htoks he
      have h2 := hinv.offsInv j ep hpj
      rw [← htokj]
      exact h2
    have hdokQ : 0 ≤ (q1.print_stack.length : Int) +
        mpb (q1.buf.data.map BufEntry.token) := by
      rw [hpsq, htoks]
      exact hinv.dok
    have hpsbQ : (q1.print_stack.length : Int) + balSum (q1.buf.data.map BufEntry.token) =
        d := by
      unfold PSB at hpsb
      rw [hpsq, htoks]
      exact hpsb
    have hbotQ : ∀ b, q1.scan_stack.getLast? = some b →
        ∀ e, q1.buf.data.get? (b - q1.buf.offset) = some e →
        ∀ t2, e.token = .beginTok t2 → b = q1.buf.offset := by
      intro b hb e he t2 htok2
      rw [hoffq]
      have hbmem : b ∈ q1.scan_stack := List.mem_of_mem_getLast? hb
      have hblast : p.scan_stack.getLast? = some b := by
        refine getLast?_of_drop (k := kk0) ?_
        rw [← hssq]
        exact hb
      exact hinv.botBegin b hblast e (hkeptQ b hbmem e he) t2 htok2
    have hposLQ : 1 ≤ q1.left_total := by
      rw [hltq]
      exact hinv.posLeft hne
    have hwinvQ : WInv q1 := by
      unfold WInv
      rw [hrtq, hltq, totW_congr_mapTok htoks]
      exact hinv.winv
    have hrtpos : 0 < q1.right_total := by
      have h2 := hinv.winv
      unfold WInv at h2
      have h3 : (0 : Int) ≤ (totW p.buf.data : Int) := by positivity
      have h4 := hinv.posLeft hne
      rw [hrtq]
      linarith
    have hpk : ∀ i1 i2, i1 ∈ p.scan_stack → i1 ∉ q1.scan_stack → i2 ∈ q1.scan_stack →
        i2 < i1 := by
      intro i1 i2 h1 hn1 h2
      rw [hssq] at hn1 h2
      have h3 : i1 ∈ p.scan_stack.take kk0 := by
        rcases mem_take_or_drop kk0 h1 with h | h
        · exact h
        · exact absurd h hn1
      exact desc_take_gt_drop hinv.sorted kk0 h3 h2
    have hkept_lt : ∀ i0 m e3, i0 ∈ p.scan_stack → i0 ∉ q1.scan_stack →
        q1.buf.data.get? m = some e3 → e3.size < 0 → p.buf.offset + m < i0 := by
      intro i0 m e3 h1 hn1 hm3 hneg
      have h2 := huosQ m e3 hm3 hneg
      rw [hoffq] at h2
      exact hpk i0 _ h1 hn1 h2
    have hresBegQ : ∀ j e, q1.buf.data.get? j = some e → (∃ tb, e.token = .beginTok tb) →
        0 ≤ e.size → ∃ kk e2, j < kk ∧ q1.buf.data.get? kk = some e2 ∧
          e2.token = .endTok := by
      intro j e he hbeg hsz
      by_cases h1 : (p.buf.offset + j) ∈ q1.scan_stack
      · exfalso
        have h2 : q1.buf.data.get? ((p.buf.offset + j) - q1.buf.offset) = some e := by
          rw [hoffq]
          have h3 : p.buf.offset + j - p.buf.offset = j := by omega
          rw [h3]
          exact he
        exact absurd hsz (not_le.mpr (honstQ _ h1 e h2))
      · by_cases h2 : (p.buf.offset + j) ∈ p.scan_stack
        · rcases hbegwit j e he h2 h1 with hnb | hw
          · obtain ⟨tb, htb⟩ := hbeg
            exact absurd htb (hnb tb)
          · exact hw
        · obtain ⟨ep, hep⟩ := hpentry j (by rw [← hlen1]; exact get?_lt_len he)
          have heq := hkeep j ep e hep he (Or.inr h2)
          obtain ⟨kk, e2, hlt, hk2, hend⟩ := hinv.resBeg j ep hep (heq ▸ hbeg) (heq ▸ hsz)
          obtain ⟨e4, hq4, htok4⟩ := get?_token_of_mapTok htoks.symm hk2
          exact ⟨kk, e4, hlt, hq4, htok4.trans hend⟩
    have hresBrk2 : ∀ j e, (q1.buf.data ++ [(⟨.brk t, -q1.right_total⟩ : BufEntry)]).get? j =
        some e → (∃ t2, e.token = .brk t2) → 0 ≤ e.size →
        (∃ kk e2, j < kk ∧
          (q1.buf.data ++ [(⟨.brk t, -q1.right_total⟩ : BufEntry)]).get? kk = some e2 ∧
          ((∃ s, e2.token = .string s) ∨ e2.token = .endTok)) ∨
        (∃ kk e2, j < kk ∧
          (q1.buf.data ++ [(⟨.brk t, -q1.right_total⟩ : BufEntry)]).get? kk = some e2 ∧
          (∃ t2, e2.token = .brk t2) ∧ e2.size < 0 ∧
          ∀ mm e3, j < mm → mm < kk →
            (q1.buf.data ++ [(⟨.brk t, -q1.right_total⟩ : BufEntry)]).get? mm = some e3 →
            ∀ tb, e3.token ≠ .beginTok tb) := by
      intro j e he hbrk hsz
      by_cases hj : j < q1.buf.data.length
      · rw [List.get?_append hj] at he
        by_cases h1 : (p.buf.offset + j) ∈ q1.scan_stack
        · exfalso
          have h2 : q1.buf.data.get? ((p.buf.offset + j) - q1.buf.offset) = some e := by
            rw [hoffq]
            have h3 : p.buf.offset + j - p.buf.offset = j := by omega
            rw [h3]
            exact he
          exact absurd hsz (not_le.mpr (honstQ _ h1 e h2))
        · by_cases h2 : (p.buf.offset + j) ∈ p.scan_stack
          · -- this Break was resolved by the check_stack call just made
            by_cases hbex : ∃ m e3, j < m ∧ q1.buf.data.get? m = some e3 ∧
                ∃ tb, e3.token = .beginTok tb
            · obtain ⟨m, e3, hm1, hm3, tb, htb⟩ := hbex
              have hres3 : 0 ≤ e3.size := by
                by_contra hcon
                push_neg at hcon
                have h4 := hkept_lt _ _ _ h2 h1 hm3 hcon
                omega
              obtain ⟨kk2, e4, hlt4, hk4, hend4⟩ := hresBegQ m e3 hm3 ⟨tb, htb⟩ hres3
              left
              have hkk4 : kk2 < q1.buf.data.length := get?_lt_len hk4
              exact ⟨kk2, e4, by omega, by rw [List.get?_append hkk4]; exact hk4,
                Or.inr hend4⟩
            · right
              push_neg at hbex
              refine ⟨q1.buf.data.length, ⟨.brk t, -q1.right_total⟩, hj,
                List.get?_concat_length _ _, ⟨t, rfl⟩, by dsimp only; omega, ?_⟩
              intro mm e3 hmm1 hmm2 hm3 tb htb
              rw [List.get?_append hmm2] at hm3
              exact hbex mm e3 hmm1 hm3 tb htb
          · -- resolved before this operation: the old witness or its repair
            obtain ⟨ep, hep⟩ := hpentry j (by rw [← hlen1]; exact get?_lt_len he)
            have heq := hkeep j ep e hep he (Or.inr h2)
            rcases hinv.resBrk j ep hep (heq ▸ hbrk) (heq ▸ hsz) with
              ⟨kk, e2, hlt, hk2, hw⟩ | ⟨kk, e2, hlt, hk2, hbb2, hneg2, hnb⟩
            · left
              obtain ⟨e4, hq4, htok4⟩ := get?_token_of_mapTok htoks.symm hk2
              have hkk : kk < q1.buf.data.length := by
                rw [hlen1]
                exact get?_lt_len hk2
              refine ⟨kk, e4, hlt, by rw [List.get?_append hkk]; exact hq4, ?_⟩
              rw [htok4]
              exact hw
            · have hkkuos : (p.buf.offset + kk) ∈ p.scan_stack := hinv.uos kk e2 hk2 hneg2
              have hkklen : kk < q1.buf.data.length := by
                rw [hlen1]
                exact get?_lt_len hk2
              by_cases h3 : (p.buf.offset + kk) ∈ q1.scan_stack
              · -- the type-2 witness is still on the stack, hence unchanged
                right
                obtain ⟨eq2, hq2⟩ := get?_some_of_lt hkklen
                have heq2 := hkeep kk e2 eq2 hk2 hq2 (Or.inl h3)
                rw [heq2] at hq2
                refine ⟨kk, e2, hlt, by rw [List.get?_append hkklen]; exact hq2,
                  hbb2, hneg2, ?_⟩
                intro mm e3 hmm1 hmm2 hm3 tb htb
                rw [List.get?_append (by omega)] at hm3
                obtain ⟨e3p, hp3, htok3⟩ := get?_token_of_mapTok htoks hm3
                exact hnb mm e3p hmm1 hmm2 hp3 tb (by rw [htok3, htb])
              · -- the witness was just resolved: rebuild one
                by_cases hbex : ∃ m e3, j < m ∧ q1.buf.data.get? m = some e3 ∧
                    ∃ tb, e3.token = .beginTok tb
                · obtain ⟨m, e3, hm1, hm3, tb, htb⟩ := hbex
                  have hres3 : 0 ≤ e3.size := by
                    by_contra hcon
                    push_neg at hcon
                    have h4 := hkept_lt _ _ _ hkkuos h3 hm3 hcon
                    obtain ⟨e3p, hp3, htok3⟩ := get?_token_of_mapTok htoks hm3
                    exact hnb m e3p hm1 (by omega) hp3 tb (by rw [htok3, htb])
                  obtain ⟨kk2, e4, hlt4, hk4, hend4⟩ := hresBegQ m e3 hm3 ⟨tb, htb⟩ hres3
                  left
                  have hkk4 : kk2 < q1.buf.data.length := get?_lt_len hk4
                  exact ⟨kk2, e4, by omega, by rw [List.get?_append hkk4]; exact hk4,
                    Or.inr hend4⟩
                · right
                  push_neg at hbex
                  refine ⟨q1.buf.data.length, ⟨.brk t, -q1.right_total⟩, hj,
                    List.get?_concat_length _ _, ⟨t, rfl⟩, by dsimp only; omega, ?_⟩
                  intro mm e3 hmm1 hmm2 hm3 tb htb
                  rw [List.get?_append hmm2] at hm3
                  exact hbex mm e3 hmm1 hm3 tb htb
      · by_cases hj2 : j = q1.buf.data.length
        · exfalso
          subst hj2
          rw [List.get?_concat_length] at he
          rw [← Option.some.inj he] at hsz
          dsimp only at hsz
          omega
        · exfalso
          rw [List.get?_eq_none.mpr (by simp; omega)] at he
          cases he
    refine ⟨_, rfl, ?_, ?_, ?_⟩
    · exact push_inv (q1.right_total + t.blank_space) hwinvQ hposLQ hsortQ hliveQ
        huosQ honstQ hnostQ htrlwQ hbotQ hoffsQ hdokQ hresBegQ
        (fun _ t2 hc => by cases hc) (by simp [tokW]) (by dsimp only; omega)
        (fun s hc => by cases hc) hoff (fun _ => rfl)
        (by
          have h1 : mpb [Token.brk t] = 0 := by simp [mpb, balTok]
          rw [h1]
          omega)
        hresBrk2
    · unfold PSB
      dsimp only
      rw [List.map_append, balSum_append]
      have h1 : balSum ([(⟨.brk t, -q1.right_total⟩ : BufEntry)].map BufEntry.token) = 0 := by
        simp [balSum, balTok]
      rw [h1]
      omega
    · exact ⟨⟨.brk t, -q1.right_total⟩, List.getLast?_concat _, trivial⟩

/-- Pushing the End entry of scan_end preserves the invariant and lowers
the tracked block depth by one. -/
theorem push_end_inv {p : Printer} {d : Int}
    (hwinv : WInv p)
    (hposL : 1 ≤ p.left_total)
    (hsorted : p.scan_stack.Chain' (· > ·))
    (hlive : ∀ i ∈ p.scan_stack, p.buf.offset ≤ i ∧ i - p.buf.offset < p.buf.data.length)
    (huos : ∀ j e, p.buf.data.get? j = some e → e.size < 0 →
      (p.buf.offset + j) ∈ p.scan_stack)
    (honst : ∀ i ∈ p.scan_stack, ∀ e, p.buf.data.get? (i - p.buf.offset) = some e →
      e.size < 0)
    (hnost : ∀ i ∈ p.scan_stack, ∀ e, p.buf.data.get? (i - p.buf.offset) = some e →
      ∀ s, e.token ≠ .string s)
    (htrlw : ∀ i ∈ p.scan_stack, ∀ e, p.buf.data.get? (i - p.buf.offset) = some e →
      brkOrBeg e.token → p.right_total + e.size = totW (p.buf.data.drop (i - p.buf.offset)))
    (hbotB : ∀ b, p.scan_stack.getLast? = some b →
      ∀ e, p.buf.data.get? (b - p.buf.offset) = some e →
      ∀ t, e.token = .beginTok t → b = p.buf.offset)
    (hoffsi : ∀ j e, p.buf.data.get? j = some e → tokOffOk e.token)
    (hdok : 0 ≤ (p.print_stack.length : Int) + mpb (p.buf.data.map BufEntry.token))
    (hresBeg : ∀ j e, p.buf.data.get? j = some e → (∃ t, e.token = .beginTok t) →
      0 ≤ e.size → ∃ kk e2, j < kk ∧ p.buf.data.get? kk = some e2 ∧ e2.token = .endTok)
    (hresBrk : ∀ j e, p.buf.data.get? j = some e → (∃ t, e.token = .brk t) → 0 ≤ e.size →
      (∃ kk e2, j < kk ∧ p.buf.data.get? kk = some e2 ∧
        ((∃ s, e2.token = .string s) ∨ e2.token = .endTok)) ∨
      (∃ kk e2, j < kk ∧ p.buf.data.get? kk = some e2 ∧ (∃ t2, e2.token = .brk t2) ∧
        e2.size < 0 ∧ ∀ mm e3, j < mm → mm < kk → p.buf.data.get? mm = some e3 →
          ∀ tb, e3.token ≠ .beginTok tb))
    (hpsb : (p.print_stack.length : Int) + balSum (p.buf.data.map BufEntry.token) = d)
    (hd : 1 ≤ d) :
    Inv p.push_end ∧ PSB p.push_end (d - 1) := by
  unfold Printer.push_end RingBuffer.push
  dsimp only
  constructor
  · exact push_inv p.right_total hwinv hposL hsorted hlive huos honst hnost
      htrlw hbotB hoffsi hdok hresBeg (fun _ t2 hc => by cases hc) (by simp [tokW])
      (by show (-1 : Int) < 0; norm_num) (fun s hc => by cases hc) trivial
      (fun h => h.elim)
      (by
        have h1 : mpb [Token.endTok] = -1 := by simp [mpb, balTok]
        rw [h1]
        omega)
      (resBrk_append _ hresBrk (by rintro ⟨t2, hc⟩; cases hc))
  · unfold PSB
    dsimp only
    rw [List.map_append, balSum_append]
    have h1 : balSum ([(⟨.endTok, -1⟩ : BufEntry)].map BufEntry.token) = -1 := by
      simp [balSum, balTok]
    rw [h1]
    omega

/-- The if_nonempty sub-peephole of scan_end: popping the newest (still
unresolved) Break and pushing an End in its place preserves the invariant
and lowers the tracked depth by one. -/
theorem pop_brk_push_end_inv {p : Printer} {d : Int} {bt : BreakToken} {lastE : BufEntry}
    (hinv : Inv p) (hpsb : PSB p d) (hd : 1 ≤ d) (hne : p.scan_stack ≠ [])
    (hlast : p.buf.data.getLast? = some lastE) (htokL : lastE.token = .brk bt)
    (hhead : p.scan_stack = (p.buf.offset + (p.buf.data.length - 1)) :: p.scan_stack.tail) :
    Inv (Printer.push_end { p with buf := p.buf.pop_last,
                                   scan_stack := p.scan_stack.tail,
                                   right_total := p.right_total - bt.blank_space }) ∧
    PSB (Printer.push_end { p with buf := p.buf.pop_last,
                                   scan_stack := p.scan_stack.tail,
                                   right_total := p.right_total - bt.blank_space })
      (d - 1) := by
  have hdec := eq_dropLast_append hlast
  obtain ⟨hgetlast, hL1⟩ := getLast?_get? hlast
  have hdllen : p.buf.data.dropLast.length = p.buf.data.length - 1 := by
    simp
  have hgetdl : ∀ j, j < p.buf.data.length - 1 →
      p.buf.data.dropLast.get? j = p.buf.data.get? j := by
    intro j hj
    exact get?_dropLast_lt _ _ hj
  have htokdec : p.buf.data.map BufEntry.token =
      p.buf.data.dropLast.map BufEntry.token ++ [Token.brk bt] := by
    conv_lhs => rw [hdec]
    rw [List.map_append]
    simp [htokL]
  have hW : (totW p.buf.data : Int) = totW p.buf.data.dropLast + bt.blank_space := by
    rw [totW_getLast? _ _ hlast]
    have h2 : entW lastE = bt.blank_space := by
      simp [entW, tokW, htokL]
    rw [h2]
    push_cast
    ring
  have hchain : ((p.buf.offset + (p.buf.data.length - 1)) ::
      p.scan_stack.tail).Chain' (· > ·) := hhead ▸ hinv.sorted
  have htail_mem : ∀ i ∈ p.scan_stack.tail, i ∈ p.scan_stack := by
    intro i hi
    rw [hhead]
    exact List.mem_cons_of_mem _ hi
  have htail_lt : ∀ i ∈ p.scan_stack.tail,
      i < p.buf.offset + (p.buf.data.length - 1) :=
    fun i hi => desc_head_gt hchain i hi
  have htail_pos : ∀ i ∈ p.scan_stack.tail,
      p.buf.offset ≤ i ∧ i - p.buf.offset < p.buf.data.length - 1 := by
    intro i hi
    have h1 := (hinv.live i (htail_mem i hi)).1
    have h2 := htail_lt i hi
    omega
  have hbaldl : balSum (p.buf.data.dropLast.map BufEntry.token) =
      balSum (p.buf.data.map BufEntry.token) := by
    rw [htokdec, balSum_append]
    simp [balSum, balTok]
  -- the invariant components of the popped state
  have hwinvM : WInv { p with buf := p.buf.pop_last,
                               scan_stack := p.scan_stack.tail,
                               right_total := p.right_total - bt.blank_space } := by
    have hw := hinv.winv
    unfold WInv at hw ⊢
    unfold RingBuffer.pop_last
    dsimp only
    push_cast at hw hW ⊢
    linarith
  have hresBrk2 : ∀ j e,
      (p.buf.data.dropLast ++ [(⟨.endTok, -1⟩ : BufEntry)]).get? j = some e →
      (∃ t2, e.token = .brk t2) → 0 ≤ e.size →
      (∃ kk e2, j < kk ∧
        (p.buf.data.dropLast ++ [(⟨.endTok, -1⟩ : BufEntry)]).get? kk = some e2 ∧
        ((∃ s, e2.token = .string s) ∨ e2.token = .endTok)) ∨
      (∃ kk e2, j < kk ∧
        (p.buf.data.dropLast ++ [(⟨.endTok, -1⟩ : BufEntry)]).get? kk = some e2 ∧
        (∃ t2, e2.token = .brk t2) ∧ e2.size < 0 ∧
        ∀ mm e3, j < mm → mm < kk →
          (p.buf.data.dropLast ++ [(⟨.endTok, -1⟩ : BufEntry)]).get? mm = some e3 →
          ∀ tb, e3.token ≠ .beginTok tb) := by
    intro j e he hbrk hsz
    by_cases hj : j < p.buf.data.length - 1
    · rw [List.get?_append (by omega), hgetdl j hj] at he
      rcases hinv.resBrk j e he hbrk hsz with
        ⟨kk, e2, hlt, hk2, hw⟩ | ⟨kk, e2, hlt, hk2, hbb2, hneg2, hnb⟩
      · left
        have hkk : kk < p.buf.data.length := get?_lt_len hk2
        have hkk2 : kk ≠ p.buf.data.length - 1 := by
          intro hc
          subst hc
          rw [hgetlast] at hk2
          rw [← Option.some.inj hk2, htokL] at hw
          rcases hw with ⟨s0, hs0⟩ | hs0
          · cases hs0
          · cases hs0
        refine ⟨kk, e2, hlt, ?_, hw⟩
        rw [List.get?_append (by omega), hgetdl kk (by omega)]
        exact hk2
      · have hkk : kk < p.buf.data.length := get?_lt_len hk2
        by_cases hkk2 : kk = p.buf.data.length - 1
        · -- the popped Break was the witness: the new End replaces it
          left
          refine ⟨p.buf.data.dropLast.length, ⟨.endTok, -1⟩, by omega,
            List.get?_concat_length _ _, Or.inr rfl⟩
        · right
          refine ⟨kk, e2, hlt, ?_, hbb2, hneg2, ?_⟩
          · rw [List.get?_append (by omega), hgetdl kk (by omega)]
            exact hk2
          · intro mm e3 hmm1 hmm2 hm3 tb htb
            rw [List.get?_append (by omega), hgetdl mm (by omega)] at hm3
            exact hnb mm e3 hmm1 hmm2 hm3 tb htb
    · by_cases hj2 : j = p.buf.data.dropLast.length
      · exfalso
        subst hj2
        rw [List.get?_concat_length] at he
        obtain ⟨t2, ht2⟩ := hbrk
        rw [← Option.some.inj he] at ht2
        cases ht2
      · exfalso
        rw [List.get?_eq_none.mpr (by simp; omega)] at he
        cases he
  constructor
  · -- Inv of the pushed result
    unfold Printer.push_end RingBuffer.push
    dsimp only
    refine push_inv (p.right_total - bt.blank_space) hwinvM
      (hinv.posLeft hne) ?_ ?_ ?_ ?_ ?_ ?_ ?_ ?_ ?_ ?_
      (fun _ t2 hc => by cases hc) (by simp [tokW])
      (by show (-1 : Int) < 0; norm_num) (fun s hc => by cases hc) trivial
      (fun h => h.elim) ?_ ?_
    · -- sorted
      dsimp only
      have h2 := hchain.tail
      simpa using h2
    · -- live
      intro i hi
      dsimp only at hi ⊢
      unfold RingBuffer.pop_last
      dsimp only
      have h2 := htail_pos i hi
      rw [hdllen]
      exact h2
    · -- uos
      intro j e he hneg
      dsimp only at he ⊢
      unfold RingBuffer.pop_last at he
      dsimp only at he
      have hj : j < p.buf.data.length - 1 := by
        have := get?_lt_len he
        omega
      rw [hgetdl j hj] at he
      have h1 := hinv.uos j e he hneg
      rw [hhead] at h1
      rcases List.mem_cons.mp h1 with h2 | h2
      · exfalso
        omega
      · exact h2
    · -- onstack
      intro i hi e he
      dsimp only at hi he
      unfold RingBuffer.pop_last at he
      dsimp only at he
      rw [hgetdl _ (htail_pos i hi).2] at he
      exact hinv.onstack i (htail_mem i hi) e he
    · -- nostring
      intro i hi e he
      dsimp only at hi he
      unfold RingBuffer.pop_last at he
      dsimp only at he
      rw [hgetdl _ (htail_pos i hi).2] at he
      exact hinv.nostring i (htail_mem i hi) e he
    · -- trailw
      intro i hi e he hbb
      dsimp only at hi he ⊢
      unfold RingBuffer.pop_last at he ⊢
      dsimp only at he ⊢
      rw [hgetdl _ (htail_pos i hi).2] at he
      have h0 := hinv.trailw i (htail_mem i hi) e he hbb
      have hdrop : p.buf.data.drop (i - p.buf.offset) =
          p.buf.data.dropLast.drop (i - p.buf.offset) ++ [lastE] := by
        conv_lhs => rw [hdec]
        rw [List.drop_append_of_le_length (by have := (htail_pos i hi).2; omega)]
      rw [hdrop, totW_append] at h0
      have h2 : (totW [lastE] : Int) = bt.blank_space := by
        simp [totW, entW, tokW, htokL]
      push_cast at h0
      push_cast
      push_cast at h2
      linarith
    · -- botBegin
      intro b hb e he t2 htok2
      dsimp only at hb he ⊢
      unfold RingBuffer.pop_last at he ⊢
      dsimp only at he ⊢
      have htne : p.scan_stack.tail ≠ [] := by
        intro hc
        rw [hc] at hb
        cases hb
      have hblast : p.scan_stack.getLast? = some b := by
        rw [hhead]
        rw [show ((p.buf.offset + (p.buf.data.length - 1)) :: p.scan_stack.tail) =
          [p.buf.offset + (p.buf.data.length - 1)] ++ p.scan_stack.tail from rfl]
        rw [List.getLast?_append_of_ne_nil _ htne]
        exact hb
      have hbm : b ∈ p.scan_stack.tail := List.mem_of_mem_getLast? hb
      rw [hgetdl _ (htail_pos b hbm).2] at he
      exact hinv.botBegin b hblast e he t2 htok2
    · -- offsInv
      intro j e he
      dsimp only at he
      unfold RingBuffer.pop_last at he
      dsimp only at he
      have hj : j < p.buf.data.length - 1 := by
        have := get?_lt_len he
        omega
      rw [hgetdl j hj] at he
      exact hinv.offsInv j e he
    · -- dok
      dsimp only
      unfold RingBuffer.pop_last
      dsimp only
      have h1 := hinv.dok
      rw [htokdec, mpb_append] at h1
      have h2 : mpb [Token.brk bt] = 0 := by simp [mpb, balTok]
      rw [h2] at h1
      have h3 := min_le_left (mpb (p.buf.data.dropLast.map BufEntry.token))
        (balSum (p.buf.data.dropLast.map BufEntry.token) + 0)
      linarith
    · -- resBeg
      intro j e he hbeg hsz
      dsimp only at he ⊢
      unfold RingBuffer.pop_last at he ⊢
      dsimp only at he ⊢
      have hj : j < p.buf.data.length - 1 := by
        have := get?_lt_len he
        omega
      rw [hgetdl j hj] at he
      obtain ⟨kk, e2, hlt, hk2, hend⟩ := hinv.resBeg j e he hbeg hsz
      have hkk : kk < p.buf.data.length := get?_lt_len hk2
      have hkk2 : kk ≠ p.buf.data.length - 1 := by
        intro hc
        subst hc
        rw [hgetlast] at hk2
        rw [← Option.some.inj hk2, htokL] at hend
        cases hend
      refine ⟨kk, e2, hlt, ?_, hend⟩
      rw [hgetdl kk (by omega)]
      exact hk2
    · -- block-depth margin for the End
      dsimp only
      unfold RingBuffer.pop_last
      dsimp only
      have h1 : mpb [Token.endTok] = -1 := by simp [mpb, balTok]
      rw [h1]
      unfold PSB at hpsb
      rw [← hbaldl] at hpsb
      omega
    · -- resolved-Break witnesses after the push
      dsimp only
      unfold RingBuffer.pop_last
      dsimp only
      exact hresBrk2
  · -- PSB
    unfold Printer.push_end RingBuffer.push
    unfold PSB at hpsb ⊢
    unfold RingBuffer.pop_last
    dsimp only
    rw [List.map_append, balSum_append]
    have h1 : balSum ([(⟨.endTok, -1⟩ : BufEntry)].map BufEntry.token) = -1 := by
      simp [balSum, balTok]
    rw [h1, hbaldl]
    omega

/-- The Begin/Break peephole of scan_end: popping the top (unresolved)
Break together with the (unresolved) Begin right under it preserves the
invariant and lowers the tracked depth by one. -/
theorem peephole_inv {p : Printer} {d : Int} {bt : BreakToken} {bt2 : BeginToken}
    {lastE sl : BufEntry}
    (hinv : Inv p) (hpsb : PSB p d) (hd : 1 ≤ d) (hne : p.scan_stack ≠ [])
    (hlast : p.buf.data.getLast? = some lastE) (htokL : lastE.token = .brk bt)
    (hsl : p.buf.data.dropLast.getLast? = some sl) (htokS : sl.token = .beginTok bt2)
    (hhead : p.scan_stack = (p.buf.offset + (p.buf.data.length - 1)) :: p.scan_stack.tail)
    (hhead2 : p.scan_stack.tail =
      (p.buf.offset + (p.buf.data.length - 2)) :: p.scan_stack.tail.tail) :
    Inv { p with buf := (p.buf.pop_last).pop_last,
                 scan_stack := p.scan_stack.tail.tail,
                 right_total := p.right_total - bt.blank_space } ∧
    PSB { p with buf := (p.buf.pop_last).pop_last,
                 scan_stack := p.scan_stack.tail.tail,
                 right_total := p.right_total - bt.blank_space } (d - 1) := by
  have hdec := eq_dropLast_append hlast
  have hdecS := eq_dropLast_append hsl
  obtain ⟨hgetlast0, hL1⟩ := getLast?_get? hlast
  obtain ⟨hgetsl0, hdlL1⟩ := getLast?_get? hsl
  have hdllen : p.buf.data.dropLast.length = p.buf.data.length - 1 := by simp
  have hL2 : 2 ≤ p.buf.data.length := by omega
  have hslget : p.buf.data.get? (p.buf.data.length - 2) = some sl := by
    have h1 : p.buf.data.dropLast.get? (p.buf.data.length - 2) = some sl := by
      have h2 : p.buf.data.dropLast.length - 1 = p.buf.data.length - 2 := by omega
      rw [← h2]
      exact hgetsl0
    rw [get?_dropLast_lt _ _ (by omega)] at h1
    exact h1
  have hdlqlen : p.buf.data.dropLast.dropLast.length = p.buf.data.length - 2 := by
    simp
    omega
  have hget2 : ∀ j, j < p.buf.data.length - 2 →
      p.buf.data.dropLast.dropLast.get? j = p.buf.data.get? j := by
    intro j hj
    rw [get?_dropLast_lt _ _ (by omega), get?_dropLast_lt _ _ (by omega)]
  have hdec2 : p.buf.data = p.buf.data.dropLast.dropLast ++ [sl, lastE] := by
    have h1 : p.buf.data.dropLast ++ [lastE] =
        (p.buf.data.dropLast.dropLast ++ [sl]) ++ [lastE] := by
      rw [← hdecS]
    exact hdec.trans (h1.trans (by simp))
  have htokdec2 : p.buf.data.map BufEntry.token =
      p.buf.data.dropLast.dropLast.map BufEntry.token ++
        [Token.beginTok bt2, Token.brk bt] := by
    conv_lhs => rw [hdec2]
    rw [List.map_append]
    simp [htokS, htokL]
  have hbal2 : balSum (p.buf.data.map BufEntry.token) =
      balSum (p.buf.data.dropLast.dropLast.map BufEntry.token) + 1 := by
    rw [htokdec2, balSum_append]
    simp [balSum, balTok]
  have hW2 : (totW p.buf.data : Int) =
      totW p.buf.data.dropLast.dropLast + bt.blank_space := by
    rw [totW_getLast? _ _ hlast, totW_getLast? _ _ hsl]
    have h2 : entW lastE = bt.blank_space := by simp [entW, tokW, htokL]
    have h3 : entW sl = 0 := by simp [entW, tokW, htokS]
    rw [h2, h3]
    push_cast
    ring
  have hchain : ((p.buf.offset + (p.buf.data.length - 1)) ::
      p.scan_stack.tail).Chain' (· > ·) := hhead ▸ hinv.sorted
  have hchain2 : ((p.buf.offset + (p.buf.data.length - 2)) ::
      p.scan_stack.tail.tail).Chain' (· > ·) := by
    rw [← hhead2]
    have h2 := hchain.tail
    simpa using h2
  have htt_mem : ∀ i ∈ p.scan_stack.tail.tail, i ∈ p.scan_stack := by
    intro i hi
    rw [hhead]
    refine List.mem_cons_of_mem _ ?_
    rw [hhead2]
    exact List.mem_cons_of_mem _ hi
  have htt_lt : ∀ i ∈ p.scan_stack.tail.tail,
      i < p.buf.offset + (p.buf.data.length - 2) :=
    fun i hi => desc_head_gt hchain2 i hi
  have htt_pos : ∀ i ∈ p.scan_stack.tail.tail,
      p.buf.offset ≤ i ∧ i - p.buf.offset < p.buf.data.length - 2 := by
    intro i hi
    have h1 := (hinv.live i (htt_mem i hi)).1
    have h2 := htt_lt i hi
    omega
  constructor
  · refine ⟨?_, ?_, ?_, ?_, ?_, ?_, ?_, ?_, ?_, ?_, ?_, ?_, ?_, ?_⟩
    · -- winv
      have hw := hinv.winv
      unfold WInv at hw ⊢
      unfold RingBuffer.pop_last
      dsimp only
      push_cast at hw hW2 ⊢
      linarith
    · -- posLeft
      intro _
      exact hinv.posLeft hne
    · -- sorted
      dsimp only
      have h2 := hchain2.tail
      simpa using h2
    · -- live
      intro i hi
      dsimp only at hi ⊢
      unfold RingBuffer.pop_last
      dsimp only
      have h2 := htt_pos i hi
      rw [List.length_dropLast, List.length_dropLast]
      omega
    · -- uos
      intro j e he hneg
      dsimp only at he ⊢
      unfold RingBuffer.pop_last at he
      dsimp only at he
      have hj : j < p.buf.data.length - 2 := by
        have h1 := get?_lt_len he
        rw [hdlqlen] at h1
        exact h1
      rw [hget2 j hj] at he
      have h1 := hinv.uos j e he hneg
      rw [hhead] at h1
      rcases List.mem_cons.mp h1 with h2 | h2
      · exfalso
        omega
      · rw [hhead2] at h2
        rcases List.mem_cons.mp h2 with h3 | h3
        · exfalso
          omega
        · exact h3
    · -- onstack
      intro i hi e he
      dsimp only at hi he
      unfold RingBuffer.pop_last at he
      dsimp only at he
      rw [hget2 _ (by rw [← hdlqlen]; exact (by
        have h2 := htt_pos i hi
        rw [hdlqlen]
        exact h2.2))] at he
      exact hinv.onstack i (htt_mem i hi) e he
    · -- nostring
      intro i hi e he
      dsimp only at hi he
      unfold RingBuffer.pop_last at he
      dsimp only at he
      rw [hget2 _ (htt_pos i hi).2] at he
      exact hinv.nostring i (htt_mem i hi) e he
    · -- trailw
      intro i hi e he hbb
      dsimp only at hi he ⊢
      unfold RingBuffer.pop_last at he ⊢
      dsimp only at he ⊢
      rw [hget2 _ (htt_pos i hi).2] at he
      have h0 := hinv.trailw i (htt_mem i hi) e he hbb
      have hdrop : p.buf.data.drop (i - p.buf.offset) =
          p.buf.data.dropLast.dropLast.drop (i - p.buf.offset) ++ [sl, lastE] := by
        conv_lhs => rw [hdec2]
        rw [List.drop_append_of_le_length (by have := (htt_pos i hi).2; omega)]
      rw [hdrop, totW_append] at h0
      have h2 : (totW [sl, lastE] : Int) = bt.blank_space := by
        simp [totW, entW, tokW, htokS, htokL]
      push_cast at h0 h2 ⊢
      linarith
    · -- emptyInv
      intro hcon
      dsimp only at hcon ⊢
      unfold RingBuffer.pop_last
      dsimp only
      have hblast : p.scan_stack.getLast? = some (p.buf.offset + (p.buf.data.length - 2)) := by
        rw [hhead, hhead2, hcon]
        rfl
      have h1 := hinv.botBegin _ hblast sl (by
        have h2 : p.buf.offset + (p.buf.data.length - 2) - p.buf.offset =
            p.buf.data.length - 2 := by omega
        rw [h2]
        exact hslget) bt2 htokS
      have hL : p.buf.data.length = 2 := by omega
      have h3 : p.buf.data.dropLast.dropLast.length = 0 := by
        rw [hdlqlen, hL]
      exact List.length_eq_zero.mp h3
    · -- botBegin
      intro b hb e he t2 htok2
      dsimp only at hb he ⊢
      unfold RingBuffer.pop_last at he ⊢
      dsimp only at he ⊢
      have httne : p.scan_stack.tail.tail ≠ [] := by
        intro hc
        rw [hc] at hb
        cases hb
      have hblast : p.scan_stack.getLast? = some b := by
        rw [hhead]
        rw [show ((p.buf.offset + (p.buf.data.length - 1)) :: p.scan_stack.tail) =
          [p.buf.offset + (p.buf.data.length - 1)] ++ p.scan_stack.tail from rfl]
        rw [List.getLast?_append_of_ne_nil _ (by rw [hhead2]; simp)]
        rw [hhead2]
        rw [show ((p.buf.offset + (p.buf.data.length - 2)) :: p.scan_stack.tail.tail) =
          [p.buf.offset + (p.buf.data.length - 2)] ++ p.scan_stack.tail.tail from rfl]
        rw [List.getLast?_append_of_ne_nil _ httne]
        exact hb
      have hbm : b ∈ p.scan_stack.tail.tail := List.mem_of_mem_getLast? hb
      rw [hget2 _ (htt_pos b hbm).2] at he
      exact hinv.botBegin b hblast e he t2 htok2
    · -- offsInv
      intro j e he
      dsimp only at he
      unfold RingBuffer.pop_last at he
      dsimp only at he
      have hj : j < p.buf.data.length - 2 := by
        have h1 := get?_lt_len he
        rw [hdlqlen] at h1
        exact h1
      rw [hget2 j hj] at he
      exact hinv.offsInv j e he
    · -- dok
      dsimp only
      unfold RingBuffer.pop_last
      dsimp only
      have h1 := hinv.dok
      rw [htokdec2, mpb_append] at h1
      have h2 : mpb [Token.beginTok bt2, Token.brk bt] = 0 := by
        simp [mpb, balTok]
      rw [h2] at h1
      have h3 := min_le_left (mpb (p.buf.data.dropLast.dropLast.map BufEntry.token))
        (balSum (p.buf.data.dropLast.dropLast.map BufEntry.token) + 0)
      linarith
    · -- resBeg
      intro j e he hbeg hsz
      dsimp only at he ⊢
      unfold RingBuffer.pop_last at he ⊢
      dsimp only at he ⊢
      have hj : j < p.buf.data.length - 2 := by
        have h1 := get?_lt_len he
        rw [hdlqlen] at h1
        exact h1
      rw [hget2 j hj] at he
      obtain ⟨kk, e2, hlt, hk2, hend⟩ := hinv.resBeg j e he hbeg hsz
      have hkk : kk < p.buf.data.length := get?_lt_len hk2
      have hkkA : kk ≠ p.buf.data.length - 1 := by
        intro hc
        subst hc
        rw [hgetlast0] at hk2
        rw [← Option.some.inj hk2, htokL] at hend
        cases hend
      have hkkB : kk ≠ p.buf.data.length - 2 := by
        intro hc
        subst hc
        rw [hslget] at hk2
        rw [← Option.some.inj hk2, htokS] at hend
        cases hend
      refine ⟨kk, e2, hlt, ?_, hend⟩
      rw [hget2 kk (by omega)]
      exact hk2
    · -- resBrk
      intro j e he hbrk hsz
      dsimp only at he ⊢
      unfold RingBuffer.pop_last at he ⊢
      dsimp only at he ⊢
      have hj : j < p.buf.data.length - 2 := by
        have h1 := get?_lt_len he
        rw [hdlqlen] at h1
        exact h1
      rw [hget2 j hj] at he
      rcases hinv.resBrk j e he hbrk hsz with
        ⟨kk, e2, hlt, hk2, hw⟩ | ⟨kk, e2, hlt, hk2, hbb2, hneg2, hnb⟩
      · left
        have hkk : kk < p.buf.data.length := get?_lt_len hk2
        have hkkA : kk ≠ p.buf.data.length - 1 := by
          intro hc
          subst hc
          rw [hgetlast0] at hk2
          rw [← Option.some.inj hk2, htokL] at hw
          rcases hw with ⟨s0, hs0⟩ | hs0
          · cases hs0
          · cases hs0
        have hkkB : kk ≠ p.buf.data.length - 2 := by
          intro hc
          subst hc
          rw [hslget] at hk2
          rw [← Option.some.inj hk2, htokS] at hw
          rcases hw with ⟨s0, hs0⟩ | hs0
          · cases hs0
          · cases hs0
        refine ⟨kk, e2, hlt, ?_, hw⟩
        rw [hget2 kk (by omega)]
        exact hk2
      · right
        have hkk : kk < p.buf.data.length := get?_lt_len hk2
        have hkkB : kk ≠ p.buf.data.length - 2 := by
          intro hc
          subst hc
          rw [hslget] at hk2
          obtain ⟨t2, ht2⟩ := hbb2
          rw [← Option.some.inj hk2, htokS] at ht2
          cases ht2
        have hkkA : kk ≠ p.buf.data.length - 1 := by
          intro hc
          subst hc
          exact hnb (p.buf.data.length - 2) sl (by omega) (by omega) hslget bt2 htokS
        refine ⟨kk, e2, hlt, ?_, hbb2, hneg2, ?_⟩
        · rw [hget2 kk (by omega)]
          exact hk2
        · intro mm e3 hmm1 hmm2 hm3 tb htb
          rw [hget2 mm (by omega)] at hm3
          exact hnb mm e3 hmm1 hmm2 hm3 tb htb
  · unfold PSB at hpsb ⊢
    unfold RingBuffer.pop_last
    dsimp only
    rw [hbal2] at hpsb
    omega

/-- scan_end never panics from an invariant state whose tracked block depth
is at least one, and lowers the tracked depth by one. -/
theorem scan_end_safe {p : Printer} {d : Int} (hinv : Inv p) (hpsb : PSB p d)
    (hd : 1 ≤ d) :
    ∃ q, p.scan_end = .ok q ∧ Inv q ∧ PSB q (d - 1) := by
  unfold Printer.scan_end
  by_cases hemp : p.scan_stack.isEmpty
  · -- empty scan stack: print_end directly, made safe by the depth margin
    rw [if_pos hemp]
    have hssnil : p.scan_stack = [] := List.isEmpty_iff.mp hemp
    have hdata : p.buf.data = [] := hinv.emptyInv hssnil
    have hps0 : (p.print_stack.length : Int) = d := by
      unfold PSB at hpsb
      rw [hdata] at hpsb
      simpa using hpsb
    unfold Printer.print_end
    cases hps : p.print_stack with
    | nil =>
      exfalso
      rw [hps] at hps0
      simp at hps0
      omega
    | cons f rest =>
      have hlenr : (rest.length : Int) = d - 1 := by
        rw [hps] at hps0
        simp only [List.length_cons] at hps0
        push_cast at hps0
        linarith
      cases f with
      | broken ind b =>
        refine ⟨_, rfl, ?_, ?_⟩
        · refine ⟨hinv.winv, hinv.posLeft, hinv.sorted, hinv.live, hinv.uos, hinv.onstack,
            hinv.nostring, hinv.trailw, hinv.emptyInv, hinv.botBegin, hinv.offsInv, ?_,
            hinv.resBeg, hinv.resBrk⟩
          dsimp only
          rw [hdata]
          simp only [List.map_nil]
          have h2 : mpb ([] : List Token) = 0 := rfl
          rw [h2]
          positivity
        · unfold PSB
          dsimp only
          rw [hdata]
          simp only [List.map_nil]
          have h2 : balSum ([] : List Token) = 0 := rfl
          rw [h2]
          linarith
      | fits b =>
        refine ⟨_, rfl, ?_, ?_⟩
        · refine ⟨hinv.winv, hinv.posLeft, hinv.sorted, hinv.live, hinv.uos, hinv.onstack,
            hinv.nostring, hinv.trailw, hinv.emptyInv, hinv.botBegin, hinv.offsInv, ?_,
            hinv.resBeg, hinv.resBrk⟩
          dsimp only
          rw [hdata]
          simp only [List.map_nil]
          have h2 : mpb ([] : List Token) = 0 := rfl
          rw [h2]
          positivity
        · unfold PSB
          dsimp only
          rw [hdata]
          simp only [List.map_nil]
          have h2 : balSum ([] : List Token) = 0 := rfl
          rw [h2]
          linarith
  · rw [if_neg hemp]
    have hne : p.scan_stack ≠ [] := fun hc => hemp (by simp [hc])
    have hdne : p.buf.data ≠ [] := by
      cases hss0 : p.scan_stack with
      | nil => exact absurd hss0 hne
      | cons a as =>
        have h2 := (hinv.live a (by rw [hss0]; exact List.mem_cons_self _ _)).2
        intro hc
        rw [hc] at h2
        simp at h2
    obtain ⟨lastE, hlast⟩ := getLast?_some_of_ne_nil hdne
    rw [hlast]
    dsimp only
    obtain ⟨hgetlast, hL1⟩ := getLast?_get? hlast
    cases htokL : lastE.token with
    | string s =>
      dsimp only
      obtain ⟨hinvQ, hpsbQ⟩ := push_end_inv hinv.winv (hinv.posLeft hne) hinv.sorted
        hinv.live hinv.uos hinv.onstack hinv.nostring hinv.trailw hinv.botBegin
        hinv.offsInv hinv.dok hinv.resBeg hinv.resBrk hpsb hd
      exact ⟨_, rfl, hinvQ, hpsbQ⟩
    | beginTok bt0 =>
      dsimp only
      obtain ⟨hinvQ, hpsbQ⟩ := push_end_inv hinv.winv (hinv.posLeft hne) hinv.sorted
        hinv.live hinv.uos hinv.onstack hinv.nostring hinv.trailw hinv.botBegin
        hinv.offsInv hinv.dok hinv.resBeg hinv.resBrk hpsb hd
      exact ⟨_, rfl, hinvQ, hpsbQ⟩
    | endTok =>
      dsimp only
      obtain ⟨hinvQ, hpsbQ⟩ := push_end_inv hinv.winv (hinv.posLeft hne) hinv.sorted
        hinv.live hinv.uos hinv.onstack hinv.nostring hinv.trailw hinv.botBegin
        hinv.offsInv hinv.dok hinv.resBeg hinv.resBrk hpsb hd
      exact ⟨_, rfl, hinvQ, hpsbQ⟩
    | brk bt =>
      dsimp only
      -- the newest entry is an unresolved Break on top of the scan stack
      have hlast_unres : lastE.size < 0 := by
        by_contra hcon
        push_neg at hcon
        rcases hinv.resBrk (p.buf.data.length - 1) lastE hgetlast ⟨bt, htokL⟩ hcon with
          ⟨kk, e2, hlt, hk2, _⟩ | ⟨kk, e2, hlt, hk2, _, _, _⟩ <;>
        · have := get?_lt_len hk2
          omega
      have hidxmem := hinv.uos _ lastE hgetlast hlast_unres
      have hhead : p.scan_stack =
          (p.buf.offset + (p.buf.data.length - 1)) :: p.scan_stack.tail := by
        cases hss0 : p.scan_stack with
        | nil => exact absurd hss0 hne
        | cons a as =>
          have hamem : a ∈ p.scan_stack := by rw [hss0]; exact List.mem_cons_self _ _
          have halive := hinv.live a hamem
          have h1 : a = p.buf.offset + (p.buf.data.length - 1) := by
            rw [hss0] at hidxmem
            rcases List.mem_cons.mp hidxmem with h1 | h2
            · exact h1.symm
            · exfalso
              have h3 := desc_head_gt (hss0 ▸ hinv.sorted) _ h2
              omega
          rw [List.tail_cons, h1]
      cases hsl : p.buf.data.dropLast.getLast? with
      | none =>
        dsimp only
        by_cases hifn : bt.if_nonempty
        · rw [if_pos hifn]
          obtain ⟨hinvQ, hpsbQ⟩ := pop_brk_push_end_inv hinv hpsb hd hne hlast htokL hhead
          exact ⟨_, rfl, hinvQ, hpsbQ⟩
        · rw [if_neg hifn]
          obtain ⟨hinvQ, hpsbQ⟩ := push_end_inv hinv.winv (hinv.posLeft hne) hinv.sorted
            hinv.live hinv.uos hinv.onstack hinv.nostring hinv.trailw hinv.botBegin
            hinv.offsInv hinv.dok hinv.resBeg hinv.resBrk hpsb hd
          exact ⟨_, rfl, hinvQ, hpsbQ⟩
      | some sl =>
        dsimp only
        obtain ⟨hgetsl0, hdlL1⟩ := getLast?_get? hsl
        have hdllen : p.buf.data.dropLast.length = p.buf.data.length - 1 := by simp
        have hL2 : 2 ≤ p.buf.data.length := by omega
        have hslget : p.buf.data.get? (p.buf.data.length - 2) = some sl := by
          have h1 : p.buf.data.dropLast.get? (p.buf.data.length - 2) = some sl := by
            have h2 : p.buf.data.dropLast.length - 1 = p.buf.data.length - 2 := by omega
            rw [← h2]
            exact hgetsl0
          rw [get?_dropLast_lt _ _ (by omega)] at h1
          exact h1
        cases htokS : sl.token with
        | beginTok bt2 =>
          dsimp only
          -- the Begin under the Break is unresolved and second on the stack
          have hsl_unres : sl.size < 0 := by
            by_contra hcon
            push_neg at hcon
            obtain ⟨kk, e2, hlt, hk2, hend⟩ := hinv.resBeg (p.buf.data.length - 2) sl
              hslget ⟨bt2, htokS⟩ hcon
            have hkk := get?_lt_len hk2
            have hkkeq : kk = p.buf.data.length - 1 := by omega
            subst hkkeq
            rw [hgetlast] at hk2
            rw [← Option.some.inj hk2, htokL] at hend
            cases hend
          have hslmem := hinv.uos _ sl hslget hsl_unres
          have hhead2 : p.scan_stack.tail =
              (p.buf.offset + (p.buf.data.length - 2)) :: p.scan_stack.tail.tail := by
            have h0 : (p.buf.offset + (p.buf.data.length - 2)) ∈ p.scan_stack.tail := by
              rw [hhead] at hslmem
              rcases List.mem_cons.mp hslmem with h1 | h2
              · exfalso
                omega
              · exact h2
            cases hss1 : p.scan_stack.tail with
            | nil =>
              rw [hss1] at h0
              cases h0
            | cons a2 as2 =>
              have hch : (a2 :: as2).Chain' (· > ·) := by
                rw [← hss1]
                have h2 := (hhead ▸ hinv.sorted).tail
                simpa using h2
              have h1 : a2 = p.buf.offset + (p.buf.data.length - 2) := by
                rw [hss1] at h0
                rcases List.mem_cons.mp h0 with h1 | h2
                · exact h1.symm
                · exfalso
                  have h3 := desc_head_gt hch _ h2
                  have h4 : a2 < p.buf.offset + (p.buf.data.length - 1) := by
                    refine desc_head_gt (hhead ▸ hinv.sorted) a2 ?_
                    rw [hss1]
                    exact List.mem_cons_self _ _
                  omega
              rw [List.tail_cons, h1]
          obtain ⟨hinvQ, hpsbQ⟩ := peephole_inv hinv hpsb hd hne hlast htokL hsl htokS
            hhead hhead2
          exact ⟨_, rfl, hinvQ, hpsbQ⟩
        | string s2 =>
          dsimp only
          by_cases hifn : bt.if_nonempty
          · rw [if_pos hifn]
            obtain ⟨hinvQ, hpsbQ⟩ := pop_brk_push_end_inv hinv hpsb hd hne hlast htokL hhead
            exact ⟨_, rfl, hinvQ, hpsbQ⟩
          · rw [if_neg hifn]
            obtain ⟨hinvQ, hpsbQ⟩ := push_end_inv hinv.winv (hinv.posLeft hne) hinv.sorted
              hinv.live hinv.uos hinv.onstack hinv.nostring hinv.trailw hinv.botBegin
              hinv.offsInv hinv.dok hinv.resBeg hinv.resBrk hpsb hd
            exact ⟨_, rfl, hinvQ, hpsbQ⟩
        | brk bt2 =>
          dsimp only
          by_cases hifn : bt.if_nonempty
          · rw [if_pos hifn]
            obtain ⟨hinvQ, hpsbQ⟩ := pop_brk_push_end_inv hinv hpsb hd hne hlast htokL hhead
            exact ⟨_, rfl, hinvQ, hpsbQ⟩
          · rw [if_neg hifn]
            obtain ⟨hinvQ, hpsbQ⟩ := push_end_inv hinv.winv (hinv.posLeft hne) hinv.sorted
              hinv.live hinv.uos hinv.onstack hinv.nostring hinv.trailw hinv.botBegin
              hinv.offsInv hinv.dok hinv.resBeg hinv.resBrk hpsb hd
            exact ⟨_, rfl, hinvQ, hpsbQ⟩
        | endTok =>
          dsimp only
          by_cases hifn : bt.if_nonempty
          · rw [if_pos hifn]
            obtain ⟨hinvQ, hpsbQ⟩ := pop_brk_push_end_inv hinv hpsb hd hne hlast htokL hhead
            exact ⟨_, rfl, hinvQ, hpsbQ⟩
          · rw [if_neg hifn]
            obtain ⟨hinvQ, hpsbQ⟩ := push_end_inv hinv.winv (hinv.posLeft hne) hinv.sorted
              hinv.live hinv.uos hinv.onstack hinv.nostring hinv.trailw hinv.botBegin
              hinv.offsInv hinv.dok hinv.resBeg hinv.resBrk hpsb hd
            exact ⟨_, rfl, hinvQ, hpsbQ⟩

/-- Printer::offset never panics when the newest buffered token is a Break
or a Begin and the applied delta is non-negative, and preserves the
invariant, the depth bookkeeping and the newest-token discipline. -/
theorem offs_safe {p : Printer} {d : Int} (hinv : Inv p) (hpsb : PSB p d)
    (hlast : lastBB p) (n : Int) (hn : 0 ≤ n) :
    ∃ q, p.offsetOp n = .ok q ∧ Inv q ∧ PSB q d ∧ lastBB q := by
  unfold Printer.offsetOp
  obtain ⟨eL, hgetL, hbb⟩ := hlast
  rw [hgetL]
  dsimp only
  cases htok : eL.token with
  | string s =>
    rw [htok] at hbb
    exact hbb.elim
  | endTok =>
    rw [htok] at hbb
    exact hbb.elim
  | beginTok t0 =>
    exact ⟨p, rfl, hinv, hpsb, ⟨eL, hgetL, by rw [htok]; trivial⟩⟩
  | brk t0 =>
    have hdne : p.buf.data ≠ [] := by
      intro hc
      rw [hc] at hgetL
      cases hgetL
    have hdec := eq_dropLast_append hgetL
    obtain ⟨hgetlast, hL1⟩ := getLast?_get? hgetL
    have hdllen : p.buf.data.dropLast.length = p.buf.data.length - 1 := by simp
    have hlast_unres : eL.size < 0 := by
      by_contra hcon
      push_neg at hcon
      rcases hinv.resBrk (p.buf.data.length - 1) eL hgetlast ⟨t0, htok⟩ hcon with
        ⟨kk, e2, hlt, hk2, _⟩ | ⟨kk, e2, hlt, hk2, _, _, _⟩ <;>
      · have := get?_lt_len hk2
        omega
    -- the rewritten entry
    refine ⟨_, rfl, ?_, ?_, ?_⟩
    pick_goal 3
    · exact ⟨_, List.getLast?_concat _, trivial⟩
    pick_goal 2
    · unfold PSB at hpsb ⊢
      unfold RingBuffer.setLast
      dsimp only
      rw [List.map_append, balSum_append]
      have h1 : p.buf.data.map BufEntry.token =
          p.buf.data.dropLast.map BufEntry.token ++ [Token.brk t0] := by
        conv_lhs => rw [hdec]
        rw [List.map_append]
        simp [htok]
      rw [h1, balSum_append] at hpsb
      have h2 : ∀ t1 : BreakToken,
          balSum ([(Token.brk t1)]) = 0 := by
        intro t1
        simp [balSum, balTok]
      have h3 : balSum ([(⟨.brk { t0 with offset := t0.offset + n }, eL.size⟩ :
          BufEntry)].map BufEntry.token) = 0 := by
        simp [balSum, balTok]
      rw [h2] at hpsb
      -- the new last entry in the goal is { eL with token := ... }
      have h4 : balSum ([({ eL with token := Token.brk { t0 with offset := t0.offset + n } } : BufEntry)].map BufEntry.token) = 0 := by
        simp [balSum, balTok]
      rw [h4]
      omega
    -- the invariant
    have hgetdl : ∀ j, j < p.buf.data.length - 1 →
        (p.buf.data.dropLast ++
          [({ eL with token := Token.brk { t0 with offset := t0.offset + n } } :
            BufEntry)]).get? j = p.buf.data.get? j := by
      intro j hj
      rw [List.get?_append (by omega), get?_dropLast_lt _ _ hj]
    have hgetnew : (p.buf.data.dropLast ++
        [({ eL with token := Token.brk { t0 with offset := t0.offset + n } } :
          BufEntry)]).get? (p.buf.data.length - 1) =
        some { eL with token := Token.brk { t0 with offset := t0.offset + n } } := by
      have h2 : p.buf.data.length - 1 = p.buf.data.dropLast.length := by omega
      rw [h2]
      exact List.get?_concat_length _ _
    have hlen2 : (p.buf.data.dropLast ++
        [({ eL with token := Token.brk { t0 with offset := t0.offset + n } } :
          BufEntry)]).length = p.buf.data.length := by
      simp
      omega
    have htotdrop : ∀ m, m ≤ p.buf.data.length - 1 →
        (totW ((p.buf.data.dropLast ++
          [({ eL with token := Token.brk { t0 with offset := t0.offset + n } } :
            BufEntry)]).drop m) : Int) = totW (p.buf.data.drop m) := by
      intro m hm
      rw [List.drop_append_of_le_length (by omega), totW_append]
      conv_rhs => rw [hdec]
      rw [List.drop_append_of_le_length (by omega), totW_append]
      have h2 : totW [({ eL with token := Token.brk { t0 with offset := t0.offset + n } } : BufEntry)] = t0.blank_space := by
        simp [totW, entW, tokW]
      have h3 : totW [eL] = t0.blank_space := by
        simp [totW, entW, tokW, htok]
      rw [h2, h3]
    refine ⟨?_, ?_, hinv.sorted, ?_, ?_, ?_, ?_, ?_, ?_, ?_, ?_, ?_, ?_, ?_⟩
    · have hw := hinv.winv
      unfold WInv at hw ⊢
      unfold RingBuffer.setLast
      dsimp only
      have h2 := htotdrop 0 (by omega)
      simp only [List.drop_zero] at h2
      rw [h2]
      exact hw
    · intro h
      exact hinv.posLeft h
    · intro i hi
      unfold RingBuffer.setLast
      dsimp only
      rw [hlen2]
      exact hinv.live i hi
    · intro j e he hneg
      unfold RingBuffer.setLast at he
      dsimp only at he ⊢
      by_cases hj : j < p.buf.data.length - 1
      · rw [hgetdl j hj] at he
        exact hinv.uos j e he hneg
      · by_cases hj2 : j = p.buf.data.length - 1
        · subst hj2
          rw [hgetnew] at he
          have h1 := hinv.uos (p.buf.data.length - 1) eL hgetlast hlast_unres
          exact h1
        · exfalso
          rw [List.get?_eq_none.mpr (by rw [hlen2]; omega)] at he
          cases he
    · intro i hi e he
      unfold RingBuffer.setLast at he
      dsimp only at he
      have hpos := (hinv.live i hi).2
      by_cases hj : i - p.buf.offset < p.buf.data.length - 1
      · rw [hgetdl _ hj] at he
        exact hinv.onstack i hi e he
      · have hj2 : i - p.buf.offset = p.buf.data.length - 1 := by omega
        rw [hj2, hgetnew] at he
        rw [← Option.some.inj he]
        exact hlast_unres
    · intro i hi e he s0
      unfold RingBuffer.setLast at he
      dsimp only at he
      have hpos := (hinv.live i hi).2
      by_cases hj : i - p.buf.offset < p.buf.data.length - 1
      · rw [hgetdl _ hj] at he
        exact hinv.nostring i hi e he s0
      · have hj2 : i - p.buf.offset = p.buf.data.length - 1 := by omega
        rw [hj2, hgetnew] at he
        rw [← Option.some.inj he]
        intro hc
        cases hc
    · intro i hi e he hbb2
      unfold RingBuffer.setLast at he ⊢
      dsimp only at he ⊢
      have hpos := (hinv.live i hi).2
      by_cases hj : i - p.buf.offset < p.buf.data.length - 1
      · rw [hgetdl _ hj] at he
        have h0 := hinv.trailw i hi e he hbb2
        rw [htotdrop _ (by omega)]
        exact h0
      · have hj2 : i - p.buf.offset = p.buf.data.length - 1 := by omega
        rw [hj2, hgetnew] at he
        have h0 := hinv.trailw i hi eL (by rw [hj2]; exact hgetlast)
          (by rw [htok]; trivial)
        rw [← Option.some.inj he]
        rw [hj2, htotdrop _ (by omega)]
        rw [hj2] at h0
        dsimp only
        exact h0
    · intro hc
      exfalso
      exact hdne (hinv.emptyInv hc)
    · intro b hb e he t2 htok2
      unfold RingBuffer.setLast at he
      dsimp only at he ⊢
      have hbm : b ∈ p.scan_stack := List.mem_of_mem_getLast? hb
      have hpos := (hinv.live b hbm).2
      by_cases hj : b - p.buf.offset < p.buf.data.length - 1
      · rw [hgetdl _ hj] at he
        exact hinv.botBegin b hb e he t2 htok2
      · exfalso
        have hj2 : b - p.buf.offset = p.buf.data.length - 1 := by omega
        rw [hj2, hgetnew] at he
        rw [← Option.some.inj he] at htok2
        cases htok2
    · intro j e he
      unfold RingBuffer.setLast at he
      dsimp only at he
      by_cases hj : j < p.buf.data.length - 1
      · rw [hgetdl j hj] at he
        exact hinv.offsInv j e he
      · by_cases hj2 : j = p.buf.data.length - 1
        · subst hj2
          rw [hgetnew] at he
          rw [← Option.some.inj he]
          have h1 := hinv.offsInv (p.buf.data.length - 1) eL hgetlast
          rw [htok] at h1
          unfold tokOffOk at h1 ⊢
          dsimp only
          omega
        · exfalso
          rw [List.get?_eq_none.mpr (by rw [hlen2]; omega)] at he
          cases he
    · unfold RingBuffer.setLast
      dsimp only
      have h1 := hinv.dok
      have h2 : p.buf.data.map BufEntry.token =
          p.buf.data.dropLast.map BufEntry.token ++ [Token.brk t0] := by
        conv_lhs => rw [hdec]
        rw [List.map_append]
        simp [htok]
      rw [h2, mpb_append] at h1
      rw [List.map_append, mpb_append]
      have h3 : mpb [Token.brk t0] = 0 := by simp [mpb, balTok]
      have h4 : mpb ([({ eL with token := Token.brk { t0 with offset := t0.offset + n } } : BufEntry)].map BufEntry.token) = 0 := by
        simp [mpb, balTok]
      rw [h3] at h1
      rw [h4]
      exact h1
    · intro j e he hbeg hsz
      unfold RingBuffer.setLast at he ⊢
      dsimp only at he ⊢
      by_cases hj : j < p.buf.data.length - 1
      · rw [hgetdl j hj] at he
        obtain ⟨kk, e2, hlt, hk2, hend⟩ := hinv.resBeg j e he hbeg hsz
        have hkk : kk < p.buf.data.length := get?_lt_len hk2
        have hkkA : kk ≠ p.buf.data.length - 1 := by
          intro hc
          subst hc
          rw [hgetlast] at hk2
          rw [← Option.some.inj hk2, htok] at hend
          cases hend
        refine ⟨kk, e2, hlt, ?_, hend⟩
        rw [hgetdl kk (by omega)]
        exact hk2
      · exfalso
        by_cases hj2 : j = p.buf.data.length - 1
        · subst hj2
          rw [hgetnew] at he
          obtain ⟨tb, htb⟩ := hbeg
          rw [← Option.some.inj he] at htb
          cases htb
        · rw [List.get?_eq_none.mpr (by rw [hlen2]; omega)] at he
          cases he
    · intro j e he hbrk hsz
      unfold RingBuffer.setLast at he ⊢
      dsimp only at he ⊢
      by_cases hj : j < p.buf.data.length - 1
      · rw [hgetdl j hj] at he
        rcases hinv.resBrk j e he hbrk hsz with
          ⟨kk, e2, hlt, hk2, hw⟩ | ⟨kk, e2, hlt, hk2, hbb2, hneg2, hnb⟩
        · left
          have hkk : kk < p.buf.data.length := get?_lt_len hk2
          have hkkA : kk ≠ p.buf.data.length - 1 := by
            intro hc
            subst hc
            rw [hgetlast] at hk2
            rw [← Option.some.inj hk2, htok] at hw
            rcases hw with ⟨s0, hs0⟩ | hs0
            · cases hs0
            · cases hs0
          refine ⟨kk, e2, hlt, ?_, hw⟩
          rw [hgetdl kk (by omega)]
          exact hk2
        · right
          have hkk : kk < p.buf.data.length := get?_lt_len hk2
          by_cases hkkA : kk = p.buf.data.length - 1
          · -- the rewritten Break itself: still an unresolved Break
            subst hkkA
            rw [hgetlast] at hk2
            have heL : e2 = eL := Option.some.inj hk2.symm
            refine ⟨p.buf.data.length - 1,
              { eL with token := Token.brk { t0 with offset := t0.offset + n } },
              hlt, hgetnew, ⟨_, rfl⟩, ?_, ?_⟩
            · dsimp only
              exact hlast_unres
            · intro mm e3 hmm1 hmm2 hm3 tb htb
              rw [hgetdl mm (by omega)] at hm3
              exact hnb mm e3 hmm1 hmm2 hm3 tb htb
          · refine ⟨kk, e2, hlt, ?_, hbb2, hneg2, ?_⟩
            · rw [hgetdl kk (by omega)]
              exact hk2
            · intro mm e3 hmm1 hmm2 hm3 tb htb
              rw [hgetdl mm (by omega)] at hm3
              exact hnb mm e3 hmm1 hmm2 hm3 tb htb
      · exfalso
        by_cases hj2 : j = p.buf.data.length - 1
        · subst hj2
          rw [hgetnew] at he
          rw [← Option.some.inj he] at hsz
          dsimp only at hsz
          omega
        · rw [List.get?_eq_none.mpr (by rw [hlen2]; omega)] at he
          cases he

/-- Unfolding one successful step of a driver run. -/
theorem runOps_cons_ok {p q : Printer} {op : Op} {ops : List Op}
    (h : step p op = .ok q) : runOps p (op :: ops) = runOps q ops := by
  unfold runOps
  rw [List.foldlM_cons, h]
  simp only [bind, Except.bind]

/-- The fresh printer satisfies the safety invariant. -/
theorem inv_new : Inv Printer.new := by
  refine ⟨?_, ?_, ?_, ?_, ?_, ?_, ?_, ?_, ?_, ?_, ?_, ?_, ?_, ?_⟩
  · unfold WInv Printer.new
    simp [totW, RingBuffer.empty]
  · intro h
    exact absurd rfl h
  · simp [Printer.new]
  · intro i hi
    simp [Printer.new] at hi
  · intro j e he
    simp [Printer.new, RingBuffer.empty] at he
  · intro i hi
    simp [Printer.new] at hi
  · intro i hi
    simp [Printer.new] at hi
  · intro i hi
    simp [Printer.new] at hi
  · intro _
    rfl
  · intro b hb
    simp [Printer.new] at hb
  · intro j e he
    simp [Printer.new, RingBuffer.empty] at he
  · simp [Printer.new, RingBuffer.empty, mpb]
  · intro j e he
    simp [Printer.new, RingBuffer.empty] at he
  · intro j e he
    simp [Printer.new, RingBuffer.empty] at he

/-- The fresh printer's depth bookkeeping starts at zero. -/
theorem psb_new : PSB Printer.new 0 := by
  unfold PSB
  simp [Printer.new, RingBuffer.empty, balSum]

/-- A well-formed driver sequence runs without error from any state
satisfying the invariant, whose depth bookkeeping matches the sequence's
starting balance, and the invariant still holds at the end. -/
theorem run_safe : ∀ (ops : List Op) (p : Printer) (d : Int) (flag : Bool),
    Inv p → PSB p d → 0 ≤ d → (flag = true → lastBB p) →
    netOk d ops → offsOk flag ops → (∀ op ∈ ops, opOffOk op) →
    ∃ q, runOps p ops = .ok q ∧ Inv q := by
  intro ops
  induction ops with
  | nil =>
    intro p d flag hinv _ _ _ _ _ _
    exact ⟨p, rfl, hinv⟩
  | cons op rest ih =>
    intro p d flag hinv hpsb hd hflag hnet hoffs hop
    obtain ⟨hnet1, hnet2⟩ := hnet
    obtain ⟨hoffs1, hoffs2⟩ := hoffs
    have hopo : opOffOk op := hop op (List.mem_cons_self op rest)
    have hoprest : ∀ o ∈ rest, opOffOk o := fun o ho => hop o (List.mem_cons_of_mem op ho)
    cases op with
    | string s =>
      obtain ⟨q, hq, hinvq, hpsbq⟩ := scan_string_safe hinv hpsb hd s
      have hstep : step p (Op.string s) = .ok q := hq
      rw [runOps_cons_ok hstep]
      have h1 : d + opBal (Op.string s) = d := by
        show d + (0 : Int) = d
        omega
      rw [h1] at hnet2
      exact ih q d false hinvq hpsbq hd (fun hc => by cases hc) hnet2 hoffs2 hoprest
    | brk t =>
      obtain ⟨q, hq, hinvq, hpsbq, hlbq⟩ := scan_break_safe hinv hpsb hd t hopo
      have hstep : step p (Op.brk t) = .ok q := hq
      rw [runOps_cons_ok hstep]
      have h1 : d + opBal (Op.brk t) = d := by
        show d + (0 : Int) = d
        omega
      rw [h1] at hnet2
      exact ih q d true hinvq hpsbq hd (fun _ => hlbq) hnet2 hoffs2 hoprest
    | beginB t =>
      obtain ⟨hinvq, hpsbq, hlbq⟩ := scan_begin_safe hinv hpsb hd t hopo
      have hstep : step p (Op.beginB t) = .ok (p.scan_begin t) := rfl
      rw [runOps_cons_ok hstep]
      have h1 : d + opBal (Op.beginB t) = d + 1 := by
        show d + (1 : Int) = d + 1
        omega
      rw [h1] at hnet2
      exact ih (p.scan_begin t) (d + 1) true hinvq hpsbq (by omega) (fun _ => hlbq)
        hnet2 hoffs2 hoprest
    | endE =>
      have h1 : d + opBal Op.endE = d - 1 := by
        show d + (-1 : Int) = d - 1
        omega
      rw [h1] at hnet1 hnet2
      have hd1 : 1 ≤ d := by omega
      obtain ⟨q, hq, hinvq, hpsbq⟩ := scan_end_safe hinv hpsb hd1
      have hstep : step p Op.endE = .ok q := hq
      rw [runOps_cons_ok hstep]
      exact ih q (d - 1) false hinvq hpsbq (by omega) (fun hc => by cases hc)
        hnet2 hoffs2 hoprest
    | offs n =>
      have hfl : flag = true := hoffs1 n rfl
      obtain ⟨q, hq, hinvq, hpsbq, hlbq⟩ := offs_safe hinv hpsb (hflag hfl) n hopo
      have hstep : step p (Op.offs n) = .ok q := hq
      rw [runOps_cons_ok hstep]
      have h1 : d + opBal (Op.offs n) = d := by
        show d + (0 : Int) = d
        omega
      rw [h1] at hnet2
      have hoffs2a : offsOk flag rest := hoffs2
      rw [hfl] at hoffs2a
      exact ih q d true hinvq hpsbq hd (fun _ => hlbq) hnet2 hoffs2a hoprest

/-- The flush performed by eof never fails from a state satisfying the
safety invariant. -/
theorem eof_safe {p : Printer} (hinv : Inv p) : ∃ q, p.eofFlush = .ok q := by
  unfold Printer.eofFlush
  by_cases hemp : p.scan_stack.isEmpty
  · rw [if_pos hemp]
    exact ⟨p, rfl⟩
  · rw [if_neg hemp]
    have hne : p.scan_stack ≠ [] := by
      intro hc
      rw [hc] at hemp
      exact hemp rfl
    obtain ⟨i0, hi0⟩ := List.exists_mem_of_ne_nil p.scan_stack hne
    have hdne : p.buf.data ≠ [] := by
      intro hc
      have h1 := (hinv.live i0 hi0).2
      rw [hc] at h1
      simp at h1
    obtain ⟨q1, hq1, hcsp⟩ := check_stack_safe (p.scan_stack.length + 1) p 0
      (by omega) hinv.sorted hinv.live hinv.nostring hinv.trailw
      (fun h => absurd h (by omega))
    have hq1x : Printer.check_stack p 0 = .ok q1 := hq1
    have hlen : q1.buf.data.length = p.buf.data.length := len_of_mapTok hcsp.toks
    have hdneQ : q1.buf.data ≠ [] := by
      intro hc
      apply hdne
      have h2 : p.buf.data.length = 0 := by
        rw [← hlen, hc]
        rfl
      exact List.length_eq_zero.mp h2
    have hdokQ : 0 ≤ (q1.print_stack.length : Int) +
        mpb (q1.buf.data.map BufEntry.token) := by
      rw [hcsp.ps, hcsp.toks]
      exact hinv.dok
    have hoffsQ : ∀ j e, q1.buf.data.get? j = some e → tokOffOk e.token := by
      intro j e he
      obtain ⟨e2, he2, htk⟩ := get?_token_of_mapTok hcsp.toks he
      have h1 := hinv.offsInv j e2 he2
      rw [htk] at h1
      exact h1
    obtain ⟨q2, hq2, _⟩ := advance_left_safe (q1.buf.data.length + 1) q1
      (by omega) hdneQ hdokQ hoffsQ
    refine ⟨q2, ?_⟩
    rw [hq1x]
    simp only [bind, Except.bind]
    exact hq2

/-- C7: For every well-formed driver token sequence — every End matched by
a preceding unmatched Begin (the running block balance, started at 0,
never goes negative), offset applied only when the last token is a Break
or a Begin (each offset is immediately preceded by a Break, a Begin, or
another offset), and block offsets never driving indent negative
(formalised as every Begin, Break and offset operation carrying a
non-negative offset) — no engine operation returns an error, and eof
terminates and returns the accumulated output string. -/
theorem engine_infallible (ops : List Op) (hnet : netOk 0 ops)
    (hoffs : offsOk false ops) (hop : ∀ op ∈ ops, opOffOk op) :
    ∃ q s, runOps Printer.new ops = .ok q ∧ q.eofRun = .ok s := by
  obtain ⟨q, hq, hinvq⟩ := run_safe ops Printer.new 0 false inv_new psb_new
    (le_refl 0) (fun hc => by cases hc) hnet hoffs hop
  obtain ⟨qf, hqf⟩ := eof_safe hinvq
  refine ⟨q, qf.out, hq, ?_⟩
  unfold Printer.eofRun
  rw [hqf]
  rfl

/-- The infallibility theorem applied to the concrete well-formed driver
sequence c7ops: its hypotheses hold and the run and the eof flush both
return ok. -/
theorem engine_infallible_witness :
    netOk 0 c7ops ∧ offsOk false c7ops ∧ (∀ op ∈ c7ops, opOffOk op) ∧
    ∃ q s, runOps Printer.new c7ops = .ok q ∧ q.eofRun = .ok s := by
  refine ⟨?_, ?_, ?_, ?_⟩
  · norm_num [c7ops, netOk, opBal]
  · norm_num [c7ops, offsOk]
    exact ⟨fun n h => Op.noConfusion h, fun n h => Op.noConfusion h,
      fun n h => Op.noConfusion h⟩
  · intro op hop
    fin_cases hop <;> norm_num [opOffOk]
  · exact engine_infallible c7ops (by norm_num [c7ops, netOk, opBal])
      (by norm_num [c7ops, offsOk]
          exact ⟨fun n h => Op.noConfusion h, fun n h => Op.noConfusion h,
            fun n h => Op.noConfusion h⟩)
      (by intro op hop; fin_cases hop <;> norm_num [opOffOk])

/-- C9: Printer::path asserts that its Path argument has at least one
segment: on an empty segment list it fails on the entry assertion before
emitting anything, and on a nonempty list the assertion is never the
failure. -/
theorem path_assert_spec :
    ∀ (L T E TB R : Type) (X : SynPrinters L T E TB R) (st : Printer)
      (pa : Path L T E TB R),
      (pa.segments = [] → path_print X st pa = .error .pathAssert) ∧
      (pa.segments ≠ [] → path_print X st pa ≠ .error .pathAssert) := by
  intro L T E TB R X st pa
  constructor
  · intro h
    unfold path_print
    rw [if_pos (by simp [h])]
  · intro h
    unfold path_print
    rw [if_neg (by simpa using h)]
    cases hx : path_segments_loop X st pa.segments true pa.leading_colon with
    | ok a => simp [liftE]
    | error e => simp [liftE]

/-- Witness for path_assert_spec: the empty path and a one-segment path on
a fresh printer, with trivial payload printers. -/
theorem path_assert_spec_witness :
    (path_print trivialSyn Printer.new
        { leading_colon := false, segments := [] } = .error .pathAssert) ∧
    (path_print trivialSyn Printer.new
        { leading_colon := false
          segments := [{ ident := ['a'], arguments := PathArguments.noArgs }] } ≠
      .error .pathAssert) :=
  ⟨(path_assert_spec Unit Unit Unit Unit Unit trivialSyn Printer.new
      { leading_colon := false, segments := [] }).1 rfl,
   (path_assert_spec Unit Unit Unit Unit Unit trivialSyn Printer.new
      { leading_colon := false
        segments := [{ ident := ['a'], arguments := PathArguments.noArgs }] }).2
     (by simp)⟩

/-- C10: printing a path segment whose arguments are AngleBracketed with an
empty argument list is identical, in output and final engine state, to
printing it with PathArguments::None: angle_bracketed_generic_arguments
returns immediately on an empty argument list. -/
theorem empty_angle_bracketed_noop :
    ∀ (L T E TB R : Type) (X : SynPrinters L T E TB R) (st : Printer) (id : Chars)
      (c2 : Bool),
      path_segment X st { ident := id, arguments := .angleBracketed ⟨c2, []⟩ } =
        path_segment X st { ident := id, arguments := PathArguments.noArgs } := by
  intro L T E TB R X st id c2
  unfold path_segment
  simp only [bind, Except.bind]
  cases st.identP id with
  | error e => rfl
  | ok p => simp [path_arguments, angle_bracketed_generic_arguments]

end PP
